import Mathlib

/-!
# presuf: multi-pass prefix frequency reduction

A shallow embedding of `cmd/presuf/main.go`.

* A Go `string` is a sequence of bytes (`GoString`).  The corpus is UTF-8 text,
  so a line is given by its sequence of Unicode scalar values (`List Char`):
  `[]rune(wordStr)` is that sequence and `wordStr` is its UTF-8 encoding.
* Go `int` counters are `Int` (a count is bounded by the number of lines).
* `container/heap` is embedded from the Go standard library (`up`, `down`,
  `Push`, `Pop`) over the `prefixCountHeap` methods of the program.
* A Go `map[string]int` is an association list without duplicate keys; the
  iteration order of `range` is the list order.
* `log.Fatalf` and run-time panics end the run: they are the `Exit` of an
  `Outcome`, next to the lines printed on standard output so far.
* The `make` of a slice panics on a negative size and on a size beyond
  `maxAlloc` bytes (64-bit platform, as for the 64-bit `int`); within that
  limit it succeeds, the machine being taken to have the memory.
-/

namespace Presuf

/-! ## Strings and runes -/

/-- A Go string: its bytes. -/
abbrev GoString := List Nat

/-- UTF-8 encoding of one rune, as done by the conversion `string(rune)`. -/
def encodeRune (r : Char) : GoString :=
  let c := r.toNat
  if c < 0x80 then [c]
  else if c < 0x800 then [0xC0 + c / 64, 0x80 + c % 64]
  else if c < 0x10000 then [0xE0 + c / 4096, 0x80 + c / 64 % 64, 0x80 + c % 64]
  else [0xF0 + c / 262144, 0x80 + c / 4096 % 64, 0x80 + c / 64 % 64, 0x80 + c % 64]

/-- The conversion `string(rs)` of a rune slice. -/
def runesToString : List Char → GoString
  | [] => []
  | r :: rs => encodeRune r ++ runesToString rs

/-- Go's `a < b` on strings: bytewise lexicographic comparison. -/
def stringLess : GoString → GoString → Bool
  | _, [] => false
  | [], _ :: _ => true
  | a :: as, b :: bs => if a < b then true else if b < a then false else stringLess as bs

/-- The program's `runeSliceIsEqual`. -/
def runeSliceIsEqual : List Char → List Char → Bool
  | [], [] => true
  | a :: as, b :: bs => if a ≠ b then false else runeSliceIsEqual as bs
  | _, _ => false

/-- The slice expression `k[0:n]` on a string; `none` is the run-time panic
"slice bounds out of range". -/
def sliceTo (k : GoString) (n : Nat) : Option GoString :=
  if n ≤ k.length then some (k.take n) else none

/-! ## prefixCount and its heap -/

/-- The program's `prefixCount`. -/
structure prefixCount where
  Prefix : GoString
  Count : Int
deriving DecidableEq, Repr, Inhabited

/-- The program's `prefixCountHeap`. -/
abbrev prefixCountHeap := List prefixCount

/-- Method `Less` of `prefixCountHeap`. -/
def Less (pch : prefixCountHeap) (i j : Nat) : Bool :=
  decide ((pch.getD i default).Count < (pch.getD j default).Count)

/-- Method `Swap` of `prefixCountHeap`. -/
def Swap (pch : prefixCountHeap) (i j : Nat) : prefixCountHeap :=
  (pch.set i (pch.getD j default)).set j (pch.getD i default)

/-- Function `up` of `container/heap`; the first argument bounds the number of
iterations and `j` is enough, as the index strictly decreases. -/
def up : Nat → prefixCountHeap → Nat → prefixCountHeap
  | 0, h, _ => h
  | fuel + 1, h, j =>
    let i := (j - 1) / 2
    if i = j ∨ Less h j i = false then h
    else up fuel (Swap h i j) i

/-- The child `j` that `down` compares with `i`: the right child `j2 = j1 + 1`
when it is below `n` and less than the left child `j1 = 2*i + 1`, else `j1`. -/
def downChild (h : prefixCountHeap) (i n : Nat) : Nat :=
  if 2 * i + 1 + 1 < n ∧ Less h (2 * i + 1 + 1) (2 * i + 1) = true then 2 * i + 1 + 1
  else 2 * i + 1

/-- Function `down` of `container/heap`; the first argument bounds the number of
iterations and `n - i` is enough, as the index strictly increases. -/
def down : Nat → prefixCountHeap → Nat → Nat → prefixCountHeap
  | 0, h, _, _ => h
  | fuel + 1, h, i, n =>
    if n ≤ 2 * i + 1 then h
    else if Less h (downChild h i n) i = false then h
    else down fuel (Swap h i (downChild h i n)) (downChild h i n) n

/-- The call `heap.Push(&h, x)`: method `Push` appends, then `up` from the last
index. -/
def heapPush (h : prefixCountHeap) (x : prefixCount) : prefixCountHeap :=
  up (h.length) (h ++ [x]) (h.length)

/-- The call `heap.Pop(&h)`: swap root and last, `down` on the first `n`
entries, then method `Pop` removes and returns the last entry.  `none` is the
panic on an empty heap. -/
def heapPop (h : prefixCountHeap) : Option (prefixCount × prefixCountHeap) :=
  match h with
  | [] => none
  | _ :: _ =>
    let n := h.length - 1
    let h1 := down n (Swap h 0 n) 0 n
    some (h1.getD n default, h1.take n)

/-- The selector insert of the program (lines 160-166 and 181-187):
`heap.Push` followed by `heap.Pop` when `len(heap) >= nbCandidates[i]`.
The second component is the entry removed by the `Pop`, if any. -/
def selectorInsert (cap : Int) (h : prefixCountHeap) (x : prefixCount) :
    prefixCountHeap × Option prefixCount :=
  let h1 := heapPush h x
  if cap ≤ (h1.length : Int) then
    match heapPop h1 with
    | some (e, h2) => (h2, some e)
    | none => (h1, none)
  else (h1, none)

/-! ## Maps -/

/-- A `map[string]int`. -/
abbrev PrefixMap := List (GoString × Int)

/-- The lookup `_, ok := m[k]`. -/
def mapHas (m : PrefixMap) (k : GoString) : Bool :=
  m.any (fun kv => decide (kv.1 = k))

/-- The lookup `m[k]` with its presence flag. -/
def mapGet (m : PrefixMap) (k : GoString) : Option Int :=
  (m.find? (fun kv => decide (kv.1 = k))).map Prod.snd

/-- The assignment `m[k] = v`. -/
def mapSet (m : PrefixMap) (k : GoString) (v : Int) : PrefixMap :=
  (k, v) :: m.filter (fun kv => !decide (kv.1 = k))

/-- The drain loop of lines 189-192: pop until the heap is empty, storing each
popped entry in the map.  The first argument bounds the number of iterations
and the heap length is enough. -/
def drain : Nat → prefixCountHeap → PrefixMap → PrefixMap
  | 0, _, m => m
  | fuel + 1, h, m =>
    match heapPop h with
    | none => m
    | some (p, h1) => drain fuel h1 (mapSet m p.Prefix p.Count)

/-! ## One pass of the reducer -/

/-- The mutable state of a pass (lines 128-142).  `pushed` is a history
variable: the arguments of the `heap.Push` calls of the pass, in order. -/
structure PassState where
  currentPrefixHeap : prefixCountHeap
  oldPrefixes : List (List Char)
  oldPrefixesCounts : List Int
  pushed : List prefixCount
deriving DecidableEq, Repr

/-- The loop of lines 170-172: `oldPrefixesCounts[j] -= oldPrefixesCounts[i]`
for `j` from the second argument minus one down to `0`. -/
def cascade (i : Nat) : Nat → List Int → List Int
  | 0, counts => counts
  | j + 1, counts => cascade i j (counts.set j (counts.getD j 0 - counts.getD i 0))

/-- The push of the level accumulator into the selector (lines 160-166,
181-187). -/
def flush (nbCandidates : List Int) (currentPass : Nat) (st : PassState) : PassState :=
  let x : prefixCount :=
    { Prefix := runesToString (st.oldPrefixes.getD currentPass []),
      Count := st.oldPrefixesCounts.getD currentPass 0 }
  { st with
    currentPrefixHeap := (selectorInsert (nbCandidates.getD currentPass 0) st.currentPrefixHeap x).1
    pushed := st.pushed ++ [x] }

/-- The body of the loop over levels for one word (lines 151-177). -/
def levelStep (nbCandidates : List Int) (minLen currentPass : Nat)
    (prefixMaps : List PrefixMap) (word : List Char) (st : PassState) (i : Nat) : PassState :=
  let prefixLen := i + minLen
  if word.length < prefixLen then st
  else if runeSliceIsEqual (word.take prefixLen) (st.oldPrefixes.getD i []) then
    { st with oldPrefixesCounts := st.oldPrefixesCounts.set i (st.oldPrefixesCounts.getD i 0 + 1) }
  else
    let st1 :=
      if i = currentPass then flush nbCandidates currentPass st
      else if mapHas (prefixMaps.getD i []) (runesToString (st.oldPrefixes.getD i [])) then
        { st with oldPrefixesCounts := cascade i i st.oldPrefixesCounts }
      else st
    { st1 with
      oldPrefixes := st1.oldPrefixes.set i (word.take prefixLen)
      oldPrefixesCounts := st1.oldPrefixesCounts.set i 1 }

/-- The loop `for i := nbPrefixes - 1; i >= currentPass; i--` (line 150), with
the number of remaining levels as first argument. -/
def wordLevels (nbCandidates : List Int) (minLen currentPass : Nat)
    (prefixMaps : List PrefixMap) (word : List Char) : Nat → PassState → PassState
  | 0, st => st
  | k + 1, st =>
    wordLevels nbCandidates minLen currentPass prefixMaps word k
      (levelStep nbCandidates minLen currentPass prefixMaps word st (currentPass + k))

/-- The scan loop of lines 143-179 over the lines of the corpus; `none` is the
`log.Fatalf` of line 146 on a line that is less than the one before. -/
def scan (nbCandidates : List Int) (minLen nbPrefixes currentPass : Nat)
    (prefixMaps : List PrefixMap) : GoString → PassState → List (List Char) → Option PassState
  | _, st, [] => some st
  | oldWord, st, word :: rest =>
    if stringLess (runesToString word) oldWord then none
    else
      scan nbCandidates minLen nbPrefixes currentPass prefixMaps (runesToString word)
        (wordLevels nbCandidates minLen currentPass prefixMaps word (nbPrefixes - currentPass) st)
        rest

/-- The state at the start of a pass (lines 128, 136-142). -/
def initState (minLen nbPrefixes : Nat) : PassState :=
  { currentPrefixHeap := []
    oldPrefixes := (List.range nbPrefixes).map (fun i => List.replicate (i + minLen) (Char.ofNat 0))
    oldPrefixesCounts := List.replicate nbPrefixes 0
    pushed := [] }

/-- The state of pass `currentPass` after the scan and the flush of the
remaining prefix (lines 128-187); `none` when the scan aborts. -/
def passState (nbCandidates : List Int) (minLen nbPrefixes : Nat) (corpus : List (List Char))
    (prefixMaps : List PrefixMap) (currentPass : Nat) : Option PassState :=
  (scan nbCandidates minLen nbPrefixes currentPass prefixMaps [] (initState minLen nbPrefixes)
    corpus).map (flush nbCandidates currentPass)

/-- The largest number of bytes that the run time allocates in one piece on a
64-bit platform such as linux/amd64 (`maxAlloc` of the Go run time,
`1 << 48`). -/
def maxAlloc : Int := 2 ^ 48

/-- Whether `make([]T, n)` or `make([]T, 0, n)` panics, for elements of `size`
bytes: on a negative `n`, and when `size * n` bytes exceed `maxAlloc`
("makeslice: len out of range", "makeslice: cap out of range").  An allocation
within that limit is taken to succeed: a machine that runs out of memory is not
modelled. -/
def makeslicePanics (size n : Int) : Bool :=
  decide (n < 0) || decide (maxAlloc < size * n)

/-- Whether a `make` of lines 137-142 panics: the `nbPrefixes` slice headers of
24 bytes of `oldPrefixes`, its slices of `i + minLen` runes of 4 bytes, and the
`nbPrefixes` counts of 8 bytes. -/
def levelsMakePanic (minLen nbPrefixes : Nat) : Bool :=
  makeslicePanics 24 nbPrefixes ||
    (List.range nbPrefixes).any (fun i => makeslicePanics 4 ((i + minLen : Nat) : Int)) ||
    makeslicePanics 8 nbPrefixes

/-- Whether a `make` of pass `currentPass` panics: the heap of line 128, with
room for `nbCandidates[currentPass]` entries of 24 bytes (a string header and an
`int`), or a slice of lines 137-142. -/
def passMakePanics (nbCandidates : List Int) (minLen nbPrefixes currentPass : Nat) : Bool :=
  makeslicePanics 24 (nbCandidates.getD currentPass 0) || levelsMakePanic minLen nbPrefixes

/-- What the passes leave behind: the program's `prefixMaps`, and as a history
variable the entries pushed into the selector by the pass of each level. -/
structure Reducer where
  prefixMaps : List PrefixMap
  pushedLog : List (List prefixCount)
deriving DecidableEq, Repr

/-- How the passes end: with a value, with the `log.Fatalf` of line 146 on an
out-of-order line, or with a run-time panic. -/
inductive Run (α : Type) where
  | done (a : α)
  | orderViolation
  | panic
deriving DecidableEq, Repr

/-- One iteration of the loop of line 127: the allocation of the heap
(`make(prefixCountHeap, 0, nbCandidates[currentPass])`, line 128) and of the
accumulators (lines 137-142), which panic on a negative capacity and on a size
beyond the limit of the run time, the pass, then the drain of the heap into
`prefixMaps[currentPass]`. -/
def runPass (nbCandidates : List Int) (minLen nbPrefixes : Nat) (corpus : List (List Char))
    (r : Reducer) (currentPass : Nat) : Run Reducer :=
  if passMakePanics nbCandidates minLen nbPrefixes currentPass then Run.panic
  else
    match passState nbCandidates minLen nbPrefixes corpus r.prefixMaps currentPass with
    | none => Run.orderViolation
    | some st =>
      Run.done
        { prefixMaps := r.prefixMaps.set currentPass
            (drain st.currentPrefixHeap.length st.currentPrefixHeap
              (r.prefixMaps.getD currentPass []))
          pushedLog := r.pushedLog.set currentPass st.pushed }

/-- The loop `for currentPass := nbPrefixes - 1; currentPass >= 0; currentPass--`
(line 127), with the number of remaining passes as first argument. -/
def runPasses (nbCandidates : List Int) (minLen nbPrefixes : Nat) (corpus : List (List Char)) :
    Nat → Reducer → Run Reducer
  | 0, r => Run.done r
  | k + 1, r =>
    match runPass nbCandidates minLen nbPrefixes corpus r k with
    | Run.done r1 => runPasses nbCandidates minLen nbPrefixes corpus k r1
    | Run.orderViolation => Run.orderViolation
    | Run.panic => Run.panic

/-- The maps of lines 123-126, all empty. -/
def initReducer (nbPrefixes : Nat) : Reducer :=
  { prefixMaps := List.replicate nbPrefixes []
    pushedLog := List.replicate nbPrefixes [] }

/-- The allocation of `prefixMaps` (`make([]map[string]int, nbPrefixes)`, line
123, of 8 bytes per map; the `make` of a map of line 125 does not panic), then
all the passes (lines 127-193). -/
def reduce (nbCandidates : List Int) (minLen nbPrefixes : Nat)
    (corpus : List (List Char)) : Run Reducer :=
  if makeslicePanics 8 nbPrefixes then Run.panic
  else runPasses nbCandidates minLen nbPrefixes corpus nbPrefixes (initReducer nbPrefixes)

/-- The family `prefixMaps` after all passes: `LevelResult[0..N-1]`. -/
def levelResults (nbCandidates : List Int) (minLen nbPrefixes : Nat)
    (corpus : List (List Char)) : Run (List PrefixMap) :=
  match reduce nbCandidates minLen nbPrefixes corpus with
  | Run.done r => Run.done r.prefixMaps
  | Run.orderViolation => Run.orderViolation
  | Run.panic => Run.panic

/-! ## The redundancy eliminator -/

/-- How a run ends. -/
inductive Exit where
  | ok
  | orderViolation
  | panic
deriving DecidableEq, Repr

/-- What a run leaves behind: the `count:prefix` lines printed on standard
output, and how it ended. -/
structure Outcome where
  stdout : List (Int × GoString)
  exit : Exit
deriving DecidableEq, Repr

/-- The loop of lines 202-207 for the key `k` of level `i`, with the number of
remaining levels as last argument (`j = i - n`); `none` is the panic of
`k[0:prefixLen]`. -/
def hasShortestPrefixMatched (prefixMaps : List PrefixMap) (minLen : Nat) (k : GoString)
    (i : Nat) : Nat → Option Bool
  | 0 => some false
  | n + 1 =>
    match sliceTo k (i - (n + 1) + minLen) with
    | none => none
    | some p =>
      if mapHas (prefixMaps.getD (i - (n + 1)) []) p then some true
      else hasShortestPrefixMatched prefixMaps minLen k i n

/-- The loop of line 196 over the entries of `prefixMaps[i]`. -/
def emitLevel (prefixMaps : List PrefixMap) (minLen i : Nat) :
    List (GoString × Int) → List (Int × GoString) → Outcome
  | [], out => { stdout := out, exit := Exit.ok }
  | (k, v) :: rest, out =>
    match hasShortestPrefixMatched prefixMaps minLen k i i with
    | none => { stdout := out, exit := Exit.panic }
    | some true => emitLevel prefixMaps minLen i rest out
    | some false => emitLevel prefixMaps minLen i rest (out ++ [(v, k)])

/-- The loop of line 195 over the levels, with the number of remaining levels
as first argument (`i = nbPrefixes - n`). -/
def finale (prefixMaps : List PrefixMap) (minLen nbPrefixes : Nat) :
    Nat → List (Int × GoString) → Outcome
  | 0, out => { stdout := out, exit := Exit.ok }
  | n + 1, out =>
    let o := emitLevel prefixMaps minLen (nbPrefixes - (n + 1))
      (prefixMaps.getD (nbPrefixes - (n + 1)) []) out
    match o.exit with
    | Exit.ok => finale prefixMaps minLen nbPrefixes n o.stdout
    | _ => o

/-- The redundancy eliminator on a family of level results (lines 195-213). -/
def eliminate (prefixMaps : List PrefixMap) (minLen : Nat) : Outcome :=
  finale prefixMaps minLen prefixMaps.length prefixMaps.length []

/-- The program from line 114 on, for the capacities `nbCandidates` computed
by lines 101-113 (which need `1 ≤ nbPrefixes`). -/
def presuf (nbCandidates : List Int) (minLen nbPrefixes : Nat)
    (corpus : List (List Char)) : Outcome :=
  match levelResults nbCandidates minLen nbPrefixes corpus with
  | Run.done prefixMaps => finale prefixMaps minLen nbPrefixes nbPrefixes []
  | Run.orderViolation => { stdout := [], exit := Exit.orderViolation }
  | Run.panic => { stdout := [], exit := Exit.panic }

/-! ## Notions of the specification -/

/-- The `make` calls of pass `currentPass` succeed: the capacity of the level
is non-negative and its entries of 24 bytes fit in `maxAlloc` bytes (line 128),
and so do the `nbPrefixes` slice headers of 24 bytes and the `i + minLen` runes
of 4 bytes of every level `i` (lines 137-142). -/
@[reducible]
def passAllocates (nbCandidates : List Int) (minLen nbPrefixes currentPass : Nat) : Prop :=
  (0 ≤ nbCandidates.getD currentPass 0 ∧ 24 * nbCandidates.getD currentPass 0 ≤ maxAlloc) ∧
    24 * (nbPrefixes : Int) ≤ maxAlloc ∧
    ∀ i, i < nbPrefixes → 4 * ((i + minLen : Nat) : Int) ≤ maxAlloc

/-- Some line compares strictly less than the line immediately before it. -/
def orderViolated (corpus : List (List Char)) : Prop :=
  ∃ k, k + 1 < corpus.length ∧
    stringLess (runesToString (corpus.getD (k + 1) [])) (runesToString (corpus.getD k [])) = true

/-- No line is less than `oldWord` or than the line before it. -/
def sortedFrom : GoString → List (List Char) → Bool
  | _, [] => true
  | oldWord, word :: rest =>
    !stringLess (runesToString word) oldWord && sortedFrom (runesToString word) rest

/-- The corpus is sorted: no line is less than the line before it. -/
def corpusSorted (corpus : List (List Char)) : Bool := sortedFrom [] corpus

/-- The selector after the inserts `xs`, starting empty. -/
def selectorFold (cap : Int) (xs : List prefixCount) : prefixCountHeap :=
  xs.foldl (fun h x => (selectorInsert cap h x).1) []

/-- The heap of a pass is the selector fed with the pushed entries. -/
def HeapHist (cap : Int) (st : PassState) : Prop :=
  st.currentPrefixHeap = selectorFold cap st.pushed

/-- The count of the entry at index `k`. -/
def countAt (h : prefixCountHeap) (k : Nat) : Int := (h.getD k default).Count

/-- The heap order of `container/heap` on the first `n` entries: no entry is
less than its parent. -/
def isHeapOn (h : prefixCountHeap) (n : Nat) : Prop :=
  ∀ k, 0 < k → k < n → countAt h ((k - 1) / 2) ≤ countAt h k

/-- The heap order on the whole slice. -/
def isHeap (h : prefixCountHeap) : Prop := isHeapOn h h.length

/-- The number of corpus words that start with the prefix `p`. -/
def wordsStartingWith (corpus : List (List Char)) (p : List Char) : Nat :=
  corpus.countP (fun w => p.isPrefixOf w)

/-- The prefixes of `n` runes of the corpus words that have that many. -/
def levelPrefixes (n : Nat) (corpus : List (List Char)) : List (List Char) :=
  (corpus.filter (fun w => decide (n ≤ w.length))).map (List.take n)

/-- The runs of equal consecutive prefixes with their lengths, starting from
the accumulator `(acc, cnt)`. -/
def runsFrom : List Char → Int → List (List Char) → List (List Char × Int)
  | acc, cnt, [] => [(acc, cnt)]
  | acc, cnt, p :: ps =>
    if p = acc then runsFrom acc (cnt + 1) ps else (acc, cnt) :: runsFrom p 1 ps

/-- The selector entry of an accumulator. -/
def toPrefixCount (a : List Char × Int) : prefixCount :=
  { Prefix := runesToString a.1, Count := a.2 }

/-- The order of the corpus on lines: `q` is not less than `p`. -/
def runesLe (p q : List Char) : Prop :=
  stringLess (runesToString q) (runesToString p) = false

/-- The number of corpus words that start with `p` and with none of the
longer prefixes `selected`. -/
def unclaimedWords (corpus : List (List Char)) (selected : List (List Char))
    (p : List Char) : Nat :=
  corpus.countP (fun w => p.isPrefixOf w && !selected.any (fun q => q.isPrefixOf w))

/-- The key `k` of level `i` is covered: for some level `j < i` its first
`j + minLen` bytes are a key of `prefixMaps[j]`. -/
def coveredBelow (prefixMaps : List PrefixMap) (minLen : Nat) (k : GoString) (i : Nat) : Prop :=
  ∃ j, j < i ∧ mapHas (prefixMaps.getD j []) (k.take (j + minLen)) = true

/-- Every key of level `i` has at least `i + minLen` bytes. -/
def keysLongEnough (prefixMaps : List PrefixMap) (minLen : Nat) : Prop :=
  ∀ i, ∀ kv ∈ prefixMaps.getD i [], i + minLen ≤ kv.1.length

/-- What one word does to the accumulator prefix of the current level and to
the prefixes of the pushed entries. -/
def KeyStep (minLen currentPass : Nat) (word : List Char) (st st' : PassState) : Prop :=
  st'.oldPrefixes.length = st.oldPrefixes.length ∧
    if word.length < currentPass + minLen ∨
        word.take (currentPass + minLen) = st.oldPrefixes.getD currentPass [] then
      st'.oldPrefixes.getD currentPass [] = st.oldPrefixes.getD currentPass [] ∧
        st'.pushed.map prefixCount.Prefix = st.pushed.map prefixCount.Prefix
    else
      st'.oldPrefixes.getD currentPass [] = word.take (currentPass + minLen) ∧
        st'.pushed.map prefixCount.Prefix = st.pushed.map prefixCount.Prefix ++
          [runesToString (st.oldPrefixes.getD currentPass [])]

/-! ## The budget model and the start of `main` -/

/-- The value of a Go `int` (64 bits, two's complement) after wrap-around. -/
def wrapInt (x : Int) : Int := (x + 2 ^ 63) % 2 ^ 64 - 2 ^ 63

/-- Go's `a * b` on `int`. -/
def mulInt (a b : Int) : Int := wrapInt (a * b)

/-- The loop of lines 110-113, `nbCandidates[i] = nbCandidates[i-1] *
flagAlphabetSize`, with the number of remaining iterations as first
argument. -/
def candidatesLoop (flagAlphabetSize : Int) : Nat → Nat → List Int → List Int
  | 0, _, nbCandidates => nbCandidates
  | k + 1, i, nbCandidates =>
    candidatesLoop flagAlphabetSize k (i + 1)
      (nbCandidates.set i (mulInt (nbCandidates.getD (i - 1) 0) flagAlphabetSize))

/-- Lines 107-113 for `0 ≤ nbPrefixes`: the slice `nbCandidates`, given the
`int` value `candidates0` that the floating-point expression of line 108
converts to.  `none` is the panic of `nbCandidates[0]` on an empty slice. -/
def computeCandidates (candidates0 flagAlphabetSize : Int) (nbPrefixes : Nat) :
    Option (List Int) :=
  if nbPrefixes = 0 then none
  else
    some (candidatesLoop flagAlphabetSize (nbPrefixes - 1) 1
      ((List.replicate nbPrefixes 0).set 0 candidates0))

/-- What `main` reads from the command line and its environment: whether
`-input` is given, whether `-duration` parses, the `int` value of the
conversion of line 108, the `int` flags, and whether the file opens. -/
structure Flags where
  inputGiven : Bool
  durationParses : Bool
  candidates0 : Int
  flagMinPrefixLen : Int
  flagMaxPrefixLen : Int
  flagAlphabetSize : Int
  fileOpens : Bool
deriving DecidableEq, Repr

/-- How `main` ends. -/
inductive MainExit where
  | ok
  | fatalNoInput
  | fatalDuration
  | fatalOpen
  | orderViolation
  | panic
deriving DecidableEq, Repr

/-- The `count:prefix` lines printed by `main`, and how it ended. -/
structure MainOutcome where
  stdout : List (Int × GoString)
  exit : MainExit
deriving DecidableEq, Repr

/-- The end of `main` for the end of the passes and of the eliminator. -/
def Exit.toMain : Exit → MainExit
  | Exit.ok => MainExit.ok
  | Exit.orderViolation => MainExit.orderViolation
  | Exit.panic => MainExit.panic

/-- The function `main`: the `log.Fatalf` of lines 96-98 and 103-105, the
panics of `make([]int, nbPrefixes)` on a negative or too large length (line
107) and of `nbCandidates[0]` on an empty slice (line 108), the `log.Fatalf` of
lines 119-121, the panic of `make([]rune, prefixLen)` on a negative length (line
140), then the passes and the eliminator. -/
def main (f : Flags) (corpus : List (List Char)) : MainOutcome :=
  if f.inputGiven = false then { stdout := [], exit := MainExit.fatalNoInput }
  else if f.durationParses = false then { stdout := [], exit := MainExit.fatalDuration }
  else if makeslicePanics 8 (wrapInt (1 + f.flagMaxPrefixLen - f.flagMinPrefixLen)) then
    { stdout := [], exit := MainExit.panic }
  else
    match computeCandidates f.candidates0 f.flagAlphabetSize
        (wrapInt (1 + f.flagMaxPrefixLen - f.flagMinPrefixLen)).toNat with
    | none => { stdout := [], exit := MainExit.panic }
    | some nbCandidates =>
      if f.fileOpens = false then { stdout := [], exit := MainExit.fatalOpen }
      else if f.flagMinPrefixLen < 0 then { stdout := [], exit := MainExit.panic }
      else
        { stdout := (presuf nbCandidates f.flagMinPrefixLen.toNat
            (wrapInt (1 + f.flagMaxPrefixLen - f.flagMinPrefixLen)).toNat corpus).stdout
          exit := (presuf nbCandidates f.flagMinPrefixLen.toNat
            (wrapInt (1 + f.flagMaxPrefixLen - f.flagMinPrefixLen)).toNat corpus).exit.toMain }

/-! ## The command `reverse` -/

/-- The loop of lines 34-36 of `cmd/reverse/main.go`: the builder after the
remaining iterations, iteration `i` writing the rune `rns[len(rns)-1-i]`. -/
def reverseLoop (rns : List Char) : Nat → Nat → GoString → GoString
  | 0, _, rBuilder => rBuilder
  | k + 1, i, rBuilder =>
    reverseLoop rns k (i + 1) (rBuilder ++ encodeRune (rns.getD (rns.length - 1 - i) default))

/-- The function `Reverse` on the string whose runes are `rns`. -/
def Reverse (rns : List Char) : GoString := reverseLoop rns rns.length 0 []

/-! ## The cascades of a pass -/

/-- One run of the loop of lines 170-172: the level `i` whose accumulator is
replaced, the string of its prefix (found in `prefixMaps[i]`), and the running
counts `oldPrefixesCounts` before and after the loop. -/
structure CascadeEvent where
  level : Nat
  Prefix : GoString
  before : List Int
  after : List Int
deriving DecidableEq, Repr

/-- The cascade run by the body of the loop over levels for one word, if any
(lines 151-173): the word is long enough, its prefix differs from the
accumulator, the level is not the one of the pass, and the prefix of the
accumulator is a key of `prefixMaps[i]`. -/
def levelStepCascades (minLen currentPass : Nat) (prefixMaps : List PrefixMap)
    (word : List Char) (st : PassState) (i : Nat) : List CascadeEvent :=
  let prefixLen := i + minLen
  if word.length < prefixLen then []
  else if runeSliceIsEqual (word.take prefixLen) (st.oldPrefixes.getD i []) then []
  else if i = currentPass then []
  else if mapHas (prefixMaps.getD i []) (runesToString (st.oldPrefixes.getD i [])) then
    [{ level := i
       Prefix := runesToString (st.oldPrefixes.getD i [])
       before := st.oldPrefixesCounts
       after := cascade i i st.oldPrefixesCounts }]
  else []

/-- The cascades of the loop over levels for one word (line 150), in order. -/
def wordLevelsCascades (nbCandidates : List Int) (minLen currentPass : Nat)
    (prefixMaps : List PrefixMap) (word : List Char) : Nat → PassState → List CascadeEvent
  | 0, _ => []
  | k + 1, st =>
    levelStepCascades minLen currentPass prefixMaps word st (currentPass + k) ++
      wordLevelsCascades nbCandidates minLen currentPass prefixMaps word k
        (levelStep nbCandidates minLen currentPass prefixMaps word st (currentPass + k))

/-- The cascades of the scan loop (lines 143-179), in order. -/
def scanCascades (nbCandidates : List Int) (minLen nbPrefixes currentPass : Nat)
    (prefixMaps : List PrefixMap) : GoString → PassState → List (List Char) → List CascadeEvent
  | _, _, [] => []
  | oldWord, st, word :: rest =>
    if stringLess (runesToString word) oldWord then []
    else
      wordLevelsCascades nbCandidates minLen currentPass prefixMaps word
          (nbPrefixes - currentPass) st ++
        scanCascades nbCandidates minLen nbPrefixes currentPass prefixMaps (runesToString word)
          (wordLevels nbCandidates minLen currentPass prefixMaps word (nbPrefixes - currentPass) st)
          rest

/-- The cascades of pass `currentPass` run with the family `prefixMaps`. -/
def passCascades (nbCandidates : List Int) (minLen nbPrefixes : Nat) (corpus : List (List Char))
    (prefixMaps : List PrefixMap) (currentPass : Nat) : List CascadeEvent :=
  scanCascades nbCandidates minLen nbPrefixes currentPass prefixMaps []
    (initState minLen nbPrefixes) corpus

/-- Two pass states hold the same accumulators on the levels from `j` on. -/
def AgreeFrom (j : Nat) (st st' : PassState) : Prop :=
  j < st.oldPrefixesCounts.length ∧
    st.oldPrefixes.length = st'.oldPrefixes.length ∧
    st.oldPrefixesCounts.length = st'.oldPrefixesCounts.length ∧
    ∀ m, j ≤ m → st.oldPrefixes.getD m [] = st'.oldPrefixes.getD m [] ∧
      st.oldPrefixesCounts.getD m 0 = st'.oldPrefixesCounts.getD m 0

/-! ## The reducer with the run-time checks of Go -/

/-- The slice expression `word[0:n]` on a slice of runes; `none` is the
run-time panic "slice bounds out of range" (raised here as soon as `n` exceeds
the length). -/
def runesTo (word : List Char) (n : Nat) : Option (List Char) :=
  if n ≤ word.length then some (word.take n) else none

/-- The loop of lines 170-172 with its index expressions checked; `none` is
the run-time panic "index out of range". -/
def cascadeChecked (i : Nat) : Nat → List Int → Option (List Int)
  | 0, counts => some counts
  | j + 1, counts =>
    match counts[j]?, counts[i]? with
    | some cj, some ci => cascadeChecked i j (counts.set j (cj - ci))
    | _, _ => none

/-- The selector insert (lines 160-166 and 181-187); `none` is the panic of
`heap.Pop` on an empty heap. -/
def selectorInsertChecked (cap : Int) (h : prefixCountHeap) (x : prefixCount) :
    Option prefixCountHeap :=
  let h1 := heapPush h x
  if cap ≤ (h1.length : Int) then (heapPop h1).map Prod.snd
  else some h1

/-- The push of the level accumulator into the selector, with
`oldPrefixes[currentPass]`, `oldPrefixesCounts[currentPass]` and
`nbCandidates[currentPass]` checked. -/
def flushChecked (nbCandidates : List Int) (currentPass : Nat) (st : PassState) :
    Option PassState :=
  match st.oldPrefixes[currentPass]?, st.oldPrefixesCounts[currentPass]?,
      nbCandidates[currentPass]? with
  | some p, some c, some cap =>
    match selectorInsertChecked cap st.currentPrefixHeap
        { Prefix := runesToString p, Count := c } with
    | some h =>
      some { st with
        currentPrefixHeap := h
        pushed := st.pushed ++ [{ Prefix := runesToString p, Count := c }] }
    | none => none
  | _, _, _ => none

/-- The body of the loop over levels for one word (lines 151-177) with
`word[0:prefixLen]`, `oldPrefixes[i]`, `oldPrefixesCounts[i]`, `prefixMaps[i]`
and the accesses of the cascade and of the flush checked. -/
def levelStepChecked (nbCandidates : List Int) (minLen currentPass : Nat)
    (prefixMaps : List PrefixMap) (word : List Char) (st : PassState) (i : Nat) :
    Option PassState :=
  let prefixLen := i + minLen
  if word.length < prefixLen then some st
  else
    match runesTo word prefixLen, st.oldPrefixes[i]?, st.oldPrefixesCounts[i]? with
    | some w, some p, some c =>
      if runeSliceIsEqual w p then
        some { st with oldPrefixesCounts := st.oldPrefixesCounts.set i (c + 1) }
      else
        let st1 : Option PassState :=
          if i = currentPass then flushChecked nbCandidates currentPass st
          else
            match prefixMaps[i]? with
            | some m =>
              if mapHas m (runesToString p) then
                (cascadeChecked i i st.oldPrefixesCounts).map
                  (fun counts => { st with oldPrefixesCounts := counts })
              else some st
            | none => none
        st1.map (fun s =>
          { s with
            oldPrefixes := s.oldPrefixes.set i w
            oldPrefixesCounts := s.oldPrefixesCounts.set i 1 })
    | _, _, _ => none

/-- The loop over the levels for one word (line 150), checked. -/
def wordLevelsChecked (nbCandidates : List Int) (minLen currentPass : Nat)
    (prefixMaps : List PrefixMap) (word : List Char) : Nat → PassState → Option PassState
  | 0, st => some st
  | k + 1, st =>
    match levelStepChecked nbCandidates minLen currentPass prefixMaps word st
        (currentPass + k) with
    | some st1 => wordLevelsChecked nbCandidates minLen currentPass prefixMaps word k st1
    | none => none

/-- The scan loop of lines 143-179, checked. -/
def scanChecked (nbCandidates : List Int) (minLen nbPrefixes currentPass : Nat)
    (prefixMaps : List PrefixMap) : GoString → PassState → List (List Char) → Run PassState
  | _, st, [] => Run.done st
  | oldWord, st, word :: rest =>
    if stringLess (runesToString word) oldWord then Run.orderViolation
    else
      match wordLevelsChecked nbCandidates minLen currentPass prefixMaps word
          (nbPrefixes - currentPass) st with
      | some st1 =>
        scanChecked nbCandidates minLen nbPrefixes currentPass prefixMaps (runesToString word)
          st1 rest
      | none => Run.panic

/-- The state of pass `currentPass` after the scan and the flush of the
remaining prefix (lines 128-187), checked. -/
def passStateChecked (nbCandidates : List Int) (minLen nbPrefixes : Nat)
    (corpus : List (List Char)) (prefixMaps : List PrefixMap) (currentPass : Nat) :
    Run PassState :=
  match scanChecked nbCandidates minLen nbPrefixes currentPass prefixMaps []
      (initState minLen nbPrefixes) corpus with
  | Run.done st =>
    match flushChecked nbCandidates currentPass st with
    | some st1 => Run.done st1
    | none => Run.panic
  | Run.orderViolation => Run.orderViolation
  | Run.panic => Run.panic

/-- One iteration of the loop of line 127, with `nbCandidates[currentPass]`
(line 128) and `prefixMaps[currentPass]` (line 191) checked, and with the
panics of the `make` calls of lines 128 and 137-142. -/
def runPassChecked (nbCandidates : List Int) (minLen nbPrefixes : Nat)
    (corpus : List (List Char)) (r : Reducer) (currentPass : Nat) : Run Reducer :=
  match nbCandidates[currentPass]? with
  | none => Run.panic
  | some cap =>
    if makeslicePanics 24 cap || levelsMakePanic minLen nbPrefixes then Run.panic
    else
      match passStateChecked nbCandidates minLen nbPrefixes corpus r.prefixMaps currentPass with
      | Run.done st =>
        match r.prefixMaps[currentPass]? with
        | some m =>
          Run.done
            { prefixMaps := r.prefixMaps.set currentPass
                (drain st.currentPrefixHeap.length st.currentPrefixHeap m)
              pushedLog := r.pushedLog.set currentPass st.pushed }
        | none => Run.panic
      | Run.orderViolation => Run.orderViolation
      | Run.panic => Run.panic

/-- The loop of line 127, checked. -/
def runPassesChecked (nbCandidates : List Int) (minLen nbPrefixes : Nat)
    (corpus : List (List Char)) : Nat → Reducer → Run Reducer
  | 0, r => Run.done r
  | k + 1, r =>
    match runPassChecked nbCandidates minLen nbPrefixes corpus r k with
    | Run.done r1 => runPassesChecked nbCandidates minLen nbPrefixes corpus k r1
    | Run.orderViolation => Run.orderViolation
    | Run.panic => Run.panic

/-- The allocation of line 123 and all the passes (lines 127-193), checked. -/
def reduceChecked (nbCandidates : List Int) (minLen nbPrefixes : Nat)
    (corpus : List (List Char)) : Run Reducer :=
  if makeslicePanics 8 nbPrefixes then Run.panic
  else
    runPassesChecked nbCandidates minLen nbPrefixes corpus nbPrefixes (initReducer nbPrefixes)

/-- The program from line 114 on, with the run-time checks of the passes and
of the redundancy eliminator. -/
def presufChecked (nbCandidates : List Int) (minLen nbPrefixes : Nat)
    (corpus : List (List Char)) : Outcome :=
  match reduceChecked nbCandidates minLen nbPrefixes corpus with
  | Run.done r => finale r.prefixMaps minLen nbPrefixes nbPrefixes []
  | Run.orderViolation => { stdout := [], exit := Exit.orderViolation }
  | Run.panic => { stdout := [], exit := Exit.panic }

/-! ## The order check -/

theorem stringLess_nil (a : GoString) : stringLess a [] = false := by
  cases a <;> rfl

theorem scan_eq_none_iff (nbCandidates : List Int) (minLen nbPrefixes currentPass : Nat)
    (prefixMaps : List PrefixMap) (corpus : List (List Char)) :
    ∀ (oldWord : GoString) (st : PassState),
      scan nbCandidates minLen nbPrefixes currentPass prefixMaps oldWord st corpus = none ↔
        sortedFrom oldWord corpus = false := by
  induction corpus with
  | nil => intro oldWord st; simp [scan, sortedFrom]
  | cons word rest ih =>
    intro oldWord st
    by_cases h : stringLess (runesToString word) oldWord = true
    · simp [scan, sortedFrom, h]
    · simp only [Bool.not_eq_true] at h
      simp [scan, sortedFrom, h, ih]

theorem sortedFrom_cons_iff (a : List Char) (rest : List (List Char)) (oldWord : GoString) :
    sortedFrom oldWord (a :: rest) = false ↔
      stringLess (runesToString a) oldWord = true ∨ orderViolated (a :: rest) := by
  induction rest generalizing a oldWord with
  | nil =>
    simp only [sortedFrom, Bool.and_true, Bool.not_eq_eq_eq_not, Bool.not_false]
    constructor
    · intro h; exact Or.inl h
    · rintro (h | ⟨k, hk, -⟩)
      · exact h
      · simp at hk
  | cons b rest ih =>
    rw [sortedFrom, Bool.and_eq_false_iff, ih]
    simp only [Bool.not_eq_eq_eq_not, Bool.not_false]
    constructor
    · rintro (h | h | ⟨k, hk, hv⟩)
      · exact Or.inl h
      · exact Or.inr ⟨0, by simp, by simpa using h⟩
      · exact Or.inr ⟨k + 1, by simpa using hk, by simpa using hv⟩
    · rintro (h | ⟨k, hk, hv⟩)
      · exact Or.inl h
      · cases k with
        | zero => exact Or.inr (Or.inl (by simpa using hv))
        | succ k => exact Or.inr (Or.inr ⟨k, by simpa using hk, by simpa using hv⟩)

theorem corpusSorted_eq_false_iff (corpus : List (List Char)) :
    corpusSorted corpus = false ↔ orderViolated corpus := by
  cases corpus with
  | nil =>
    simp only [corpusSorted, sortedFrom]
    constructor
    · intro h; cases h
    · rintro ⟨k, hk, -⟩; simp at hk
  | cons a rest =>
    rw [corpusSorted, sortedFrom_cons_iff, stringLess_nil]
    simp

theorem corpusSorted_iff (corpus : List (List Char)) :
    corpusSorted corpus = true ↔ ¬ orderViolated corpus := by
  rw [← corpusSorted_eq_false_iff]; simp

theorem passState_eq_none_iff (nbCandidates : List Int) (minLen nbPrefixes : Nat)
    (corpus : List (List Char)) (prefixMaps : List PrefixMap) (currentPass : Nat) :
    passState nbCandidates minLen nbPrefixes corpus prefixMaps currentPass = none ↔
      corpusSorted corpus = false := by
  simp [passState, corpusSorted, scan_eq_none_iff]

theorem makeslicePanics_eq_false_iff (size n : Int) :
    makeslicePanics size n = false ↔ 0 ≤ n ∧ size * n ≤ maxAlloc := by
  unfold makeslicePanics
  simp only [Bool.or_eq_false_iff, decide_eq_false_iff_not, not_lt]

theorem levelsMakePanic_eq_false_iff (minLen nbPrefixes : Nat) :
    levelsMakePanic minLen nbPrefixes = false ↔
      24 * (nbPrefixes : Int) ≤ maxAlloc ∧
        ∀ i, i < nbPrefixes → 4 * ((i + minLen : Nat) : Int) ≤ maxAlloc := by
  unfold levelsMakePanic
  simp only [Bool.or_eq_false_iff, makeslicePanics_eq_false_iff, List.any_eq_false,
    List.mem_range, Bool.not_eq_true]
  constructor
  · rintro ⟨⟨⟨-, h1⟩, h2⟩, -⟩
    exact ⟨h1, fun i hi => (h2 i hi).2⟩
  · rintro ⟨h1, h2⟩
    have h0 : (0 : Int) ≤ (nbPrefixes : Int) := Int.ofNat_nonneg _
    exact ⟨⟨⟨h0, h1⟩, fun i hi => ⟨Int.ofNat_nonneg _, h2 i hi⟩⟩, h0, by omega⟩

theorem passMakePanics_eq_false_iff (nbCandidates : List Int)
    (minLen nbPrefixes currentPass : Nat) :
    passMakePanics nbCandidates minLen nbPrefixes currentPass = false ↔
      passAllocates nbCandidates minLen nbPrefixes currentPass := by
  unfold passMakePanics passAllocates
  rw [Bool.or_eq_false_iff, makeslicePanics_eq_false_iff, levelsMakePanic_eq_false_iff]

theorem runPass_done (nbCandidates : List Int) (minLen nbPrefixes : Nat)
    (corpus : List (List Char)) (r r1 : Reducer) (currentPass : Nat)
    (h : runPass nbCandidates minLen nbPrefixes corpus r currentPass = Run.done r1) :
    passAllocates nbCandidates minLen nbPrefixes currentPass ∧
      ∃ st, passState nbCandidates minLen nbPrefixes corpus r.prefixMaps currentPass = some st ∧
        r1 = { prefixMaps := r.prefixMaps.set currentPass
                (drain st.currentPrefixHeap.length st.currentPrefixHeap
                  (r.prefixMaps.getD currentPass []))
               pushedLog := r.pushedLog.set currentPass st.pushed } := by
  unfold runPass at h
  split at h
  · cases h
  · rename_i hc
    refine ⟨(passMakePanics_eq_false_iff _ _ _ _).1 (by simpa using hc), ?_⟩
    cases hps : passState nbCandidates minLen nbPrefixes corpus r.prefixMaps currentPass with
    | none => rw [hps] at h; cases h
    | some st =>
      rw [hps] at h
      simp only [Run.done.injEq] at h
      exact ⟨st, rfl, h.symm⟩

theorem runPass_orderViolation_iff (nbCandidates : List Int) (minLen nbPrefixes : Nat)
    (corpus : List (List Char)) (r : Reducer) (currentPass : Nat) :
    runPass nbCandidates minLen nbPrefixes corpus r currentPass = Run.orderViolation ↔
      (passAllocates nbCandidates minLen nbPrefixes currentPass ∧
        corpusSorted corpus = false) := by
  rw [← passMakePanics_eq_false_iff]
  unfold runPass
  cases hc : passMakePanics nbCandidates minLen nbPrefixes currentPass with
  | true =>
    simp only [if_true, Bool.true_eq_false, false_and, iff_false]
    intro h; cases h
  | false =>
    simp only [Bool.false_eq_true, if_false, true_and]
    cases hps : passState nbCandidates minLen nbPrefixes corpus r.prefixMaps currentPass with
    | none =>
      have := (passState_eq_none_iff _ _ _ _ _ _).1 hps
      exact ⟨fun _ => this, fun _ => rfl⟩
    | some st =>
      have : ¬ corpusSorted corpus = false := by
        intro e
        rw [(passState_eq_none_iff nbCandidates minLen nbPrefixes corpus r.prefixMaps
          currentPass).2 e] at hps
        cases hps
      constructor
      · intro h; cases h
      · intro h; exact absurd h this

theorem runPass_done_of_sorted (nbCandidates : List Int) (minLen nbPrefixes : Nat)
    (corpus : List (List Char)) (r : Reducer) (currentPass : Nat)
    (hs : corpusSorted corpus = true)
    (hc : passAllocates nbCandidates minLen nbPrefixes currentPass) :
    ∃ r1, runPass nbCandidates minLen nbPrefixes corpus r currentPass = Run.done r1 := by
  unfold runPass
  rw [(passMakePanics_eq_false_iff _ _ _ _).2 hc]
  simp only [Bool.false_eq_true, if_false]
  cases hps : passState nbCandidates minLen nbPrefixes corpus r.prefixMaps currentPass with
  | none =>
    rw [(passState_eq_none_iff _ _ _ _ _ _).1 hps] at hs
    cases hs
  | some st => exact ⟨_, rfl⟩

theorem runPasses_orderViolation (nbCandidates : List Int) (minLen nbPrefixes : Nat)
    (corpus : List (List Char)) (k : Nat) :
    ∀ r, runPasses nbCandidates minLen nbPrefixes corpus k r = Run.orderViolation →
      corpusSorted corpus = false := by
  induction k with
  | zero => intro r h; simp [runPasses] at h
  | succ k ih =>
    intro r h
    rw [runPasses] at h
    cases hr : runPass nbCandidates minLen nbPrefixes corpus r k with
    | done r1 => rw [hr] at h; exact ih r1 h
    | orderViolation => exact ((runPass_orderViolation_iff _ _ _ _ _ _).1 hr).2
    | panic => rw [hr] at h; cases h

theorem runPasses_of_unsorted (nbCandidates : List Int) (minLen nbPrefixes : Nat)
    (corpus : List (List Char)) (k : Nat) (r : Reducer)
    (hs : corpusSorted corpus = false)
    (hc : passAllocates nbCandidates minLen nbPrefixes k) :
    runPasses nbCandidates minLen nbPrefixes corpus (k + 1) r = Run.orderViolation := by
  rw [runPasses, (runPass_orderViolation_iff _ _ _ _ _ _).2 ⟨hc, hs⟩]

theorem runPasses_done_of_sorted (nbCandidates : List Int) (minLen nbPrefixes : Nat)
    (corpus : List (List Char)) (hs : corpusSorted corpus = true) (k : Nat)
    (hc : ∀ i, i < k → passAllocates nbCandidates minLen nbPrefixes i) :
    ∀ r : Reducer, ∃ r', runPasses nbCandidates minLen nbPrefixes corpus k r = Run.done r' := by
  induction k with
  | zero => intro r; exact ⟨r, rfl⟩
  | succ k ih =>
    intro r
    obtain ⟨r1, h1⟩ := runPass_done_of_sorted nbCandidates minLen nbPrefixes corpus r k hs
      (hc k (Nat.lt_succ_self k))
    rw [runPasses, h1]
    exact ih (fun i hi => hc i (Nat.lt_succ_of_lt hi)) r1

/-- The passes that complete had their allocations succeed. -/
theorem runPasses_done_allocates (nbCandidates : List Int) (minLen nbPrefixes : Nat)
    (corpus : List (List Char)) (k : Nat) :
    ∀ r r', runPasses nbCandidates minLen nbPrefixes corpus k r = Run.done r' →
      ∀ i, i < k → passAllocates nbCandidates minLen nbPrefixes i := by
  induction k with
  | zero => intro r r' _ i hi; exact absurd hi (Nat.not_lt_zero _)
  | succ k ih =>
    intro r r' h i hi
    rw [runPasses] at h
    cases hr : runPass nbCandidates minLen nbPrefixes corpus r k with
    | orderViolation => rw [hr] at h; cases h
    | panic => rw [hr] at h; cases h
    | done r1 =>
      rw [hr] at h
      rcases Nat.lt_succ_iff_lt_or_eq.1 hi with h1 | h1
      · exact ih r1 r' h i h1
      · rw [h1]; exact (runPass_done _ _ _ _ _ _ _ hr).1

/-- The allocation of line 123 panics only when that of line 142 in the first
pass does: `reduce` is the loop of the passes. -/
theorem reduce_eq_runPasses (nbCandidates : List Int) (minLen nbPrefixes : Nat)
    (corpus : List (List Char)) :
    reduce nbCandidates minLen nbPrefixes corpus =
      runPasses nbCandidates minLen nbPrefixes corpus nbPrefixes (initReducer nbPrefixes) := by
  unfold reduce
  cases hm : makeslicePanics 8 nbPrefixes with
  | false => simp
  | true =>
    simp only [if_true]
    cases nbPrefixes with
    | zero => simp [makeslicePanics, maxAlloc] at hm
    | succ k =>
      have hp : passMakePanics nbCandidates minLen (k + 1) k = true := by
        unfold passMakePanics levelsMakePanic
        rw [hm]
        simp
      rw [runPasses, runPass, hp]
      simp

/-- On a sorted corpus all the passes complete when their allocations
succeed. -/
theorem reduce_done_of_sorted (nbCandidates : List Int) (minLen nbPrefixes : Nat)
    (corpus : List (List Char)) (hs : corpusSorted corpus = true)
    (hc : ∀ i, i < nbPrefixes → passAllocates nbCandidates minLen nbPrefixes i) :
    ∃ r, reduce nbCandidates minLen nbPrefixes corpus = Run.done r := by
  rw [reduce_eq_runPasses]
  exact runPasses_done_of_sorted nbCandidates minLen nbPrefixes corpus hs nbPrefixes hc _

/-- The passes that complete had their allocations succeed; in particular the
capacities are not negative. -/
theorem reduce_done_allocates (nbCandidates : List Int) (minLen nbPrefixes : Nat)
    (corpus : List (List Char)) (r : Reducer)
    (h : reduce nbCandidates minLen nbPrefixes corpus = Run.done r) :
    ∀ i, i < nbPrefixes → passAllocates nbCandidates minLen nbPrefixes i := by
  rw [reduce_eq_runPasses] at h
  exact runPasses_done_allocates _ _ _ _ _ _ _ h

theorem reduce_done_nonneg (nbCandidates : List Int) (minLen nbPrefixes : Nat)
    (corpus : List (List Char)) (r : Reducer)
    (h : reduce nbCandidates minLen nbPrefixes corpus = Run.done r) :
    ∀ i, i < nbPrefixes → 0 ≤ nbCandidates.getD i 0 :=
  fun i hi => (reduce_done_allocates _ _ _ _ _ h i hi).1.1

theorem reduce_of_unsorted (nbCandidates : List Int) (minLen nbPrefixes : Nat)
    (corpus : List (List Char)) (hN : 1 ≤ nbPrefixes)
    (hcap : passAllocates nbCandidates minLen nbPrefixes (nbPrefixes - 1))
    (hs : corpusSorted corpus = false) :
    reduce nbCandidates minLen nbPrefixes corpus = Run.orderViolation := by
  rw [reduce_eq_runPasses]
  obtain ⟨k, hk⟩ : ∃ k, nbPrefixes = k + 1 := ⟨nbPrefixes - 1, by omega⟩
  subst hk
  exact runPasses_of_unsorted nbCandidates minLen (k + 1) corpus k _ hs (by simpa using hcap)

theorem reduce_orderViolation (nbCandidates : List Int) (minLen nbPrefixes : Nat)
    (corpus : List (List Char))
    (h : reduce nbCandidates minLen nbPrefixes corpus = Run.orderViolation) :
    corpusSorted corpus = false := by
  rw [reduce_eq_runPasses] at h
  exact runPasses_orderViolation _ _ _ _ _ _ h

/-- The family of level results is the one left by the passes. -/
theorem levelResults_done (nbCandidates : List Int) (minLen nbPrefixes : Nat)
    (corpus : List (List Char)) (prefixMaps : List PrefixMap)
    (h : levelResults nbCandidates minLen nbPrefixes corpus = Run.done prefixMaps) :
    ∃ r, reduce nbCandidates minLen nbPrefixes corpus = Run.done r ∧
      r.prefixMaps = prefixMaps := by
  unfold levelResults at h
  cases hr : reduce nbCandidates minLen nbPrefixes corpus with
  | orderViolation => rw [hr] at h; cases h
  | panic => rw [hr] at h; cases h
  | done r =>
    rw [hr] at h
    simp only [Run.done.injEq] at h
    exact ⟨r, rfl, h⟩

theorem levelResults_of_reduce (nbCandidates : List Int) (minLen nbPrefixes : Nat)
    (corpus : List (List Char)) (r : Reducer)
    (h : reduce nbCandidates minLen nbPrefixes corpus = Run.done r) :
    levelResults nbCandidates minLen nbPrefixes corpus = Run.done r.prefixMaps := by
  unfold levelResults
  rw [h]

theorem levelResults_orderViolation_iff (nbCandidates : List Int) (minLen nbPrefixes : Nat)
    (corpus : List (List Char)) :
    levelResults nbCandidates minLen nbPrefixes corpus = Run.orderViolation ↔
      reduce nbCandidates minLen nbPrefixes corpus = Run.orderViolation := by
  unfold levelResults
  cases reduce nbCandidates minLen nbPrefixes corpus <;> simp

theorem emitLevel_exit (prefixMaps : List PrefixMap) (minLen i : Nat)
    (entries : List (GoString × Int)) :
    ∀ out, (emitLevel prefixMaps minLen i entries out).exit ≠ Exit.orderViolation := by
  induction entries with
  | nil => intro out; simp [emitLevel]
  | cons kv rest ih =>
    intro out
    obtain ⟨k, v⟩ := kv
    rw [emitLevel]
    cases hasShortestPrefixMatched prefixMaps minLen k i i with
    | none => simp
    | some b => cases b <;> simp [ih]

theorem finale_exit (prefixMaps : List PrefixMap) (minLen nbPrefixes n : Nat) :
    ∀ out, (finale prefixMaps minLen nbPrefixes n out).exit ≠ Exit.orderViolation := by
  induction n with
  | zero => intro out; simp [finale]
  | succ n ih =>
    intro out
    rw [finale]
    have h := emitLevel_exit prefixMaps minLen (nbPrefixes - (n + 1))
      (prefixMaps.getD (nbPrefixes - (n + 1)) []) out
    revert h
    generalize emitLevel prefixMaps minLen (nbPrefixes - (n + 1))
      (prefixMaps.getD (nbPrefixes - (n + 1)) []) out = o
    intro h
    cases he : o.exit with
    | ok => simpa [he] using ih o.stdout
    | orderViolation => exact absurd he h
    | panic => simp [he]

/-- C1, as stated, fails: with one level of length 10 and the capacity
12096000000000 (the default duration of 168 hours at the default 20000000
guesses per second, for passwords of length 10), also with the capacity `2^62`,
the lines `b`, `a` are out of order but the run ends with the panic of
`make(prefixCountHeap, 0, nbCandidates[currentPass])` (line 128,
"makeslice: cap out of range") before any line is compared, not with the
order-violation error. -/
theorem order_violation_preempted_by_allocation :
    orderViolated [['b'], ['a']] ∧
      presuf [12096000000000] 10 1 [['b'], ['a']] = { stdout := [], exit := Exit.panic } ∧
      (0 : Int) ≤ 12096000000000 ∧
      presuf [2 ^ 62] 1 1 [['b'], ['a']] = { stdout := [], exit := Exit.panic } :=
  ⟨(corpusSorted_eq_false_iff _).1 (by decide), by decide, by decide, by decide⟩

/-- C1 (amended): with at least one level, when the allocations of the first
pass succeed (the capacity of the longest level is non-negative and at most
`maxAlloc / 24`, the number of levels at most `maxAlloc / 24` and the prefix
lengths at most `maxAlloc / 4`), the run ends with the order-violation error
exactly when some line is strictly less than the line before it, and then no
`count:prefix` line has been printed. -/
theorem presuf_orderViolation_iff (nbCandidates : List Int) (minLen nbPrefixes : Nat)
    (corpus : List (List Char)) (hN : 1 ≤ nbPrefixes)
    (hcap : passAllocates nbCandidates minLen nbPrefixes (nbPrefixes - 1)) :
    ((presuf nbCandidates minLen nbPrefixes corpus).exit = Exit.orderViolation ↔
        orderViolated corpus) ∧
      ((presuf nbCandidates minLen nbPrefixes corpus).exit = Exit.orderViolation →
        (presuf nbCandidates minLen nbPrefixes corpus).stdout = []) := by
  rw [← corpusSorted_eq_false_iff]
  unfold presuf levelResults
  cases hr : reduce nbCandidates minLen nbPrefixes corpus with
  | done r =>
    have hf := finale_exit r.prefixMaps minLen nbPrefixes nbPrefixes []
    have hs : ¬ corpusSorted corpus = false := by
      intro h
      rw [reduce_of_unsorted nbCandidates minLen nbPrefixes corpus hN hcap h] at hr
      cases hr
    simp [hs, hf]
  | orderViolation =>
    have := reduce_orderViolation _ _ _ _ hr
    simp [this]
  | panic =>
    have hs : ¬ corpusSorted corpus = false := by
      intro h
      rw [reduce_of_unsorted nbCandidates minLen nbPrefixes corpus hN hcap h] at hr
      cases hr
    simp [hs]

theorem presuf_orderViolation_iff_witness :
    passAllocates [10, 10] 1 2 (2 - 1) ∧
      ((presuf [10, 10] 1 2 [['b'], ['a']]).exit = Exit.orderViolation ↔
        orderViolated [['b'], ['a']]) ∧
      ((presuf [10, 10] 1 2 [['b'], ['a']]).exit = Exit.orderViolation →
        (presuf [10, 10] 1 2 [['b'], ['a']]).stdout = []) :=
  ⟨by decide, presuf_orderViolation_iff [10, 10] 1 2 [['b'], ['a']] (by decide) (by decide)⟩

theorem Swap_length (h : prefixCountHeap) (i j : Nat) : (Swap h i j).length = h.length := by
  simp [Swap]

theorem Swap_getD (h : prefixCountHeap) (i j k : Nat) (hi : i < h.length) (hj : j < h.length) :
    (Swap h i j).getD k default =
      if k = j then h.getD i default else if k = i then h.getD j default
      else h.getD k default := by
  unfold Swap
  simp only [List.getD_eq_getElem?_getD, List.getElem?_set, List.length_set]
  by_cases h1 : k = j
  · subst h1; simp [hj]
  · by_cases h2 : k = i
    · subst h2; simp [hi, h1, Ne.symm h1]
    · simp [h1, h2, Ne.symm h1, Ne.symm h2]

theorem count_set_add (l : List prefixCount) (i : Nat) (a b : prefixCount) (hi : i < l.length) :
    (l.set i a).count b + (if l.getD i default = b then 1 else 0) =
      l.count b + (if a = b then 1 else 0) := by
  induction l generalizing i with
  | nil => simp at hi
  | cons x xs ih =>
    cases i with
    | zero =>
      simp only [List.set_cons_zero, List.count_cons, List.getD_cons_zero, beq_iff_eq]
      omega
    | succ i =>
      have := ih i (by simpa using hi)
      simp only [List.set_cons_succ, List.count_cons, List.getD_cons_succ]
      omega

theorem Swap_perm (h : prefixCountHeap) (i j : Nat) (hi : i < h.length) (hj : j < h.length) :
    (Swap h i j).Perm h := by
  rw [List.perm_iff_count]
  intro b
  have h1 := count_set_add h i (h.getD j default) b hi
  have h2 := count_set_add (h.set i (h.getD j default)) j (h.getD i default) b
    (by simpa using hj)
  have h3 : (h.set i (h.getD j default)).getD j default = h.getD j default := by
    simp only [List.getD_eq_getElem?_getD, List.getElem?_set]
    by_cases e : i = j
    · subst e; simp [hi]
    · simp [e]
  rw [h3] at h2
  unfold Swap
  omega

theorem up_length (fuel : Nat) : ∀ (h : prefixCountHeap) (j : Nat),
    (up fuel h j).length = h.length := by
  induction fuel with
  | zero => intro h j; rfl
  | succ fuel ih =>
    intro h j
    rw [up]
    split
    · rfl
    · rw [ih, Swap_length]

theorem down_length (fuel : Nat) : ∀ (h : prefixCountHeap) (i n : Nat),
    (down fuel h i n).length = h.length := by
  induction fuel with
  | zero => intro h i n; rfl
  | succ fuel ih =>
    intro h i n
    rw [down]
    split
    · rfl
    · split
      · rfl
      · rw [ih, Swap_length]

theorem downChild_lt (h : prefixCountHeap) (i n : Nat) (hn : ¬ n ≤ 2 * i + 1) :
    downChild h i n < n ∧ i < downChild h i n := by
  unfold downChild
  split <;> omega

theorem up_perm (fuel : Nat) : ∀ (h : prefixCountHeap) (j : Nat), j < h.length →
    (up fuel h j).Perm h := by
  induction fuel with
  | zero => intro h j _; exact List.Perm.refl _
  | succ fuel ih =>
    intro h j hj
    rw [up]
    split
    · exact List.Perm.refl _
    · have hi : (j - 1) / 2 < h.length := by omega
      exact (ih _ _ (by rw [Swap_length]; exact hi)).trans (Swap_perm h _ _ hi hj)

theorem down_perm (fuel : Nat) : ∀ (h : prefixCountHeap) (i n : Nat), n ≤ h.length →
    (down fuel h i n).Perm h := by
  induction fuel with
  | zero => intro h i n _; exact List.Perm.refl _
  | succ fuel ih =>
    intro h i n hn
    rw [down]
    split
    · exact List.Perm.refl _
    · rename_i hlt
      have hc := downChild_lt h i n hlt
      split
      · exact List.Perm.refl _
      · exact (ih _ _ _ (by rw [Swap_length]; exact hn)).trans
          (Swap_perm h _ _ (by omega) (by omega))

theorem heapPush_length (h : prefixCountHeap) (x : prefixCount) :
    (heapPush h x).length = h.length + 1 := by
  simp [heapPush, up_length]

theorem heapPush_perm (h : prefixCountHeap) (x : prefixCount) :
    (heapPush h x).Perm (x :: h) := by
  unfold heapPush
  refine (up_perm _ _ _ (by simp)).trans ?_
  exact List.perm_append_comm

theorem heapPop_length (h h2 : prefixCountHeap) (e : prefixCount)
    (hp : heapPop h = some (e, h2)) : h2.length + 1 = h.length := by
  cases h with
  | nil => simp [heapPop] at hp
  | cons a t =>
    simp only [heapPop, Option.some.injEq, Prod.mk.injEq] at hp
    rw [← hp.2]
    simp [down_length, Swap_length]

theorem heapPop_isSome (h : prefixCountHeap) (hl : 0 < h.length) :
    ∃ e h2, heapPop h = some (e, h2) := by
  cases h with
  | nil => simp at hl
  | cons a t => exact ⟨_, _, rfl⟩

theorem heapPop_perm (h h2 : prefixCountHeap) (e : prefixCount)
    (hp : heapPop h = some (e, h2)) : h.Perm (e :: h2) := by
  cases h with
  | nil => simp [heapPop] at hp
  | cons a t =>
    simp only [heapPop, Option.some.injEq, Prod.mk.injEq] at hp
    obtain ⟨he, h2e⟩ := hp
    set n := (a :: t).length - 1 with hn
    set h1 := down n (Swap (a :: t) 0 n) 0 n with hh1
    have hlen : h1.length = n + 1 := by
      rw [hh1, down_length, Swap_length]; simp [hn]
    have hperm : h1.Perm (a :: t) :=
      (down_perm _ _ _ _ (by rw [Swap_length]; simp [hn])).trans
        (Swap_perm _ _ _ (by simp) (by simp [hn]))
    have hsplit : h1 = h1.take n ++ [h1.getD n default] := by
      have : h1.drop n = [h1.getD n default] := by
        rw [List.drop_eq_getElem_cons (by omega), List.drop_eq_nil_of_le (by omega),
          List.getD_eq_getElem _ _ (by omega)]
      conv_lhs => rw [← List.take_append_drop n h1, this]
    rw [← he, ← h2e]
    refine hperm.symm.trans ?_
    conv_lhs => rw [hsplit]
    exact List.perm_append_comm

/-! ## The selector and the history of a pass -/

theorem selectorInsert_length (cap : Int) (h : prefixCountHeap) (x : prefixCount) :
    (selectorInsert cap h x).1.length =
      if cap ≤ (h.length : Int) + 1 then h.length else h.length + 1 := by
  unfold selectorInsert
  simp only [heapPush_length, Nat.cast_add, Nat.cast_one]
  split
  · obtain ⟨e, h2, hp⟩ := heapPop_isSome (heapPush h x) (by rw [heapPush_length]; omega)
    rw [hp]
    have := heapPop_length _ _ _ hp
    rw [heapPush_length] at this
    simp only
    omega
  · exact heapPush_length _ _

theorem selectorFold_append (cap : Int) (xs : List prefixCount) (x : prefixCount) :
    selectorFold cap (xs ++ [x]) = (selectorInsert cap (selectorFold cap xs) x).1 := by
  simp [selectorFold, List.foldl_append]

theorem selectorFold_length_le (cap : Int) (xs : List prefixCount) :
    ((selectorFold cap xs).length : Int) ≤ max (cap - 1) 0 := by
  induction xs using List.reverseRecOn with
  | nil => simp [selectorFold]
  | append_singleton xs x ih =>
    rw [selectorFold_append, selectorInsert_length]
    split
    · exact ih
    · rename_i hc
      push_cast
      have : (cap - 1 : Int) ≤ max (cap - 1) 0 := le_max_left _ _
      omega

theorem flush_heapHist (nbCandidates : List Int) (currentPass : Nat) (st : PassState)
    (h : HeapHist (nbCandidates.getD currentPass 0) st) :
    HeapHist (nbCandidates.getD currentPass 0) (flush nbCandidates currentPass st) := by
  unfold HeapHist at *
  simp only [flush, selectorFold_append, h]

theorem levelStep_heapHist (nbCandidates : List Int) (minLen currentPass : Nat)
    (prefixMaps : List PrefixMap) (word : List Char) (st : PassState) (i : Nat)
    (h : HeapHist (nbCandidates.getD currentPass 0) st) :
    HeapHist (nbCandidates.getD currentPass 0)
      (levelStep nbCandidates minLen currentPass prefixMaps word st i) := by
  unfold levelStep
  simp only
  split
  · exact h
  · split
    · exact h
    · split
      · exact flush_heapHist _ _ _ h
      · split
        · exact h
        · exact h

theorem wordLevels_heapHist (nbCandidates : List Int) (minLen currentPass : Nat)
    (prefixMaps : List PrefixMap) (word : List Char) (k : Nat) :
    ∀ st, HeapHist (nbCandidates.getD currentPass 0) st →
      HeapHist (nbCandidates.getD currentPass 0)
        (wordLevels nbCandidates minLen currentPass prefixMaps word k st) := by
  induction k with
  | zero => intro st h; exact h
  | succ k ih => intro st h; exact ih _ (levelStep_heapHist _ _ _ _ _ _ _ h)

theorem scan_heapHist (nbCandidates : List Int) (minLen nbPrefixes currentPass : Nat)
    (prefixMaps : List PrefixMap) (corpus : List (List Char)) :
    ∀ oldWord st st', HeapHist (nbCandidates.getD currentPass 0) st →
      scan nbCandidates minLen nbPrefixes currentPass prefixMaps oldWord st corpus = some st' →
      HeapHist (nbCandidates.getD currentPass 0) st' := by
  induction corpus with
  | nil => intro oldWord st st' h hs; simp only [scan, Option.some.injEq] at hs; exact hs ▸ h
  | cons word rest ih =>
    intro oldWord st st' h hs
    rw [scan] at hs
    split at hs
    · cases hs
    · exact ih _ _ _ (wordLevels_heapHist _ _ _ _ _ _ _ h) hs

theorem passState_heapHist (nbCandidates : List Int) (minLen nbPrefixes : Nat)
    (corpus : List (List Char)) (prefixMaps : List PrefixMap) (currentPass : Nat)
    (st : PassState)
    (hp : passState nbCandidates minLen nbPrefixes corpus prefixMaps currentPass = some st) :
    st.currentPrefixHeap = selectorFold (nbCandidates.getD currentPass 0) st.pushed := by
  unfold passState at hp
  cases hsc : scan nbCandidates minLen nbPrefixes currentPass prefixMaps []
      (initState minLen nbPrefixes) corpus with
  | none => rw [hsc] at hp; cases hp
  | some st0 =>
    rw [hsc] at hp
    simp only [Option.map_some', Option.some.injEq] at hp
    rw [← hp]
    exact flush_heapHist _ _ _
      (scan_heapHist _ _ _ _ _ _ _ _ _ (by simp [HeapHist, initState, selectorFold]) hsc)

/-! ## The drain and the passes -/

theorem mapSet_length_le (m : PrefixMap) (k : GoString) (v : Int) :
    (mapSet m k v).length ≤ m.length + 1 := by
  simp only [mapSet, List.length_cons, add_le_add_iff_right]
  exact List.length_filter_le _ _

theorem drain_length_le (fuel : Nat) : ∀ (h : prefixCountHeap) (m : PrefixMap),
    (drain fuel h m).length ≤ m.length + h.length := by
  induction fuel with
  | zero => intro h m; simp [drain]
  | succ fuel ih =>
    intro h m
    rw [drain]
    cases hp : heapPop h with
    | none => simp
    | some q =>
      obtain ⟨p, h1⟩ := q
      have h1l := heapPop_length _ _ _ hp
      have := ih h1 (mapSet m p.Prefix p.Count)
      have := mapSet_length_le m p.Prefix p.Count
      simp only
      omega

theorem runPasses_spec (nbCandidates : List Int) (minLen nbPrefixes : Nat)
    (corpus : List (List Char)) (k : Nat) :
    ∀ r r', k ≤ r.prefixMaps.length → k ≤ r.pushedLog.length →
      runPasses nbCandidates minLen nbPrefixes corpus k r = Run.done r' →
      r'.prefixMaps.length = r.prefixMaps.length ∧
      (∀ j, k ≤ j → r'.prefixMaps.getD j [] = r.prefixMaps.getD j []) ∧
      (∀ j, k ≤ j → r'.pushedLog.getD j [] = r.pushedLog.getD j []) ∧
      ∀ i, i < k → ∃ pm st,
        (∀ j, i < j → pm.getD j [] = r'.prefixMaps.getD j []) ∧
        (∀ j, j ≤ i → pm.getD j [] = r.prefixMaps.getD j []) ∧
        passState nbCandidates minLen nbPrefixes corpus pm i = some st ∧
        r'.prefixMaps.getD i [] =
          drain st.currentPrefixHeap.length st.currentPrefixHeap (r.prefixMaps.getD i []) ∧
        r'.pushedLog.getD i [] = st.pushed := by
  induction k with
  | zero =>
    intro r r' _ _ h
    simp only [runPasses, Run.done.injEq] at h
    subst h
    exact ⟨rfl, fun _ _ => rfl, fun _ _ => rfl, fun i hi => absurd hi (Nat.not_lt_zero _)⟩
  | succ k ih =>
    intro r r' hk hk' h
    rw [runPasses] at h
    cases hr : runPass nbCandidates minLen nbPrefixes corpus r k with
    | orderViolation => rw [hr] at h; cases h
    | panic => rw [hr] at h; cases h
    | done r1 =>
      rw [hr] at h
      simp only at h
      obtain ⟨-, st, hps, hr1⟩ := runPass_done _ _ _ _ _ _ _ hr
      · have hpm : r1.prefixMaps = r.prefixMaps.set k
            (drain st.currentPrefixHeap.length st.currentPrefixHeap (r.prefixMaps.getD k [])) := by
          rw [hr1]
        have hlog : r1.pushedLog = r.pushedLog.set k st.pushed := by rw [hr1]
        have hother : ∀ j, j ≠ k → r1.prefixMaps.getD j [] = r.prefixMaps.getD j [] := by
          intro j hj
          rw [hpm]
          simp [List.getD_eq_getElem?_getD, List.getElem?_set, Ne.symm hj]
        have hotherlog : ∀ j, j ≠ k → r1.pushedLog.getD j [] = r.pushedLog.getD j [] := by
          intro j hj
          rw [hlog]
          simp [List.getD_eq_getElem?_getD, List.getElem?_set, Ne.symm hj]
        obtain ⟨hl, hge, hgel, hlt⟩ :=
          ih r1 r' (by rw [hpm]; simp; omega) (by rw [hlog]; simp; omega) h
        refine ⟨by rw [hl, hpm]; simp, ?_, ?_, ?_⟩
        · intro j hj
          rw [hge j (by omega), hother j (by omega)]
        · intro j hj
          rw [hgel j (by omega), hotherlog j (by omega)]
        · intro i hi
          by_cases hik : i = k
          · subst hik
            refine ⟨r.prefixMaps, st, ?_, fun _ _ => rfl, hps, ?_, ?_⟩
            · intro j hj
              rw [hge j (by omega), hother j (by omega)]
            · rw [hge i (le_refl _), hpm]
              have : i < r.prefixMaps.length := by omega
              simp [List.getD_eq_getElem?_getD, List.getElem?_set, this]
            · rw [hgel i (le_refl _), hlog]
              have : i < r.pushedLog.length := by omega
              simp [List.getD_eq_getElem?_getD, List.getElem?_set, this]
          · obtain ⟨pm, st', h1, h2, h3, h4, h5⟩ := hlt i (by omega)
            refine ⟨pm, st', h1, ?_, h3, ?_, h5⟩
            · intro j hj; rw [h2 j hj, hother j (by omega)]
            · rw [h4, hother i hik]

theorem reduce_spec (nbCandidates : List Int) (minLen nbPrefixes : Nat)
    (corpus : List (List Char)) (r : Reducer)
    (h : reduce nbCandidates minLen nbPrefixes corpus = Run.done r) :
    r.prefixMaps.length = nbPrefixes ∧
      ∀ i, i < nbPrefixes → ∃ pm st,
        (∀ j, i < j → pm.getD j [] = r.prefixMaps.getD j []) ∧
        (∀ j, j ≤ i → pm.getD j [] = []) ∧
        passState nbCandidates minLen nbPrefixes corpus pm i = some st ∧
        r.prefixMaps.getD i [] = drain st.currentPrefixHeap.length st.currentPrefixHeap [] ∧
        r.pushedLog.getD i [] = st.pushed := by
  have hinit : ∀ j, (initReducer nbPrefixes).prefixMaps.getD j [] = [] := by
    intro j
    simp only [initReducer, List.getD_eq_getElem?_getD, List.getElem?_replicate]
    split <;> rfl
  rw [reduce_eq_runPasses] at h
  obtain ⟨hl, -, -, hlt⟩ := runPasses_spec nbCandidates minLen nbPrefixes corpus nbPrefixes
    (initReducer nbPrefixes) r (by simp [initReducer]) (by simp [initReducer]) h
  refine ⟨by rw [hl]; simp [initReducer], ?_⟩
  intro i hi
  obtain ⟨pm, st, h1, h2, h3, h4, h5⟩ := hlt i hi
  refine ⟨pm, st, h1, ?_, h3, ?_, h5⟩
  · intro j hj; rw [h2 j hj, hinit]
  · rw [h4, hinit]

/-- C2: on a sorted corpus the passes complete when their allocations succeed
(non-negative capacities within the limit of the run time), and whenever they
complete, for every level `i` the number of prefixes of `LevelResult[i]` is at
most `Capacity[i]`; with capacity `0` the level result is empty. -/
theorem levelResult_size_le_capacity (nbCandidates : List Int) (minLen nbPrefixes : Nat)
    (corpus : List (List Char)) (hs : corpusSorted corpus = true) :
    ((∀ i, i < nbPrefixes → passAllocates nbCandidates minLen nbPrefixes i) →
        ∃ prefixMaps, levelResults nbCandidates minLen nbPrefixes corpus =
          Run.done prefixMaps) ∧
      ∀ prefixMaps, levelResults nbCandidates minLen nbPrefixes corpus = Run.done prefixMaps →
        ∀ i, i < nbPrefixes →
          (((prefixMaps.getD i []).length : Int) ≤ nbCandidates.getD i 0 ∧
            (nbCandidates.getD i 0 = 0 → prefixMaps.getD i [] = [])) := by
  constructor
  · intro ha
    obtain ⟨r, hr⟩ := reduce_done_of_sorted nbCandidates minLen nbPrefixes corpus hs ha
    exact ⟨r.prefixMaps, levelResults_of_reduce _ _ _ _ _ hr⟩
  intro prefixMaps hpm
  obtain ⟨r, hr, rfl⟩ := levelResults_done _ _ _ _ _ hpm
  have hc := reduce_done_nonneg _ _ _ _ _ hr
  intro i hi
  have hcap := hc i hi
  obtain ⟨-, hlv⟩ := reduce_spec _ _ _ _ _ hr
  obtain ⟨pm, st, -, -, hps, hmap, -⟩ := hlv i hi
  have hheap := passState_heapHist _ _ _ _ _ _ _ hps
  have hlen := selectorFold_length_le (nbCandidates.getD i 0) st.pushed
  rw [← hheap] at hlen
  have hd := drain_length_le st.currentPrefixHeap.length st.currentPrefixHeap []
  rw [← hmap] at hd
  simp only [List.length_nil, zero_add] at hd
  constructor
  · have : max (nbCandidates.getD i 0 - 1) 0 ≤ nbCandidates.getD i 0 := by
      apply max_le <;> omega
    omega
  · intro h0
    rw [h0] at hlen
    have : (r.prefixMaps.getD i []).length = 0 := by
      have : max ((0 : Int) - 1) 0 = 0 := by decide
      omega
    exact List.eq_nil_of_length_eq_zero this

theorem levelResult_size_le_capacity_witness :
    corpusSorted ["aa1".toList, "ab1".toList] = true ∧
    (∀ i, i < 2 → passAllocates [2, 0] 1 2 i) ∧
    ∃ prefixMaps, levelResults [2, 0] 1 2 ["aa1".toList, "ab1".toList] =
        Run.done prefixMaps ∧
      ∀ i, i < 2 →
        (((prefixMaps.getD i []).length : Int) ≤ [(2 : Int), 0].getD i 0 ∧
          ([(2 : Int), 0].getD i 0 = 0 → prefixMaps.getD i [] = [])) :=
  ⟨by decide, by decide,
    ((levelResult_size_le_capacity [2, 0] 1 2 ["aa1".toList, "ab1".toList]
      (by decide)).1 (by decide)).elim
      (fun prefixMaps h => ⟨prefixMaps, h,
        (levelResult_size_le_capacity [2, 0] 1 2 ["aa1".toList, "ab1".toList]
          (by decide)).2 prefixMaps h⟩)⟩

/-! ## The heap order -/

theorem Less_eq (h : prefixCountHeap) (i j : Nat) :
    Less h i j = decide (countAt h i < countAt h j) := rfl

theorem countAt_Swap (h : prefixCountHeap) (i j k : Nat) (hi : i < h.length)
    (hj : j < h.length) :
    countAt (Swap h i j) k =
      if k = j then countAt h i else if k = i then countAt h j else countAt h k := by
  unfold countAt
  rw [Swap_getD h i j k hi hj]
  split
  · rfl
  · split <;> rfl

theorem up_swap_inv (c c' : Nat → Int) (n i j : Nat) (hi : i = (j - 1) / 2) (hj0 : 0 < j)
    (hlt : c j < c i) (hcj : c' j = c i) (hci : c' i = c j)
    (hck : ∀ k, k ≠ i → k ≠ j → c' k = c k)
    (inv1 : ∀ k, 0 < k → k < n → k ≠ j → c ((k - 1) / 2) ≤ c k)
    (inv2 : ∀ k, 0 < k → k < n → (k - 1) / 2 = j → c i ≤ c k) :
    (∀ k, 0 < k → k < n → k ≠ i → c' ((k - 1) / 2) ≤ c' k) ∧
      (∀ k, 0 < k → k < n → (k - 1) / 2 = i → 0 < i → c' ((i - 1) / 2) ≤ c' k) := by
  constructor
  · intro k hk0 hkn hki
    by_cases hkj : k = j
    · rw [hkj, ← hi, hci, hcj]; exact le_of_lt hlt
    · rw [hck k hki hkj]
      by_cases hpj : (k - 1) / 2 = j
      · rw [hpj, hcj]; exact inv2 k hk0 hkn hpj
      · by_cases hpi : (k - 1) / 2 = i
        · have := inv1 k hk0 hkn hkj
          rw [hpi] at this
          rw [hpi, hci]
          exact le_trans (le_of_lt hlt) this
        · rw [hck _ hpi hpj]; exact inv1 k hk0 hkn hkj
  · intro k hk0 hkn hpk hi0
    have hg : c' ((i - 1) / 2) = c ((i - 1) / 2) := hck _ (by omega) (by omega)
    have hgi := inv1 i hi0 (by omega) (by omega)
    by_cases hkj : k = j
    · rw [hkj, hcj, hg]; exact hgi
    · have := inv1 k hk0 hkn hkj
      rw [hpk] at this
      rw [hck k (by omega) hkj, hg]
      exact le_trans hgi this

theorem up_isHeap (fuel : Nat) : ∀ (h : prefixCountHeap) (j : Nat), j ≤ fuel → j < h.length →
    (∀ k, 0 < k → k < h.length → k ≠ j → countAt h ((k - 1) / 2) ≤ countAt h k) →
    (∀ k, 0 < k → k < h.length → (k - 1) / 2 = j → 0 < j →
      countAt h ((j - 1) / 2) ≤ countAt h k) →
    isHeap (up fuel h j) := by
  induction fuel with
  | zero =>
    intro h j hj _ inv1 _
    intro k hk0 hkn
    exact inv1 k hk0 hkn (by omega)
  | succ fuel ih =>
    intro h j hjf hjn inv1 inv2
    rw [up]
    split
    · rename_i hc
      intro k hk0 hkn
      by_cases hkj : k = j
      · rcases hc with hc | hc
        · omega
        · rw [Less_eq] at hc
          simp only [decide_eq_false_iff_not, not_lt] at hc
          rw [hkj]; exact hc
      · exact inv1 k hk0 hkn hkj
    · rename_i hc
      simp only [not_or, Bool.not_eq_false] at hc
      obtain ⟨hne, hless⟩ := hc
      rw [Less_eq] at hless
      simp only [decide_eq_true_eq] at hless
      have hj0 : 0 < j := by omega
      have hin : (j - 1) / 2 < h.length := by omega
      obtain ⟨n1, n2⟩ := up_swap_inv (countAt h) (countAt (Swap h ((j - 1) / 2) j)) h.length
        ((j - 1) / 2) j rfl hj0 hless
        (by rw [countAt_Swap h _ _ _ hin hjn]; simp)
        (by rw [countAt_Swap h _ _ _ hin hjn]; simp [hne])
        (by intro k hk1 hk2; rw [countAt_Swap h _ _ _ hin hjn]; simp [hk1, hk2])
        inv1 (fun k hk0 hkn hp => inv2 k hk0 hkn hp hj0)
      apply ih
      · omega
      · rw [Swap_length]; exact hin
      · rw [Swap_length]; exact n1
      · rw [Swap_length]; exact n2

theorem countAt_append_left (h : prefixCountHeap) (x : prefixCount) (k : Nat)
    (hk : k < h.length) : countAt (h ++ [x]) k = countAt h k := by
  unfold countAt
  rw [List.getD_append _ _ _ _ hk]

theorem heapPush_isHeap (h : prefixCountHeap) (x : prefixCount) (hh : isHeap h) :
    isHeap (heapPush h x) := by
  unfold heapPush
  apply up_isHeap
  · exact le_refl _
  · simp
  · intro k hk0 hkn hkj
    simp only [List.length_append, List.length_singleton] at hkn
    have hk : k < h.length := by omega
    rw [countAt_append_left h x k hk, countAt_append_left h x _ (by omega)]
    exact hh k hk0 hk
  · intro k hk0 hkn hp _
    simp only [List.length_append, List.length_singleton] at hkn
    omega

theorem down_swap_inv (c c' : Nat → Int) (n i j : Nat) (hi : (j - 1) / 2 = i) (hj0 : 0 < j)
    (hlt : c j < c i) (hcj : c' j = c i) (hci : c' i = c j)
    (hck : ∀ k, k ≠ i → k ≠ j → c' k = c k)
    (hmin : ∀ k, 0 < k → k < n → (k - 1) / 2 = i → c j ≤ c k)
    (inv1 : ∀ k, 0 < k → k < n → (k - 1) / 2 ≠ i → c ((k - 1) / 2) ≤ c k)
    (inv2 : ∀ k, 0 < k → k < n → (k - 1) / 2 = i → 0 < i → c ((i - 1) / 2) ≤ c k)
    (hjn : j < n) :
    (∀ k, 0 < k → k < n → (k - 1) / 2 ≠ j → c' ((k - 1) / 2) ≤ c' k) ∧
      (∀ k, 0 < k → k < n → (k - 1) / 2 = j → 0 < j → c' ((j - 1) / 2) ≤ c' k) := by
  constructor
  · intro k hk0 hkn hpj
    by_cases hpi : (k - 1) / 2 = i
    · rw [hpi, hci]
      by_cases hkj : k = j
      · rw [hkj, hcj]; exact le_of_lt hlt
      · rw [hck k (by omega) hkj]; exact hmin k hk0 hkn hpi
    · rw [hck _ hpi hpj]
      by_cases hki : k = i
      · subst hki
        rw [hci]
        exact inv2 j hj0 hjn hi (by omega)
      · have hkj : k ≠ j := by
          intro e; rw [e] at hpi; exact hpi hi
        rw [hck k hki hkj]; exact inv1 k hk0 hkn hpi
  · intro k hk0 hkn hpk _
    rw [hi, hci, hck k (by omega) (by omega)]
    have := inv1 k hk0 hkn (by omega)
    rw [hpk] at this
    exact this

theorem downChild_min (h : prefixCountHeap) (i n : Nat) :
    ∀ k, 0 < k → k < n → (k - 1) / 2 = i → countAt h (downChild h i n) ≤ countAt h k := by
  intro k hk0 hkn hp
  have hk : k = 2 * i + 1 ∨ k = 2 * i + 1 + 1 := by omega
  unfold downChild
  split
  · rename_i hc
    obtain ⟨_, hl⟩ := hc
    rw [Less_eq] at hl
    simp only [decide_eq_true_eq] at hl
    rcases hk with hk | hk
    · rw [hk]; exact le_of_lt hl
    · rw [hk]
  · rename_i hc
    rcases hk with hk | hk
    · rw [hk]
    · rw [hk]
      have : ¬ Less h (2 * i + 1 + 1) (2 * i + 1) = true := by
        intro hl; exact hc ⟨by omega, hl⟩
      rw [Less_eq] at this
      simp only [decide_eq_true_eq, not_lt] at this
      exact this

theorem downChild_parent (h : prefixCountHeap) (i n : Nat) :
    (downChild h i n - 1) / 2 = i := by
  unfold downChild
  split <;> omega

theorem down_isHeapOn (fuel : Nat) : ∀ (h : prefixCountHeap) (i n : Nat), n - i ≤ fuel →
    n ≤ h.length →
    (∀ k, 0 < k → k < n → (k - 1) / 2 ≠ i → countAt h ((k - 1) / 2) ≤ countAt h k) →
    (∀ k, 0 < k → k < n → (k - 1) / 2 = i → 0 < i →
      countAt h ((i - 1) / 2) ≤ countAt h k) →
    isHeapOn (down fuel h i n) n := by
  induction fuel with
  | zero =>
    intro h i n hf _ inv1 _
    intro k hk0 hkn
    exact inv1 k hk0 hkn (by omega)
  | succ fuel ih =>
    intro h i n hf hnl inv1 inv2
    rw [down]
    split
    · intro k hk0 hkn
      exact inv1 k hk0 hkn (by omega)
    · rename_i hn
      have hmin := downChild_min h i n
      have hpar := downChild_parent h i n
      obtain ⟨hjn, hij⟩ := downChild_lt h i n hn
      split
      · rename_i hl
        rw [Less_eq] at hl
        simp only [decide_eq_false_iff_not, not_lt] at hl
        intro k hk0 hkn
        by_cases hp : (k - 1) / 2 = i
        · rw [hp]; exact le_trans hl (hmin k hk0 hkn hp)
        · exact inv1 k hk0 hkn hp
      · rename_i hl
        simp only [Bool.not_eq_false] at hl
        rw [Less_eq] at hl
        simp only [decide_eq_true_eq] at hl
        have hil : i < h.length := by omega
        have hjl : downChild h i n < h.length := by omega
        obtain ⟨n1, n2⟩ := down_swap_inv (countAt h) (countAt (Swap h i (downChild h i n))) n
          i (downChild h i n) hpar (by omega) hl
          (by rw [countAt_Swap h _ _ _ hil hjl]; simp)
          (by rw [countAt_Swap h _ _ _ hil hjl]; simp; omega)
          (by intro k hk1 hk2; rw [countAt_Swap h _ _ _ hil hjl]; simp [hk1, hk2])
          hmin inv1 inv2 hjn
        apply ih
        · omega
        · rw [Swap_length]; exact hnl
        · exact n1
        · exact n2

theorem down_getD_ge (fuel : Nat) : ∀ (h : prefixCountHeap) (i n k : Nat), n ≤ h.length →
    n ≤ k → (down fuel h i n).getD k default = h.getD k default := by
  induction fuel with
  | zero => intro h i n k _ _; rfl
  | succ fuel ih =>
    intro h i n k hnl hk
    rw [down]
    split
    · rfl
    · rename_i hn
      obtain ⟨hjn, hij⟩ := downChild_lt h i n hn
      split
      · rfl
      · rw [ih _ _ _ _ (by rw [Swap_length]; exact hnl) hk,
          Swap_getD h _ _ _ (by omega) (by omega)]
        rw [if_neg (by omega), if_neg (by omega)]

theorem isHeapOn_root_le (h : prefixCountHeap) (n : Nat) (hh : isHeapOn h n) :
    ∀ k, k < n → countAt h 0 ≤ countAt h k := by
  intro k
  induction k using Nat.strong_induction_on with
  | _ k ih =>
    intro hk
    by_cases hk0 : k = 0
    · rw [hk0]
    · exact le_trans (ih ((k - 1) / 2) (by omega) (by omega)) (hh k (by omega) hk)

theorem mem_iff_getD (h : prefixCountHeap) (x : prefixCount) :
    x ∈ h ↔ ∃ k, k < h.length ∧ h.getD k default = x := by
  constructor
  · intro hx
    obtain ⟨k, hk, rfl⟩ := List.getElem_of_mem hx
    exact ⟨k, hk, List.getD_eq_getElem _ _ hk⟩
  · rintro ⟨k, hk, rfl⟩
    rw [List.getD_eq_getElem _ _ hk]
    exact List.getElem_mem hk

theorem isHeap_take (h : prefixCountHeap) (n : Nat) (hn : n ≤ h.length) (hh : isHeapOn h n) :
    isHeap (h.take n) := by
  intro k hk0 hkn
  simp only [List.length_take, min_eq_left hn] at hkn
  have e : ∀ m, m < n → countAt (h.take n) m = countAt h m := by
    intro m hm
    unfold countAt
    simp [List.getD_eq_getElem?_getD, List.getElem?_take, hm]
  rw [e k hkn, e _ (by omega)]
  exact hh k hk0 hkn

theorem heapPop_spec (h h2 : prefixCountHeap) (e : prefixCount) (hh : isHeap h)
    (hp : heapPop h = some (e, h2)) :
    isHeap h2 ∧ e = h.getD 0 default ∧ ∀ x ∈ h, e.Count ≤ x.Count := by
  cases h with
  | nil => simp [heapPop] at hp
  | cons a t =>
    simp only [heapPop, Option.some.injEq, Prod.mk.injEq] at hp
    obtain ⟨he, h2e⟩ := hp
    have hn : (a :: t).length - 1 < (a :: t).length := by simp
    have hsl : (a :: t).length - 1 ≤ (Swap (a :: t) 0 ((a :: t).length - 1)).length := by
      rw [Swap_length]; omega
    have he0 : e = (a :: t).getD 0 default := by
      rw [← he, down_getD_ge _ _ _ _ _ hsl (le_refl _),
        Swap_getD _ _ _ _ (by simp) hn]
      simp
    refine ⟨?_, he0, ?_⟩
    · rw [← h2e]
      apply isHeap_take _ _ (by rw [down_length]; exact hsl)
      apply down_isHeapOn _ _ _ _ (by omega) hsl
      · intro k hk0 hkn hp
        rw [countAt_Swap _ _ _ _ (by simp) hn, countAt_Swap _ _ _ _ (by simp) hn]
        rw [if_neg (by omega), if_neg (by omega), if_neg (by omega), if_neg (by omega)]
        exact hh k hk0 (by omega)
      · intro k _ _ _ h0; omega
    · intro x hx
      obtain ⟨k, hk, rfl⟩ := (mem_iff_getD _ _).1 hx
      rw [he0]
      exact isHeapOn_root_le _ _ hh k hk

/-! ## The selector keeps the largest counts -/

theorem selectorInsert_none (cap : Int) (h : prefixCountHeap) (x : prefixCount)
    (hc : ¬ cap ≤ (h.length : Int) + 1) :
    selectorInsert cap h x = (heapPush h x, none) := by
  unfold selectorInsert
  simp only [heapPush_length, Nat.cast_add, Nat.cast_one, if_neg hc]

theorem selectorInsert_some (cap : Int) (h : prefixCountHeap) (x : prefixCount)
    (hc : cap ≤ (h.length : Int) + 1) :
    ∃ e h2, heapPop (heapPush h x) = some (e, h2) ∧ selectorInsert cap h x = (h2, some e) := by
  obtain ⟨e, h2, hp⟩ := heapPop_isSome (heapPush h x) (by rw [heapPush_length]; omega)
  refine ⟨e, h2, hp, ?_⟩
  unfold selectorInsert
  simp only [heapPush_length, Nat.cast_add, Nat.cast_one, if_pos hc, hp]

theorem selectorInsert_spec (cap : Int) (h : prefixCountHeap) (x : prefixCount)
    (hh : isHeap h) :
    isHeap (selectorInsert cap h x).1 ∧
      (((selectorInsert cap h x).2 = none ∧ ¬ cap ≤ (h.length : Int) + 1 ∧
          (selectorInsert cap h x).1.Perm (x :: h)) ∨
        ∃ e, (selectorInsert cap h x).2 = some e ∧ cap ≤ (h.length : Int) + 1 ∧
          (x :: h).Perm (e :: (selectorInsert cap h x).1) ∧
          ∀ y ∈ x :: h, e.Count ≤ y.Count) := by
  by_cases hc : cap ≤ (h.length : Int) + 1
  · obtain ⟨e, h2, hp, hs⟩ := selectorInsert_some cap h x hc
    have hph := heapPush_isHeap h x hh
    obtain ⟨h2h, -, hmin⟩ := heapPop_spec _ _ _ hph hp
    have hperm := (heapPush_perm h x).symm.trans (heapPop_perm _ _ _ hp)
    rw [hs]
    refine ⟨h2h, Or.inr ⟨e, rfl, hc, hperm, ?_⟩⟩
    intro y hy
    exact hmin y ((heapPush_perm h x).mem_iff.2 hy)
  · rw [selectorInsert_none cap h x hc]
    exact ⟨heapPush_isHeap h x hh, Or.inl ⟨rfl, hc, heapPush_perm h x⟩⟩

theorem selectorFold_topK (cap : Int) (xs : List prefixCount) :
    isHeap (selectorFold cap xs) ∧
      ∃ ev : List prefixCount, xs.Perm (selectorFold cap xs ++ ev) ∧
        (∀ e ∈ ev, ∀ r ∈ selectorFold cap xs, e.Count ≤ r.Count) ∧
        (ev ≠ [] → cap ≤ ((selectorFold cap xs).length : Int) + 1) := by
  induction xs using List.reverseRecOn with
  | nil =>
    refine ⟨?_, [], by simp [selectorFold], by simp, by simp⟩
    intro k _ hk
    simp [selectorFold] at hk
  | append_singleton xs x ih =>
    obtain ⟨hh, ev, hperm, hle, hfull⟩ := ih
    rw [selectorFold_append]
    obtain ⟨hh', hcase⟩ := selectorInsert_spec cap (selectorFold cap xs) x hh
    refine ⟨hh', ?_⟩
    rcases hcase with ⟨-, hc, hp⟩ | ⟨e, -, hc, hp, hmin⟩
    · have hev : ev = [] := by
        by_contra hne
        exact hc (hfull hne)
      subst hev
      refine ⟨[], ?_, by simp, by simp⟩
      simp only [List.append_nil] at hperm ⊢
      exact (List.perm_append_comm.trans (List.Perm.cons x hperm)).trans hp.symm
    · refine ⟨e :: ev, ?_, ?_, ?_⟩
      · have h1 : (xs ++ [x]).Perm (x :: (selectorFold cap xs ++ ev)) :=
          List.perm_append_comm.trans (List.Perm.cons x hperm)
        have h2 : (x :: (selectorFold cap xs ++ ev)).Perm
            ((e :: (selectorInsert cap (selectorFold cap xs) x).1) ++ ev) := by
          have := List.Perm.append_right ev hp
          simpa using this
        exact (h1.trans h2).trans (by
          simpa using (@List.perm_middle _ e
            (selectorInsert cap (selectorFold cap xs) x).1 ev).symm)
      · intro e' he' r hr
        have hr' : r ∈ x :: selectorFold cap xs := hp.mem_iff.2 (List.mem_cons_of_mem _ hr)
        rcases List.mem_cons.1 he' with he' | he'
        · rw [he']; exact hmin r hr'
        · by_cases hrh : r ∈ selectorFold cap xs
          · exact hle e' he' r hrh
          · have hrx : r = x := by
              rcases List.mem_cons.1 hr' with h | h
              · exact h
              · exact absurd h hrh
            have hex : e ∈ x :: selectorFold cap xs := hp.mem_iff.2 (List.mem_cons_self _ _)
            by_cases heh : e ∈ selectorFold cap xs
            · exact le_trans (hle e' he' e heh) (hmin r hr')
            · have hex' : e = x := by
                rcases List.mem_cons.1 hex with h | h
                · exact h
                · exact absurd h heh
              rw [hex'] at hp
              have := (List.Perm.cons_inv hp).mem_iff.2 hr
              exact absurd this hrh
      · intro _
        rw [selectorInsert_length, if_pos hc]
        exact hc

/-! ## The drain -/

theorem mem_mapSet (m : PrefixMap) (k : GoString) (v : Int) (kv : GoString × Int)
    (h : kv ∈ mapSet m k v) : kv = (k, v) ∨ kv ∈ m := by
  simp only [mapSet, List.mem_cons, List.mem_filter] at h
  rcases h with h | h
  · exact Or.inl h
  · exact Or.inr h.1

theorem mapHas_iff (m : PrefixMap) (k : GoString) :
    mapHas m k = true ↔ ∃ kv ∈ m, kv.1 = k := by
  simp [mapHas]

theorem mapHas_mapSet (m : PrefixMap) (k : GoString) (v : Int) (k' : GoString) :
    mapHas (mapSet m k v) k' = (decide (k = k') || mapHas m k') := by
  by_cases hk : k = k'
  · subst hk; simp [mapHas, mapSet]
  · simp only [mapHas, mapSet, List.any_cons, hk, decide_False, Bool.false_or, List.any_filter]
    congr 1
    funext kv
    by_cases h1 : kv.1 = k'
    · have : ¬ k' = k := fun e => hk e.symm
      simp [h1, this]
    · simp [h1]

theorem drain_mem (fuel : Nat) : ∀ (h : prefixCountHeap) (m : PrefixMap) (kv : GoString × Int),
    kv ∈ drain fuel h m → kv ∈ m ∨ ∃ p ∈ h, p.Prefix = kv.1 ∧ p.Count = kv.2 := by
  induction fuel with
  | zero => intro h m kv hkv; exact Or.inl hkv
  | succ fuel ih =>
    intro h m kv hkv
    rw [drain] at hkv
    cases hp : heapPop h with
    | none => rw [hp] at hkv; exact Or.inl hkv
    | some q =>
      obtain ⟨p, h1⟩ := q
      rw [hp] at hkv
      have hperm := heapPop_perm _ _ _ hp
      rcases ih _ _ _ hkv with h' | ⟨p', hp', hh⟩
      · rcases mem_mapSet _ _ _ _ h' with h'' | h''
        · refine Or.inr ⟨p, hperm.mem_iff.2 (List.mem_cons_self _ _), ?_⟩
          rw [h'']; exact ⟨rfl, rfl⟩
        · exact Or.inl h''
      · exact Or.inr ⟨p', hperm.mem_iff.2 (List.mem_cons_of_mem _ hp'), hh⟩

theorem drain_has (fuel : Nat) : ∀ (h : prefixCountHeap) (m : PrefixMap) (k : GoString),
    h.length ≤ fuel → (mapHas m k = true ∨ ∃ p ∈ h, p.Prefix = k) →
    mapHas (drain fuel h m) k = true := by
  induction fuel with
  | zero =>
    intro h m k hl hk
    rcases hk with hk | ⟨p, hp, -⟩
    · exact hk
    · have : h = [] := List.eq_nil_of_length_eq_zero (by omega)
      rw [this] at hp; cases hp
  | succ fuel ih =>
    intro h m k hl hk
    rw [drain]
    cases hp : heapPop h with
    | none =>
      rcases hk with hk | ⟨p, hpm, -⟩
      · exact hk
      · cases h with
        | nil => cases hpm
        | cons a t => simp [heapPop] at hp
    | some q =>
      obtain ⟨p, h1⟩ := q
      have hperm := heapPop_perm _ _ _ hp
      have hlen := heapPop_length _ _ _ hp
      apply ih _ _ _ (by omega)
      rw [mapHas_mapSet]
      rcases hk with hk | ⟨p', hp', hk'⟩
      · left; simp [hk]
      · rcases List.mem_cons.1 (hperm.mem_iff.1 hp') with e | e
        · left; rw [← hk', e]; simp
        · exact Or.inr ⟨p', e, hk'⟩

/-! ## Order of byte strings -/

theorem stringLess_irrefl (a : GoString) : stringLess a a = false := by
  induction a with
  | nil => rfl
  | cons x xs ih => simp [stringLess, ih]

theorem stringLess_trans : ∀ (a b c : GoString), stringLess a b = true →
    stringLess b c = true → stringLess a c = true := by
  intro a
  induction a with
  | nil =>
    intro b c hab hbc
    cases c with
    | nil => rw [stringLess_nil] at hbc; cases hbc
    | cons z zs => rfl
  | cons x xs ih =>
    intro b c hab hbc
    cases b with
    | nil => cases hab
    | cons y ys =>
      cases c with
      | nil => cases hbc
      | cons z zs =>
        simp only [stringLess] at hab hbc ⊢
        by_cases hxy : x < y
        · by_cases hyz : y < z
          · simp [show x < z by omega]
          · by_cases hzy : z < y
            · simp [hyz, hzy] at hbc
            · have : y = z := by omega
              subst this; simp [hxy]
        · by_cases hyx : y < x
          · simp [hxy, hyx] at hab
          · have hxy' : x = y := by omega
            subst hxy'
            simp only [lt_self_iff_false, if_false] at hab
            by_cases hxz : x < z
            · simp [hxz]
            · by_cases hzx : z < x
              · simp [hxz, hzx] at hbc
              · simp only [hxz, hzx, if_false] at hbc ⊢
                exact ih _ _ hab hbc

theorem stringLess_total : ∀ (a b : GoString), stringLess a b = false →
    a = b ∨ stringLess b a = true := by
  intro a
  induction a with
  | nil =>
    intro b h
    cases b with
    | nil => exact Or.inl rfl
    | cons y ys => cases h
  | cons x xs ih =>
    intro b h
    cases b with
    | nil => exact Or.inr rfl
    | cons y ys =>
      simp only [stringLess] at h ⊢
      by_cases hxy : x < y
      · simp [hxy] at h
      · by_cases hyx : y < x
        · simp [hyx]
        · have e : x = y := by omega
          subst e
          simp only [lt_self_iff_false, if_false] at h ⊢
          rcases ih _ h with h' | h'
          · left; rw [h']
          · right; exact h'

theorem stringLess_asymm (a b : GoString) (h : stringLess a b = true) :
    stringLess b a = false := by
  cases hba : stringLess b a with
  | false => rfl
  | true =>
    have := stringLess_trans _ _ _ h hba
    rw [stringLess_irrefl] at this; cases this

theorem stringLess_antisymm (a b : GoString) (h1 : stringLess a b = false)
    (h2 : stringLess b a = false) : a = b := by
  rcases stringLess_total a b h1 with h | h
  · exact h
  · rw [h2] at h; cases h

theorem stringLe_trans (a b c : GoString) (hab : stringLess b a = false)
    (hbc : stringLess c b = false) : stringLess c a = false := by
  cases hca : stringLess c a with
  | false => rfl
  | true =>
    rcases stringLess_total b a hab with h | h
    · rw [h] at hbc; rw [hbc] at hca; cases hca
    · have := stringLess_trans _ _ _ hca h
      rw [hbc] at this; cases this

theorem stringLess_append_left (x s t : GoString) :
    stringLess (x ++ s) (x ++ t) = stringLess s t := by
  induction x with
  | nil => rfl
  | cons a x ih => simp [stringLess, ih]

theorem stringLess_append_of_incomparable : ∀ (x y : GoString), ¬ x <+: y → ¬ y <+: x →
    ∀ s t, stringLess (x ++ s) (y ++ t) = stringLess x y := by
  intro x
  induction x with
  | nil => intro y h; exact absurd (List.nil_prefix) h
  | cons a x ih =>
    intro y h1 h2 s t
    cases y with
    | nil => exact absurd (List.nil_prefix) h2
    | cons b y =>
      simp only [List.cons_append, stringLess]
      by_cases hab : a < b
      · simp [hab]
      · by_cases hba : b < a
        · simp [hab, hba]
        · have e : a = b := by omega
          subst e
          simp only [lt_self_iff_false, if_false]
          apply ih
          · intro hp; exact h1 ((List.prefix_cons_inj a).2 hp)
          · intro hp; exact h2 ((List.prefix_cons_inj a).2 hp)

/-! ## UTF-8 is a prefix code -/

theorem encodeRune_not_prefix (c1 c2 : Char) (h : c1 ≠ c2) :
    ¬ encodeRune c1 <+: encodeRune c2 := by
  have hne : c1.toNat ≠ c2.toNat := by
    intro e
    apply h
    apply Char.ext
    apply UInt32.ext
    exact e
  intro hp
  obtain ⟨t, ht⟩ := hp
  unfold encodeRune at ht
  simp only at ht
  split_ifs at ht <;> simp at ht <;> omega

theorem runesToString_append (a b : List Char) :
    runesToString (a ++ b) = runesToString a ++ runesToString b := by
  induction a with
  | nil => rfl
  | cons c a ih => simp [runesToString, ih]

theorem runesToString_prefix_inj : ∀ (p q : List Char) (s t : GoString),
    p.length = q.length → runesToString p ++ s = runesToString q ++ t → p = q := by
  intro p
  induction p with
  | nil =>
    intro q s t hl _
    cases q with
    | nil => rfl
    | cons _ _ => cases hl
  | cons c p ih =>
    intro q s t hl he
    cases q with
    | nil => cases hl
    | cons d q =>
      simp only [runesToString, List.append_assoc] at he
      have hcd : c = d := by
        by_contra hne
        rcases List.append_eq_append_iff.1 he with ⟨a', h1, -⟩ | ⟨c', h1, -⟩
        · exact encodeRune_not_prefix c d hne ⟨a', h1.symm⟩
        · exact encodeRune_not_prefix d c (Ne.symm hne) ⟨c', h1.symm⟩
      subst hcd
      rw [ih q s t (by simpa using hl) (List.append_cancel_left he)]

theorem runesToString_inj (p q : List Char) (hl : p.length = q.length)
    (h : runesToString p = runesToString q) : p = q :=
  runesToString_prefix_inj p q [] [] hl (by simpa using h)

theorem stringLess_runes_append : ∀ (p q : List Char) (s t : GoString),
    p.length = q.length → stringLess (runesToString p) (runesToString q) = true →
    stringLess (runesToString p ++ s) (runesToString q ++ t) = true := by
  intro p
  induction p with
  | nil =>
    intro q s t hl h
    cases q with
    | nil => cases h
    | cons _ _ => cases hl
  | cons c p ih =>
    intro q s t hl h
    cases q with
    | nil => cases hl
    | cons d q =>
      simp only [runesToString, List.append_assoc] at h ⊢
      by_cases hcd : c = d
      · subst hcd
        rw [stringLess_append_left] at h ⊢
        exact ih q s t (by simpa using hl) h
      · have n1 := encodeRune_not_prefix c d hcd
        have n2 := encodeRune_not_prefix d c (Ne.symm hcd)
        rw [stringLess_append_of_incomparable _ _ n1 n2] at h ⊢
        exact h

/-- Taking the first `n` runes of two lines that both have them keeps their
order. -/
theorem stringLe_take (w1 w2 : List Char) (n : Nat) (h1 : n ≤ w1.length) (h2 : n ≤ w2.length)
    (h : stringLess (runesToString w2) (runesToString w1) = false) :
    stringLess (runesToString (w2.take n)) (runesToString (w1.take n)) = false := by
  cases hc : stringLess (runesToString (w2.take n)) (runesToString (w1.take n)) with
  | false => rfl
  | true =>
    have := stringLess_runes_append (w2.take n) (w1.take n) (runesToString (w2.drop n))
      (runesToString (w1.drop n)) (by simp [h1, h2]) hc
    rw [← runesToString_append, ← runesToString_append, List.take_append_drop,
      List.take_append_drop, h] at this
    cases this

/-! ## The pass of the longest level -/

theorem runeSliceIsEqual_iff : ∀ (a b : List Char), runeSliceIsEqual a b = true ↔ a = b := by
  intro a
  induction a with
  | nil => intro b; cases b <;> simp [runeSliceIsEqual]
  | cons x xs ih =>
    intro b
    cases b with
    | nil => simp [runeSliceIsEqual]
    | cons y ys =>
      by_cases h : x = y
      · simp [runeSliceIsEqual, h, ih]
      · simp [runeSliceIsEqual, h]

theorem getD_set_self {α : Type} (l : List α) (i : Nat) (x d : α) (h : i < l.length) :
    (l.set i x).getD i d = x := by
  simp [List.getD_eq_getElem?_getD, List.getElem?_set, h]

theorem getD_set_ne {α : Type} (l : List α) (i j : Nat) (x d : α) (h : i ≠ j) :
    (l.set i x).getD j d = l.getD j d := by
  simp [List.getD_eq_getElem?_getD, List.getElem?_set, h]

theorem levelStep_short (nbCandidates : List Int) (minLen currentPass : Nat)
    (prefixMaps : List PrefixMap) (word : List Char) (st : PassState) (i : Nat)
    (h : word.length < i + minLen) :
    levelStep nbCandidates minLen currentPass prefixMaps word st i = st := by
  unfold levelStep
  simp only [if_pos h]

theorem levelStep_same (nbCandidates : List Int) (minLen currentPass : Nat)
    (prefixMaps : List PrefixMap) (word : List Char) (st : PassState) (i : Nat)
    (h : ¬ word.length < i + minLen)
    (he : word.take (i + minLen) = st.oldPrefixes.getD i []) :
    levelStep nbCandidates minLen currentPass prefixMaps word st i =
      { st with oldPrefixesCounts :=
          st.oldPrefixesCounts.set i (st.oldPrefixesCounts.getD i 0 + 1) } := by
  unfold levelStep
  simp only [if_neg h, if_pos ((runeSliceIsEqual_iff _ _).2 he)]

theorem levelStep_flush (nbCandidates : List Int) (minLen currentPass : Nat)
    (prefixMaps : List PrefixMap) (word : List Char) (st : PassState)
    (h : ¬ word.length < currentPass + minLen)
    (he : word.take (currentPass + minLen) ≠ st.oldPrefixes.getD currentPass []) :
    levelStep nbCandidates minLen currentPass prefixMaps word st currentPass =
      { flush nbCandidates currentPass st with
        oldPrefixes := st.oldPrefixes.set currentPass (word.take (currentPass + minLen))
        oldPrefixesCounts := st.oldPrefixesCounts.set currentPass 1 } := by
  unfold levelStep
  have : ¬ runeSliceIsEqual (word.take (currentPass + minLen))
      (st.oldPrefixes.getD currentPass []) = true := fun e => he ((runeSliceIsEqual_iff _ _).1 e)
  simp only [if_neg h, if_neg this, if_true, flush]

theorem levelStep_cascade (nbCandidates : List Int) (minLen currentPass : Nat)
    (prefixMaps : List PrefixMap) (word : List Char) (st : PassState) (i : Nat)
    (hi : i ≠ currentPass) (h : ¬ word.length < i + minLen)
    (he : word.take (i + minLen) ≠ st.oldPrefixes.getD i []) :
    levelStep nbCandidates minLen currentPass prefixMaps word st i =
      { st with
        oldPrefixes := st.oldPrefixes.set i (word.take (i + minLen))
        oldPrefixesCounts :=
          (if mapHas (prefixMaps.getD i []) (runesToString (st.oldPrefixes.getD i [])) then
            cascade i i st.oldPrefixesCounts else st.oldPrefixesCounts).set i 1 } := by
  unfold levelStep
  have : ¬ runeSliceIsEqual (word.take (i + minLen))
      (st.oldPrefixes.getD i []) = true := fun e => he ((runeSliceIsEqual_iff _ _).1 e)
  simp only [if_neg h, if_neg this, if_neg hi]
  split <;> rfl

theorem scan_longest (nbCandidates : List Int) (minLen nbPrefixes currentPass : Nat)
    (prefixMaps : List PrefixMap) (hN : nbPrefixes - currentPass = 1)
    (corpus : List (List Char)) :
    ∀ oldWord st st', currentPass < st.oldPrefixes.length →
      currentPass < st.oldPrefixesCounts.length →
      scan nbCandidates minLen nbPrefixes currentPass prefixMaps oldWord st corpus = some st' →
      (flush nbCandidates currentPass st').pushed =
        st.pushed ++ (runsFrom (st.oldPrefixes.getD currentPass [])
          (st.oldPrefixesCounts.getD currentPass 0)
          (levelPrefixes (currentPass + minLen) corpus)).map toPrefixCount := by
  induction corpus with
  | nil =>
    intro oldWord st st' _ _ h
    simp only [scan, Option.some.injEq] at h
    subst h
    simp [flush, levelPrefixes, runsFrom, toPrefixCount]
  | cons word rest ih =>
    intro oldWord st st' h1 h2 h
    rw [scan] at h
    split at h
    · cases h
    · rw [hN] at h
      simp only [wordLevels, Nat.add_zero] at h
      by_cases hlen : word.length < currentPass + minLen
      · rw [levelStep_short _ _ _ _ _ _ _ hlen] at h
        have := ih _ _ _ h1 h2 h
        rw [this]
        simp [levelPrefixes, Nat.not_le.2 hlen]
      · have hlp : levelPrefixes (currentPass + minLen) (word :: rest) =
            word.take (currentPass + minLen) :: levelPrefixes (currentPass + minLen) rest := by
          simp [levelPrefixes, Nat.le_of_not_lt hlen]
        rw [hlp]
        by_cases heq : word.take (currentPass + minLen) = st.oldPrefixes.getD currentPass []
        · rw [levelStep_same _ _ _ _ _ _ _ hlen heq] at h
          have := ih _ _ _ (by simpa using h1) (by simpa using h2) h
          rw [this]
          simp only
          rw [getD_set_self _ _ _ _ h2, runsFrom, if_pos heq]
        · rw [levelStep_flush _ _ _ _ _ _ hlen heq] at h
          have := ih _ _ _ (by simpa [flush] using h1) (by simpa [flush] using h2) h
          rw [this]
          simp only
          rw [getD_set_self _ _ _ _ h1, getD_set_self _ _ _ _ h2, runsFrom, if_neg heq]
          simp [flush, toPrefixCount]

theorem initState_getD (minLen nbPrefixes i : Nat) (hi : i < nbPrefixes) :
    (initState minLen nbPrefixes).oldPrefixes.getD i [] = List.replicate (i + minLen) (Char.ofNat 0)
      ∧ (initState minLen nbPrefixes).oldPrefixesCounts.getD i 0 = 0
      ∧ (initState minLen nbPrefixes).oldPrefixes.length = nbPrefixes
      ∧ (initState minLen nbPrefixes).oldPrefixesCounts.length = nbPrefixes := by
  simp [initState, List.getD_eq_getElem?_getD, List.getElem?_replicate, hi]

theorem passState_longest (nbCandidates : List Int) (minLen nbPrefixes currentPass : Nat)
    (prefixMaps : List PrefixMap) (hN : currentPass + 1 = nbPrefixes)
    (corpus : List (List Char)) (st : PassState)
    (h : passState nbCandidates minLen nbPrefixes corpus prefixMaps currentPass = some st) :
    st.pushed = (runsFrom (List.replicate (currentPass + minLen) (Char.ofNat 0)) 0
      (levelPrefixes (currentPass + minLen) corpus)).map toPrefixCount := by
  unfold passState at h
  cases hsc : scan nbCandidates minLen nbPrefixes currentPass prefixMaps []
      (initState minLen nbPrefixes) corpus with
  | none => rw [hsc] at h; cases h
  | some st0 =>
    rw [hsc] at h
    simp only [Option.map_some', Option.some.injEq] at h
    obtain ⟨e1, e2, e3, e4⟩ := initState_getD minLen nbPrefixes currentPass (by omega)
    have := scan_longest nbCandidates minLen nbPrefixes currentPass prefixMaps (by omega) corpus
      [] (initState minLen nbPrefixes) st0 (by omega) (by omega) hsc
    rw [h, e1, e2] at this
    rw [this]
    simp [initState]

/-! ## Sorted corpora -/

theorem sortedFrom_pairwise (corpus : List (List Char)) : ∀ oldWord : GoString,
    sortedFrom oldWord corpus = true →
    (∀ w ∈ corpus, stringLess (runesToString w) oldWord = false) ∧ corpus.Pairwise runesLe := by
  induction corpus with
  | nil => intro _ _; simp
  | cons word rest ih =>
    intro oldWord h
    simp only [sortedFrom, Bool.and_eq_true, Bool.not_eq_eq_eq_not, Bool.not_true] at h
    obtain ⟨h1, h2⟩ := h
    obtain ⟨i1, i2⟩ := ih _ h2
    constructor
    · intro w hw
      rcases List.mem_cons.1 hw with e | e
      · rw [e]; exact h1
      · exact stringLe_trans _ _ _ h1 (i1 w e)
    · exact List.Pairwise.cons (fun w hw => i1 w hw) i2

theorem corpusSorted_pairwise (corpus : List (List Char)) (h : corpusSorted corpus = true) :
    corpus.Pairwise runesLe :=
  (sortedFrom_pairwise corpus [] h).2

theorem mem_levelPrefixes (n : Nat) (corpus : List (List Char)) (p : List Char) :
    p ∈ levelPrefixes n corpus ↔ ∃ w ∈ corpus, n ≤ w.length ∧ w.take n = p := by
  simp [levelPrefixes, and_assoc]

theorem length_of_mem_levelPrefixes (n : Nat) (corpus : List (List Char)) (p : List Char)
    (h : p ∈ levelPrefixes n corpus) : p.length = n := by
  obtain ⟨w, -, hl, rfl⟩ := (mem_levelPrefixes _ _ _).1 h
  simp [hl]

theorem levelPrefixes_pairwise (n : Nat) (corpus : List (List Char))
    (h : corpus.Pairwise runesLe) : (levelPrefixes n corpus).Pairwise runesLe := by
  induction corpus with
  | nil => simp [levelPrefixes]
  | cons w rest ih =>
    obtain ⟨h1, h2⟩ := List.pairwise_cons.1 h
    by_cases hl : n ≤ w.length
    · have e : levelPrefixes n (w :: rest) = w.take n :: levelPrefixes n rest := by
        simp [levelPrefixes, hl]
      rw [e]
      refine List.Pairwise.cons ?_ (ih h2)
      intro q hq
      obtain ⟨v, hv, hvl, rfl⟩ := (mem_levelPrefixes _ _ _).1 hq
      exact stringLe_take w v n hl hvl (h1 v hv)
    · have e : levelPrefixes n (w :: rest) = levelPrefixes n rest := by
        simp [levelPrefixes, hl]
      rw [e]; exact ih h2

theorem encodeRune_length_pos (c : Char) : 1 ≤ (encodeRune c).length := by
  unfold encodeRune
  simp only
  split_ifs <;> simp

theorem length_le_runesToString (p : List Char) : p.length ≤ (runesToString p).length := by
  induction p with
  | nil => simp [runesToString]
  | cons c p ih =>
    have := encodeRune_length_pos c
    simp only [runesToString, List.length_cons, List.length_append]
    omega

theorem runesToString_zeros (n : Nat) :
    runesToString (List.replicate n (Char.ofNat 0)) = List.replicate n 0 := by
  induction n with
  | zero => rfl
  | succ n ih =>
    rw [List.replicate_succ, runesToString, ih, List.replicate_succ]
    rfl

theorem stringLess_zeros (n : Nat) : ∀ b : GoString, n ≤ b.length →
    stringLess b (List.replicate n 0) = false := by
  induction n with
  | zero => intro b _; exact stringLess_nil b
  | succ n ih =>
    intro b hb
    cases b with
    | nil => simp at hb
    | cons x b =>
      rw [List.replicate_succ]
      simp only [stringLess, Nat.not_lt_zero, if_false]
      split
      · rfl
      · exact ih b (by simpa using hb)

theorem runesLe_zeros (p : List Char) :
    runesLe (List.replicate p.length (Char.ofNat 0)) p := by
  unfold runesLe
  rw [runesToString_zeros]
  exact stringLess_zeros _ _ (length_le_runesToString p)

theorem runesLe_antisymm (p q : List Char) (hl : p.length = q.length) (h1 : runesLe p q)
    (h2 : runesLe q p) : p = q :=
  runesToString_inj p q hl (stringLess_antisymm _ _ h2 h1)

/-! ## Runs of a sorted list of prefixes -/

theorem runsFrom_spec (ps : List (List Char)) : ∀ (a : List Char) (n : Int),
    (a :: ps).Pairwise runesLe → (∀ p ∈ ps, p.length = a.length) →
    ((runsFrom a n ps).map Prod.fst).Nodup ∧
      (∀ x ∈ runsFrom a n ps, x.1 ∈ a :: ps) ∧
      (a, n + (ps.count a : Nat)) ∈ runsFrom a n ps ∧
      ∀ p ∈ ps, p ≠ a → (p, ((ps.count p : Nat) : Int)) ∈ runsFrom a n ps := by
  induction ps with
  | nil => intro a n _ _; simp [runsFrom]
  | cons p ps ih =>
    intro a n hpw hlen
    obtain ⟨ha, hps⟩ := List.pairwise_cons.1 hpw
    obtain ⟨hp, hps'⟩ := List.pairwise_cons.1 hps
    by_cases hpa : p = a
    · subst hpa
      rw [runsFrom, if_pos rfl]
      obtain ⟨i1, i2, i3, i4⟩ := ih p (n + 1) hps
        (fun q hq => hlen q (List.mem_cons_of_mem _ hq))
      refine ⟨i1, ?_, ?_, ?_⟩
      · intro x hx
        exact List.mem_cons_of_mem _ (i2 x hx)
      · have : n + ((List.count p (p :: ps) : Nat) : Int) = n + 1 + (List.count p ps : Nat) := by
          rw [List.count_cons_self]; push_cast; ring
        rw [this]; exact i3
      · intro q hq hqp
        rcases List.mem_cons.1 hq with e | e
        · exact absurd e hqp
        · rw [List.count_cons_of_ne hqp]
          exact i4 q e hqp
    · rw [runsFrom, if_neg hpa]
      have hlp : p.length = a.length := hlen p (List.mem_cons_self _ _)
      obtain ⟨i1, i2, i3, i4⟩ := ih p 1 hps (fun q hq => by
        rw [hlen q (List.mem_cons_of_mem _ hq), hlp])
      have hnotin : a ∉ p :: ps := by
        intro hmem
        rcases List.mem_cons.1 hmem with e | e
        · exact hpa e.symm
        · exact hpa (runesLe_antisymm p a hlp (hp a e) (ha p (List.mem_cons_self _ _)))
      refine ⟨?_, ?_, ?_, ?_⟩
      · rw [List.map_cons, List.nodup_cons]
        refine ⟨?_, i1⟩
        intro hmem
        obtain ⟨x, hx, hxa⟩ := List.mem_map.1 hmem
        have hxa' : x.1 = a := hxa
        rw [← hxa'] at hnotin
        exact hnotin (i2 x hx)
      · intro x hx
        rcases List.mem_cons.1 hx with e | e
        · rw [e]; exact List.mem_cons_self _ _
        · exact List.mem_cons_of_mem _ (i2 x e)
      · rw [List.count_eq_zero_of_not_mem hnotin]
        simp
      · intro q hq hqa
        apply List.mem_cons_of_mem
        rcases List.mem_cons.1 hq with e | e
        · subst e
          have : ((List.count q (q :: ps) : Nat) : Int) = 1 + (List.count q ps : Nat) := by
            rw [List.count_cons_self]; push_cast; ring
          rw [this]; exact i3
        · by_cases hqp : q = p
          · subst hqp
            have : ((List.count q (q :: ps) : Nat) : Int) = 1 + (List.count q ps : Nat) := by
              rw [List.count_cons_self]; push_cast; ring
            rw [this]; exact i3
          · rw [List.count_cons_of_ne hqp]
            exact i4 q e hqp

theorem count_levelPrefixes (corpus : List (List Char)) (p : List Char) :
    (levelPrefixes p.length corpus).count p = wordsStartingWith corpus p := by
  induction corpus with
  | nil => simp [levelPrefixes, wordsStartingWith]
  | cons w rest ih =>
    unfold wordsStartingWith at ih ⊢
    rw [List.countP_cons, ← ih]
    by_cases hl : p.length ≤ w.length
    · have e : levelPrefixes p.length (w :: rest) = w.take p.length :: levelPrefixes p.length rest := by
        simp [levelPrefixes, hl]
      rw [e, List.count_cons]
      congr 1
      by_cases hp : w.take p.length = p
      · have : p <+: w := by rw [List.prefix_iff_eq_take]; exact hp.symm
        simp [hp, List.isPrefixOf_iff_prefix.2 this]
      · have : ¬ p <+: w := by
          intro h; rw [List.prefix_iff_eq_take] at h; exact hp h.symm
        have h2 : p.isPrefixOf w = false := by
          cases hh : p.isPrefixOf w with
          | false => rfl
          | true => exact absurd (List.isPrefixOf_iff_prefix.1 hh) this
        simp [hp, h2]
    · have e : levelPrefixes p.length (w :: rest) = levelPrefixes p.length rest := by
        simp [levelPrefixes, hl]
      have : ¬ p <+: w := fun h => hl h.length_le
      have h2 : p.isPrefixOf w = false := by
        cases hh : p.isPrefixOf w with
        | false => rfl
        | true => exact absurd (List.isPrefixOf_iff_prefix.1 hh) this
      rw [e, h2]; simp

/-! ## A selector that is large enough, and the drained map -/

theorem selectorFold_perm_of_lt (cap : Int) (xs : List prefixCount)
    (h : (xs.length : Int) < cap) : (selectorFold cap xs).Perm xs := by
  induction xs using List.reverseRecOn with
  | nil => simp [selectorFold]
  | append_singleton xs x ih =>
    simp only [List.length_append, List.length_singleton, Nat.cast_add, Nat.cast_one] at h
    have ih' := ih (by omega)
    rw [selectorFold_append, selectorInsert_none _ _ _ (by rw [ih'.length_eq]; omega)]
    have hcomm : (x :: xs).Perm (xs ++ [x]) := by
      have := @List.perm_append_comm _ [x] xs
      simpa using this
    exact (heapPush_perm _ _).trans ((List.Perm.cons x ih').trans hcomm)

theorem mapGet_mapSet (m : PrefixMap) (k : GoString) (v : Int) (k' : GoString) :
    mapGet (mapSet m k v) k' = if k = k' then some v else mapGet m k' := by
  by_cases hk : k = k'
  · subst hk; simp [mapGet, mapSet]
  · simp only [mapGet, mapSet, if_neg hk]
    rw [List.find?_cons_of_neg _ (by simpa using hk)]
    congr 1
    induction m with
    | nil => rfl
    | cons kv m ih =>
      by_cases h1 : kv.1 = k
      · have h2 : ¬ kv.1 = k' := fun e => hk (h1 ▸ e)
        simp only [List.filter_cons, h1, decide_True, Bool.not_true, Bool.false_eq_true, if_false]
        rw [ih, List.find?_cons_of_neg _ (by simpa [h1] using hk)]
      · simp only [List.filter_cons, h1, decide_False, Bool.not_false, if_true]
        by_cases h2 : kv.1 = k'
        · rw [List.find?_cons_of_pos _ (by simpa using h2),
            List.find?_cons_of_pos _ (by simpa using h2)]
        · rw [List.find?_cons_of_neg _ (by simpa using h2),
            List.find?_cons_of_neg _ (by simpa using h2), ih]

theorem drain_get_of_not_mem (fuel : Nat) : ∀ (h : prefixCountHeap) (m : PrefixMap)
    (k : GoString), (∀ p ∈ h, p.Prefix ≠ k) → mapGet (drain fuel h m) k = mapGet m k := by
  induction fuel with
  | zero => intro h m k _; rfl
  | succ fuel ih =>
    intro h m k hk
    rw [drain]
    cases hp : heapPop h with
    | none => rfl
    | some q =>
      obtain ⟨p, h1⟩ := q
      have hperm := heapPop_perm _ _ _ hp
      simp only
      rw [ih h1 _ k (fun p' hp' => hk p' (hperm.mem_iff.2 (List.mem_cons_of_mem _ hp'))),
        mapGet_mapSet, if_neg (hk p (hperm.mem_iff.2 (List.mem_cons_self _ _)))]

theorem drain_get (fuel : Nat) : ∀ (h : prefixCountHeap) (m : PrefixMap) (p : prefixCount),
    (h.map prefixCount.Prefix).Nodup → h.length ≤ fuel → p ∈ h →
    mapGet (drain fuel h m) p.Prefix = some p.Count := by
  induction fuel with
  | zero =>
    intro h m p _ hl hp
    have : h = [] := List.eq_nil_of_length_eq_zero (by omega)
    rw [this] at hp; cases hp
  | succ fuel ih =>
    intro h m p hnd hl hp
    rw [drain]
    cases hpop : heapPop h with
    | none =>
      cases h with
      | nil => cases hp
      | cons a t => simp [heapPop] at hpop
    | some q =>
      obtain ⟨e, h1⟩ := q
      have hperm := heapPop_perm _ _ _ hpop
      have hlen := heapPop_length _ _ _ hpop
      have hnd' : ((e :: h1).map prefixCount.Prefix).Nodup :=
        (List.Perm.map _ hperm).nodup_iff.1 hnd
      rw [List.map_cons, List.nodup_cons] at hnd'
      simp only
      rcases List.mem_cons.1 (hperm.mem_iff.1 hp) with hpe | hp1
      · rw [hpe, drain_get_of_not_mem fuel h1 _ e.Prefix, mapGet_mapSet, if_pos rfl]
        intro p' hp' heq
        exact hnd'.1 (heq ▸ List.mem_map_of_mem _ hp')
      · exact ih h1 _ p hnd'.2 (by omega) hp1

/-- C5: on a sorted corpus the passes complete when their allocations succeed
(non-negative capacities within the limit of the run time), and whenever they
complete and the capacity of the longest level exceeds the number of entries
flushed into its selector (so that no entry is evicted), `LevelResult[N-1]`
maps the first `maxLen` characters of every corpus word that has that many to
the number of corpus words that start with them. -/
theorem raw_frequency_longest_level (nbCandidates : List Int) (minLen nbPrefixes : Nat)
    (corpus : List (List Char)) (hN : 1 ≤ nbPrefixes) (hs : corpusSorted corpus = true) :
    ((∀ i, i < nbPrefixes → passAllocates nbCandidates minLen nbPrefixes i) →
        ∃ r, reduce nbCandidates minLen nbPrefixes corpus = Run.done r) ∧
      ∀ r, reduce nbCandidates minLen nbPrefixes corpus = Run.done r →
        (((r.pushedLog.getD (nbPrefixes - 1) []).length : Int) <
            nbCandidates.getD (nbPrefixes - 1) 0 →
          ∀ w ∈ corpus, nbPrefixes - 1 + minLen ≤ w.length →
            mapGet (r.prefixMaps.getD (nbPrefixes - 1) [])
                (runesToString (w.take (nbPrefixes - 1 + minLen))) =
              some (wordsStartingWith corpus (w.take (nbPrefixes - 1 + minLen)) : Int)) := by
  refine ⟨fun ha => reduce_done_of_sorted nbCandidates minLen nbPrefixes corpus hs ha, ?_⟩
  intro r hr
  intro hcap w hw hwl
  obtain ⟨-, hlv⟩ := reduce_spec _ _ _ _ _ hr
  obtain ⟨pm, st, -, -, hps, hmap, hlog⟩ := hlv (nbPrefixes - 1) (by omega)
  have hheap := passState_heapHist _ _ _ _ _ _ _ hps
  have hpushed := passState_longest nbCandidates minLen nbPrefixes (nbPrefixes - 1) pm
    (by omega) corpus st hps
  rw [hlog] at hcap
  have hperm := selectorFold_perm_of_lt _ _ hcap
  rw [← hheap] at hperm
  set L := nbPrefixes - 1 + minLen with hL
  set zeros := List.replicate L (Char.ofNat 0) with hz
  have hlenlp : ∀ p ∈ levelPrefixes L corpus, p.length = zeros.length := by
    intro p hp
    rw [length_of_mem_levelPrefixes _ _ _ hp, hz, List.length_replicate]
  have hpw : (zeros :: levelPrefixes L corpus).Pairwise runesLe := by
    refine List.Pairwise.cons ?_ (levelPrefixes_pairwise L corpus (corpusSorted_pairwise _ hs))
    intro p hp
    have := runesLe_zeros p
    rw [length_of_mem_levelPrefixes _ _ _ hp] at this
    exact this
  obtain ⟨hnd, hsub, hza, hoth⟩ := runsFrom_spec (levelPrefixes L corpus) zeros 0 hpw hlenlp
  have hp : w.take L ∈ levelPrefixes L corpus := (mem_levelPrefixes _ _ _).2 ⟨w, hw, hwl, rfl⟩
  have hcount : (levelPrefixes L corpus).count (w.take L) = wordsStartingWith corpus (w.take L) := by
    have := count_levelPrefixes corpus (w.take L)
    rw [length_of_mem_levelPrefixes _ _ _ hp] at this
    exact this
  have hentry : (w.take L, ((wordsStartingWith corpus (w.take L) : Nat) : Int)) ∈
      runsFrom zeros 0 (levelPrefixes L corpus) := by
    rw [← hcount]
    by_cases hzw : w.take L = zeros
    · rw [hzw]
      simpa using hza
    · exact hoth _ hp hzw
  have hkeys : (st.pushed.map prefixCount.Prefix).Nodup := by
    rw [hpushed, List.map_map]
    have : (prefixCount.Prefix ∘ toPrefixCount) = runesToString ∘ Prod.fst := by
      funext x; rfl
    rw [this, ← List.map_map]
    apply List.Nodup.map_on _ hnd
    intro x hx y hy hxy
    have hx' : x.length = L := by
      obtain ⟨a, ha, rfl⟩ := List.mem_map.1 hx
      rcases List.mem_cons.1 (hsub a ha) with e | e
      · rw [e, hz, List.length_replicate]
      · exact length_of_mem_levelPrefixes _ _ _ e
    have hy' : y.length = L := by
      obtain ⟨a, ha, rfl⟩ := List.mem_map.1 hy
      rcases List.mem_cons.1 (hsub a ha) with e | e
      · rw [e, hz, List.length_replicate]
      · exact length_of_mem_levelPrefixes _ _ _ e
    exact runesToString_inj x y (by rw [hx', hy']) hxy
  have hmem : toPrefixCount (w.take L, ((wordsStartingWith corpus (w.take L) : Nat) : Int)) ∈
      st.currentPrefixHeap := by
    rw [hperm.mem_iff, hpushed]
    exact List.mem_map_of_mem _ hentry
  rw [hmap]
  exact drain_get _ _ [] _ ((List.Perm.map _ hperm).nodup_iff.2 hkeys) (le_refl _) hmem

theorem raw_frequency_longest_level_witness :
    corpusSorted ["aaaa1".toList, "aaaa2".toList, "aaaa3".toList, "aaaa4".toList,
      "aaaa5".toList, "aaaa6".toList, "aaaa7".toList, "aaaa8".toList, "aaaa9".toList,
      "bbbb1".toList] = true ∧
    (∀ i, i < 1 → passAllocates [12] 4 1 i) ∧
    (∃ r, reduce [12] 4 1 ["aaaa1".toList, "aaaa2".toList, "aaaa3".toList, "aaaa4".toList,
        "aaaa5".toList, "aaaa6".toList, "aaaa7".toList, "aaaa8".toList, "aaaa9".toList,
        "bbbb1".toList] = Run.done r ∧
      (((r.pushedLog.getD (1 - 1) []).length : Int) < [(12 : Int)].getD (1 - 1) 0 →
        ∀ w ∈ ["aaaa1".toList, "aaaa2".toList, "aaaa3".toList, "aaaa4".toList,
          "aaaa5".toList, "aaaa6".toList, "aaaa7".toList, "aaaa8".toList, "aaaa9".toList,
          "bbbb1".toList], 1 - 1 + 4 ≤ w.length →
          mapGet (r.prefixMaps.getD (1 - 1) []) (runesToString (w.take (1 - 1 + 4))) =
            some (wordsStartingWith ["aaaa1".toList, "aaaa2".toList, "aaaa3".toList,
              "aaaa4".toList, "aaaa5".toList, "aaaa6".toList, "aaaa7".toList, "aaaa8".toList,
              "aaaa9".toList, "bbbb1".toList] (w.take (1 - 1 + 4)) : Int))) ∧
    (match reduce [12] 4 1 ["aaaa1".toList, "aaaa2".toList, "aaaa3".toList, "aaaa4".toList,
        "aaaa5".toList, "aaaa6".toList, "aaaa7".toList, "aaaa8".toList, "aaaa9".toList,
        "bbbb1".toList] with
      | Run.done r => some ((r.pushedLog.getD 0 []).length,
          mapGet (r.prefixMaps.getD 0 []) [97, 97, 97, 97],
          mapGet (r.prefixMaps.getD 0 []) [98, 98, 98, 98])
      | _ => none) = some (3, some 9, some 1) :=
  ⟨by decide, by decide,
    ((raw_frequency_longest_level [12] 4 1 ["aaaa1".toList, "aaaa2".toList, "aaaa3".toList,
      "aaaa4".toList, "aaaa5".toList, "aaaa6".toList, "aaaa7".toList, "aaaa8".toList,
      "aaaa9".toList, "bbbb1".toList] (by decide) (by decide)).1 (by decide)).elim
      (fun r h => ⟨r, h,
        (raw_frequency_longest_level [12] 4 1 ["aaaa1".toList, "aaaa2".toList,
          "aaaa3".toList, "aaaa4".toList, "aaaa5".toList, "aaaa6".toList, "aaaa7".toList,
          "aaaa8".toList, "aaaa9".toList, "bbbb1".toList] (by decide) (by decide)).2 r h⟩),
    by decide⟩

/-- C4: at capacity 1 the insert of one entry into the empty selector evicts
that entry, although the size after adding (1) does not exceed the capacity;
and a selector of capacity 3 does not retain its first 3 inserts. -/
theorem selectorInsert_evicts_at_capacity :
    selectorInsert 1 [] { Prefix := [97], Count := 5 } =
        ([], some { Prefix := [97], Count := 5 }) ∧
      selectorFold 3 [{ Prefix := [97], Count := 5 }, { Prefix := [98], Count := 7 },
        { Prefix := [99], Count := 6 }] =
        [{ Prefix := [99], Count := 6 }, { Prefix := [98], Count := 7 }] := by
  decide

/-! ## The redundancy eliminator -/

theorem hasShortestPrefixMatched_spec (prefixMaps : List PrefixMap) (minLen : Nat)
    (k : GoString) (i : Nat) (hk : i + minLen ≤ k.length) (n : Nat) (hn : n ≤ i) :
    ∃ b, hasShortestPrefixMatched prefixMaps minLen k i n = some b ∧
      (b = true ↔ ∃ j, i - n ≤ j ∧ j < i ∧
        mapHas (prefixMaps.getD j []) (k.take (j + minLen)) = true) := by
  induction n with
  | zero =>
    refine ⟨false, rfl, ?_⟩
    constructor
    · intro h; cases h
    · rintro ⟨j, h1, h2, -⟩; omega
  | succ n ih =>
    obtain ⟨b, hb, hiff⟩ := ih (by omega)
    rw [hasShortestPrefixMatched]
    have hs : sliceTo k (i - (n + 1) + minLen) = some (k.take (i - (n + 1) + minLen)) := by
      unfold sliceTo
      rw [if_pos (by omega)]
    rw [hs]
    simp only
    by_cases hm : mapHas (prefixMaps.getD (i - (n + 1)) []) (k.take (i - (n + 1) + minLen)) = true
    · rw [if_pos hm]
      exact ⟨true, rfl, fun _ => ⟨i - (n + 1), le_refl _, by omega, hm⟩, fun _ => rfl⟩
    · rw [if_neg hm]
      refine ⟨b, hb, ?_⟩
      rw [hiff]
      constructor
      · rintro ⟨j, h1, h2, h3⟩
        exact ⟨j, by omega, h2, h3⟩
      · rintro ⟨j, h1, h2, h3⟩
        by_cases hj : j = i - (n + 1)
        · rw [hj] at h3; exact absurd h3 hm
        · exact ⟨j, by omega, h2, h3⟩

theorem hasShortestPrefixMatched_covered (prefixMaps : List PrefixMap) (minLen : Nat)
    (k : GoString) (i : Nat) (hk : i + minLen ≤ k.length) :
    ∃ b, hasShortestPrefixMatched prefixMaps minLen k i i = some b ∧
      (b = true ↔ coveredBelow prefixMaps minLen k i) := by
  obtain ⟨b, hb, hiff⟩ := hasShortestPrefixMatched_spec prefixMaps minLen k i hk i (le_refl _)
  refine ⟨b, hb, ?_⟩
  rw [hiff]
  unfold coveredBelow
  constructor
  · rintro ⟨j, -, h2, h3⟩; exact ⟨j, h2, h3⟩
  · rintro ⟨j, h2, h3⟩; exact ⟨j, by omega, h2, h3⟩

theorem emitLevel_spec (prefixMaps : List PrefixMap) (minLen i : Nat)
    (entries : List (GoString × Int)) (hlen : ∀ kv ∈ entries, i + minLen ≤ kv.1.length) :
    ∀ out, (emitLevel prefixMaps minLen i entries out).exit = Exit.ok ∧
      ∀ x, x ∈ (emitLevel prefixMaps minLen i entries out).stdout ↔
        x ∈ out ∨ ∃ kv ∈ entries, x = (kv.2, kv.1) ∧
          ¬ coveredBelow prefixMaps minLen kv.1 i := by
  induction entries with
  | nil => intro out; simp [emitLevel]
  | cons kv rest ih =>
    intro out
    obtain ⟨k, v⟩ := kv
    obtain ⟨b, hb, hiff⟩ := hasShortestPrefixMatched_covered prefixMaps minLen k i
      (hlen (k, v) (List.mem_cons_self _ _))
    have ih' := ih (fun kv hkv => hlen kv (List.mem_cons_of_mem _ hkv))
    rw [emitLevel, hb]
    cases b with
    | true =>
      have hcov : coveredBelow prefixMaps minLen k i := hiff.1 rfl
      simp only
      refine ⟨(ih' out).1, ?_⟩
      intro x
      rw [(ih' out).2 x]
      constructor
      · rintro (h | ⟨kv, hkv, h1, h2⟩)
        · exact Or.inl h
        · exact Or.inr ⟨kv, List.mem_cons_of_mem _ hkv, h1, h2⟩
      · rintro (h | ⟨kv, hkv, h1, h2⟩)
        · exact Or.inl h
        · rcases List.mem_cons.1 hkv with e | e
          · rw [e] at h2; exact absurd hcov h2
          · exact Or.inr ⟨kv, e, h1, h2⟩
    | false =>
      have hcov : ¬ coveredBelow prefixMaps minLen k i := by
        intro h; have := hiff.2 h; cases this
      simp only
      refine ⟨(ih' _).1, ?_⟩
      intro x
      rw [(ih' _).2 x]
      constructor
      · rintro (h | ⟨kv, hkv, h1, h2⟩)
        · rcases List.mem_append.1 h with h | h
          · exact Or.inl h
          · refine Or.inr ⟨(k, v), List.mem_cons_self _ _, ?_, hcov⟩
            simpa using h
        · exact Or.inr ⟨kv, List.mem_cons_of_mem _ hkv, h1, h2⟩
      · rintro (h | ⟨kv, hkv, h1, h2⟩)
        · exact Or.inl (List.mem_append_left _ h)
        · rcases List.mem_cons.1 hkv with e | e
          · left
            rw [h1, e]
            simp
          · exact Or.inr ⟨kv, e, h1, h2⟩

theorem finale_spec (prefixMaps : List PrefixMap) (minLen nbPrefixes : Nat)
    (hlen : keysLongEnough prefixMaps minLen) (n : Nat) (hn : n ≤ nbPrefixes) :
    ∀ out, (finale prefixMaps minLen nbPrefixes n out).exit = Exit.ok ∧
      ∀ x, x ∈ (finale prefixMaps minLen nbPrefixes n out).stdout ↔
        x ∈ out ∨ ∃ i, nbPrefixes - n ≤ i ∧ i < nbPrefixes ∧
          ∃ kv ∈ prefixMaps.getD i [], x = (kv.2, kv.1) ∧
            ¬ coveredBelow prefixMaps minLen kv.1 i := by
  induction n with
  | zero =>
    intro out
    refine ⟨rfl, fun x => ?_⟩
    simp only [finale]
    constructor
    · intro h; exact Or.inl h
    · rintro (h | ⟨i, h1, h2, -⟩)
      · exact h
      · omega
  | succ n ih =>
    intro out
    have hl := emitLevel_spec prefixMaps minLen (nbPrefixes - (n + 1))
      (prefixMaps.getD (nbPrefixes - (n + 1)) []) (hlen _) out
    have ih' := ih (by omega)
    rw [finale]
    simp only [hl.1]
    refine ⟨(ih' _).1, fun x => ?_⟩
    rw [(ih' _).2 x, hl.2 x]
    constructor
    · rintro ((h | ⟨kv, hkv, h1, h2⟩) | ⟨i, h1, h2, h3⟩)
      · exact Or.inl h
      · exact Or.inr ⟨nbPrefixes - (n + 1), le_refl _, by omega, kv, hkv, h1, h2⟩
      · exact Or.inr ⟨i, by omega, h2, h3⟩
    · rintro (h | ⟨i, h1, h2, kv, hkv, h3, h4⟩)
      · exact Or.inl (Or.inl h)
      · by_cases hi : i = nbPrefixes - (n + 1)
        · subst hi
          exact Or.inl (Or.inr ⟨kv, hkv, h3, h4⟩)
        · exact Or.inr ⟨i, by omega, h2, kv, hkv, h3, h4⟩

theorem eliminate_spec (prefixMaps : List PrefixMap) (minLen : Nat)
    (hlen : keysLongEnough prefixMaps minLen) :
    (eliminate prefixMaps minLen).exit = Exit.ok ∧
      ∀ v k, (v, k) ∈ (eliminate prefixMaps minLen).stdout ↔
        ∃ i, (k, v) ∈ prefixMaps.getD i [] ∧ ¬ coveredBelow prefixMaps minLen k i := by
  obtain ⟨h1, h2⟩ := finale_spec prefixMaps minLen prefixMaps.length hlen prefixMaps.length
    (le_refl _) []
  refine ⟨h1, fun v k => ?_⟩
  unfold eliminate
  rw [h2]
  constructor
  · rintro (h | ⟨i, -, -, kv, hkv, h3, h4⟩)
    · cases h
    · simp only [Prod.mk.injEq] at h3
      obtain ⟨rfl, rfl⟩ := h3
      exact ⟨i, hkv, h4⟩
  · rintro ⟨i, hkv, h4⟩
    have hi : i < prefixMaps.length := by
      by_contra hge
      rw [List.getD_eq_default _ _ (by omega)] at hkv
      cases hkv
    exact Or.inr ⟨i, by omega, hi, (k, v), hkv, rfl, h4⟩

/-- C7: for the corpus `aa1, aa2, aa3` with lengths 1 to 2 and capacities 2,
the level of length 2 selects `aa` with count 3 and the level of length 1
still stores the count 3 for `a`, although no word starting with `a` is left
outside the selected longer prefix `aa`. -/
theorem cascade_misses_last_run :
    levelResults [2, 2] 1 2 ["aa1".toList, "aa2".toList, "aa3".toList] =
        Run.done [[([97], 3)], [([97, 97], 3)]] ∧
      runesToString "a".toList = [97] ∧ runesToString "aa".toList = [97, 97] ∧
      unclaimedWords ["aa1".toList, "aa2".toList, "aa3".toList] ["aa".toList] "a".toList = 0 := by
  decide

/-- C8: with `minLen = 1`, for the family with `é` at level 0 and `éa` at
level 1 the eliminator emits both entries, although the first character of
`éa` is the key `é` of level 0. -/
theorem eliminate_multibyte_emits_covered :
    eliminate [[([195, 169], 1)], [([195, 169, 97], 1)]] 1 =
        { stdout := [(1, [195, 169]), (1, [195, 169, 97])], exit := Exit.ok } ∧
      runesToString "é".toList = [195, 169] ∧ runesToString "éa".toList = [195, 169, 97] := by
  decide

/-- C9, as stated, fails: with `a` at level 0 and `aa` at level 1 the final
output is the line of `a` alone, so it contains the shorter prefix and not the
longer one. -/
theorem eliminate_keeps_shorter_prefix :
    (eliminate [[([97], 1)], [([97, 97], 2)]] 1).stdout = [(1, [97])] ∧
      ¬ (((2 : Int), [97, 97]) ∈ (eliminate [[([97], 1)], [([97, 97], 2)]] 1).stdout ∧
        ((1 : Int), [97]) ∉ (eliminate [[([97], 1)], [([97, 97], 2)]] 1).stdout) := by
  decide

/-- C9 (amended): when `p` is a key of level `j` and is the first
`j + minLen` bytes of a key `q` of a level `i` (where `q` is a key of no
level up to `j`, so that `i > j`), the eliminator ends normally, its output has no line for
the longer prefix `q`, and it has the line of the shorter prefix `p` unless
`p` is itself covered by a key of a level below `j`; at level `j = 0` the
line of `p` is always there. -/
theorem eliminate_drops_extension (prefixMaps : List PrefixMap) (minLen : Nat)
    (hlen : keysLongEnough prefixMaps minLen) (i j : Nat) (p q : GoString) (c d : Int)
    (hp : (p, c) ∈ prefixMaps.getD j []) (hq : (q, d) ∈ prefixMaps.getD i [])
    (hpq : q.take (j + minLen) = p)
    (hqlow : ∀ i', i' ≤ j → mapHas (prefixMaps.getD i' []) q = false) :
    (eliminate prefixMaps minLen).exit = Exit.ok ∧
      (∀ v, (v, q) ∉ (eliminate prefixMaps minLen).stdout) ∧
      (¬ coveredBelow prefixMaps minLen p j → (c, p) ∈ (eliminate prefixMaps minLen).stdout) ∧
      (j = 0 → (c, p) ∈ (eliminate prefixMaps minLen).stdout) := by
  obtain ⟨hok, hout⟩ := eliminate_spec prefixMaps minLen hlen
  have hqi : i + minLen ≤ q.length := hlen i (q, d) hq
  refine ⟨hok, ?_, ?_, ?_⟩
  · intro v hv
    obtain ⟨i', hmem, hnc⟩ := (hout v q).1 hv
    by_cases hi' : i' ≤ j
    · have := hqlow i' hi'
      have h2 : mapHas (prefixMaps.getD i' []) q = true :=
        (mapHas_iff _ _).2 ⟨(q, v), hmem, rfl⟩
      rw [this] at h2; cases h2
    · apply hnc
      refine ⟨j, by omega, ?_⟩
      rw [hpq]
      exact (mapHas_iff _ _).2 ⟨(p, c), hp, rfl⟩
  · intro hnc
    exact (hout c p).2 ⟨j, hp, hnc⟩
  · intro hj0
    refine (hout c p).2 ⟨j, hp, ?_⟩
    rintro ⟨j', hj', -⟩
    omega

theorem eliminate_drops_extension_witness :
    (eliminate [[([97], 1)], [([97, 97], 2)]] 1).exit = Exit.ok ∧
      (∀ v, (v, [97, 97]) ∉ (eliminate [[([97], 1)], [([97, 97], 2)]] 1).stdout) ∧
      (¬ coveredBelow [[([97], 1)], [([97, 97], 2)]] 1 [97] 0 →
        ((1 : Int), [97]) ∈ (eliminate [[([97], 1)], [([97, 97], 2)]] 1).stdout) ∧
      (0 = 0 → ((1 : Int), [97]) ∈ (eliminate [[([97], 1)], [([97, 97], 2)]] 1).stdout) :=
  eliminate_drops_extension [[([97], 1)], [([97, 97], 2)]] 1
    (by
      intro i kv hkv
      rcases i with _ | _ | i
      · simp at hkv; subst hkv; decide
      · simp at hkv; subst hkv; decide
      · simp at hkv)
    1 0 [97] [97, 97] 1 2 (by decide) (by decide) (by decide)
    (by
      intro i' hi'
      have : i' = 0 := by omega
      subst this
      decide)

/-- C10: for the one-line corpus `éa` with lengths 1 to 2 and capacities 2 the
final output has a line for `é` and a line for `éa`, and the bytes of `é` are
a proper prefix of the bytes of `éa`. -/
theorem multibyte_output_is_redundant :
    presuf [2, 2] 1 2 ["éa".toList] =
        { stdout := [(1, [195, 169]), (1, [195, 169, 97])], exit := Exit.ok } ∧
      List.isPrefixOf [195, 169] [195, 169, 97] = true ∧
      corpusSorted ["éa".toList] = true := by
  decide

/-! ## A corpus of identical words -/

theorem scan_eq_foldl (nbCandidates : List Int) (minLen nbPrefixes currentPass : Nat)
    (prefixMaps : List PrefixMap) (corpus : List (List Char)) :
    ∀ oldWord st st',
      scan nbCandidates minLen nbPrefixes currentPass prefixMaps oldWord st corpus = some st' →
      st' = corpus.foldl (fun s w => wordLevels nbCandidates minLen currentPass prefixMaps w
        (nbPrefixes - currentPass) s) st := by
  induction corpus with
  | nil => intro oldWord st st' h; simp only [scan, Option.some.injEq] at h; simp [h]
  | cons word rest ih =>
    intro oldWord st st' h
    rw [scan] at h
    split at h
    · cases h
    · rw [List.foldl_cons]; exact ih _ _ _ h

theorem set_getD_self {α : Type} (l : List α) (i : Nat) (d : α) :
    l.set i (l.getD i d) = l := by
  induction l generalizing i with
  | nil => rfl
  | cons x xs ih =>
    cases i with
    | zero => rfl
    | succ i => simp only [List.getD_cons_succ, List.set_cons_succ, ih]

theorem cascade_zero (i : Nat) (n : Nat) : ∀ counts : List Int, counts.getD i 0 = 0 →
    cascade i n counts = counts := by
  induction n with
  | zero => intro counts _; rfl
  | succ n ih =>
    intro counts h
    rw [cascade, h, sub_zero, set_getD_self]
    exact ih counts h

/-- One level of one word, when the accumulator of the level holds the prefix
of the word, or holds the count `0`. -/
theorem levelStep_seen (nbCandidates : List Int) (minLen currentPass : Nat)
    (prefixMaps : List PrefixMap) (word : List Char) (st : PassState) (j : Nat) (c : Int)
    (hshort : ¬ word.length < j + minLen)
    (hc : st.oldPrefixesCounts.getD j 0 = c)
    (hp : st.oldPrefixes.getD j [] = word.take (j + minLen) ∨ c = 0) :
    (levelStep nbCandidates minLen currentPass prefixMaps word st j).oldPrefixes =
        st.oldPrefixes.set j (word.take (j + minLen)) ∧
      (levelStep nbCandidates minLen currentPass prefixMaps word st j).oldPrefixesCounts =
        st.oldPrefixesCounts.set j (c + 1) ∧
      (levelStep nbCandidates minLen currentPass prefixMaps word st j).pushed =
        if j = currentPass ∧ st.oldPrefixes.getD j [] ≠ word.take (j + minLen) then
          st.pushed ++ [{ Prefix := runesToString (st.oldPrefixes.getD j []), Count := 0 }]
        else st.pushed := by
  by_cases heq : word.take (j + minLen) = st.oldPrefixes.getD j []
  · rw [levelStep_same _ _ _ _ _ _ _ hshort heq]
    refine ⟨?_, by rw [hc], ?_⟩
    · simp only
      rw [heq, set_getD_self]
    · simp only
      rw [if_neg (fun h => h.2 heq.symm)]
  · have hc0 : c = 0 := by
      rcases hp with h | h
      · exact absurd h.symm heq
      · exact h
    subst hc0
    by_cases hj : j = currentPass
    · subst hj
      rw [levelStep_flush _ _ _ _ _ _ hshort heq]
      refine ⟨rfl, by simp, ?_⟩
      rw [if_pos ⟨rfl, fun h => heq h.symm⟩]
      simp only [flush]
      rw [hc]
    · rw [levelStep_cascade _ _ _ _ _ _ _ hj hshort heq]
      refine ⟨rfl, ?_, ?_⟩
      · simp only [cascade_zero j j _ hc, ite_self, zero_add]
      · simp only
        rw [if_neg (fun h => hj h.1)]

theorem wordLevels_seen (nbCandidates : List Int) (minLen currentPass : Nat)
    (prefixMaps : List PrefixMap) (word : List Char) (c : Int) (k : Nat) :
    ∀ st : PassState, currentPass + k ≤ st.oldPrefixes.length →
      currentPass + k ≤ st.oldPrefixesCounts.length →
      currentPass + k ≤ word.length - minLen + 1 → minLen ≤ word.length →
      (∀ j, currentPass ≤ j → j < currentPass + k → st.oldPrefixesCounts.getD j 0 = c ∧
        (st.oldPrefixes.getD j [] = word.take (j + minLen) ∨ c = 0)) →
      (wordLevels nbCandidates minLen currentPass prefixMaps word k st).oldPrefixes.length =
          st.oldPrefixes.length ∧
        (wordLevels nbCandidates minLen currentPass prefixMaps word k st).oldPrefixesCounts.length =
          st.oldPrefixesCounts.length ∧
        (∀ m, (wordLevels nbCandidates minLen currentPass prefixMaps word k st).oldPrefixes.getD
            m [] = if currentPass ≤ m ∧ m < currentPass + k then word.take (m + minLen)
              else st.oldPrefixes.getD m []) ∧
        (∀ m, (wordLevels nbCandidates minLen currentPass prefixMaps word k
            st).oldPrefixesCounts.getD m 0 =
            if currentPass ≤ m ∧ m < currentPass + k then c + 1
              else st.oldPrefixesCounts.getD m 0) ∧
        (wordLevels nbCandidates minLen currentPass prefixMaps word k st).pushed =
          if 0 < k ∧ st.oldPrefixes.getD currentPass [] ≠ word.take (currentPass + minLen) then
            st.pushed ++
              [{ Prefix := runesToString (st.oldPrefixes.getD currentPass []), Count := 0 }]
          else st.pushed := by
  induction k with
  | zero =>
    intro st _ _ _ _ _
    refine ⟨rfl, rfl, ?_, ?_, ?_⟩
    · intro m; rw [if_neg (by omega)]; rfl
    · intro m; rw [if_neg (by omega)]; rfl
    · rw [if_neg (by omega)]; rfl
  | succ k ih =>
    intro st h1 h2 h3 h4 hseen
    rw [wordLevels]
    obtain ⟨hcj, hpj⟩ := hseen (currentPass + k) (by omega) (by omega)
    obtain ⟨e1, e2, e3⟩ := levelStep_seen nbCandidates minLen currentPass prefixMaps word st
      (currentPass + k) c (by omega) hcj hpj
    set st1 := levelStep nbCandidates minLen currentPass prefixMaps word st (currentPass + k)
      with hst1
    have hseen1 : ∀ j, currentPass ≤ j → j < currentPass + k →
        st1.oldPrefixesCounts.getD j 0 = c ∧
          (st1.oldPrefixes.getD j [] = word.take (j + minLen) ∨ c = 0) := by
      intro j hj1 hj2
      rw [e1, e2, getD_set_ne _ _ _ _ _ (by omega), getD_set_ne _ _ _ _ _ (by omega)]
      exact hseen j hj1 (by omega)
    obtain ⟨r1, r2, r3, r4, r5⟩ := ih st1 (by rw [e1]; simp; omega) (by rw [e2]; simp; omega)
      (by omega) h4 hseen1
    refine ⟨by rw [r1, e1]; simp, by rw [r2, e2]; simp, ?_, ?_, ?_⟩
    · intro m
      rw [r3 m]
      by_cases hm : currentPass ≤ m ∧ m < currentPass + k
      · rw [if_pos hm, if_pos ⟨hm.1, by omega⟩]
      · rw [if_neg hm, e1]
        by_cases hmk : m = currentPass + k
        · rw [hmk, getD_set_self _ _ _ _ (by omega), if_pos ⟨by omega, by omega⟩]
        · rw [getD_set_ne _ _ _ _ _ (Ne.symm hmk), if_neg (by omega)]
    · intro m
      rw [r4 m]
      by_cases hm : currentPass ≤ m ∧ m < currentPass + k
      · rw [if_pos hm, if_pos ⟨hm.1, by omega⟩]
      · rw [if_neg hm, e2]
        by_cases hmk : m = currentPass + k
        · rw [hmk, getD_set_self _ _ _ _ (by omega), if_pos ⟨by omega, by omega⟩]
        · rw [getD_set_ne _ _ _ _ _ (Ne.symm hmk), if_neg (by omega)]
    · rw [r5]
      by_cases hk : k = 0
      · subst hk
        rw [if_neg (fun h => absurd h.1 (lt_irrefl 0)), e3]
        simp only [Nat.add_zero]
        by_cases hp : st.oldPrefixes.getD currentPass [] ≠ word.take (currentPass + minLen)
        · rw [if_pos ⟨trivial, hp⟩, if_pos ⟨by omega, hp⟩]
        · rw [if_neg (fun h => hp h.2), if_neg (fun h => hp h.2)]
      · have hne : currentPass + k ≠ currentPass := by omega
        have hpu : st1.pushed = st.pushed := by
          rw [e3, if_neg (fun h => hne h.1)]
        have hp1 : st1.oldPrefixes.getD currentPass [] = st.oldPrefixes.getD currentPass [] := by
          rw [e1, getD_set_ne _ _ _ _ _ hne]
        rw [hpu, hp1]
        by_cases hp : st.oldPrefixes.getD currentPass [] ≠ word.take (currentPass + minLen)
        · rw [if_pos ⟨by omega, hp⟩, if_pos ⟨by omega, hp⟩]
        · rw [if_neg (fun h => hp h.2), if_neg (fun h => hp h.2)]

theorem foldl_identical (nbCandidates : List Int) (minLen nbPrefixes currentPass : Nat)
    (prefixMaps : List PrefixMap) (w : List Char) (hi : currentPass < nbPrefixes)
    (hw : nbPrefixes - 1 + minLen ≤ w.length) (K : Nat) :
    ((List.replicate K w).foldl (fun s w => wordLevels nbCandidates minLen currentPass
        prefixMaps w (nbPrefixes - currentPass) s) (initState minLen nbPrefixes)).oldPrefixes.length
          = nbPrefixes ∧
      ((List.replicate K w).foldl (fun s w => wordLevels nbCandidates minLen currentPass
        prefixMaps w (nbPrefixes - currentPass) s)
          (initState minLen nbPrefixes)).oldPrefixesCounts.length = nbPrefixes ∧
      (∀ j, currentPass ≤ j → j < nbPrefixes →
        ((List.replicate K w).foldl (fun s w => wordLevels nbCandidates minLen currentPass
          prefixMaps w (nbPrefixes - currentPass) s)
            (initState minLen nbPrefixes)).oldPrefixesCounts.getD j 0 = (K : Int) ∧
        ((List.replicate K w).foldl (fun s w => wordLevels nbCandidates minLen currentPass
          prefixMaps w (nbPrefixes - currentPass) s)
            (initState minLen nbPrefixes)).oldPrefixes.getD j [] =
          if K = 0 then List.replicate (j + minLen) (Char.ofNat 0) else w.take (j + minLen)) ∧
      ((List.replicate K w).foldl (fun s w => wordLevels nbCandidates minLen currentPass
        prefixMaps w (nbPrefixes - currentPass) s) (initState minLen nbPrefixes)).pushed =
        if K = 0 then []
        else if List.replicate (currentPass + minLen) (Char.ofNat 0) ≠
            w.take (currentPass + minLen) then
          [{ Prefix := runesToString (List.replicate (currentPass + minLen) (Char.ofNat 0)),
             Count := 0 }]
        else [] := by
  induction K with
  | zero =>
    simp only [List.replicate_zero, List.foldl_nil, if_true, Nat.cast_zero]
    refine ⟨by simp [initState], by simp [initState], ?_, rfl⟩
    intro j _ hj
    obtain ⟨e1, e2, -, -⟩ := initState_getD minLen nbPrefixes j hj
    exact ⟨e2, e1⟩
  | succ K ih =>
    rw [List.replicate_succ', List.foldl_append]
    simp only [List.foldl_cons, List.foldl_nil]
    obtain ⟨l1, l2, hlev, hpu⟩ := ih
    set st := (List.replicate K w).foldl (fun s w => wordLevels nbCandidates minLen currentPass
        prefixMaps w (nbPrefixes - currentPass) s) (initState minLen nbPrefixes) with hst
    obtain ⟨r1, r2, r3, r4, r5⟩ := wordLevels_seen nbCandidates minLen currentPass prefixMaps w
      (K : Int) (nbPrefixes - currentPass) st (by omega) (by omega) (by omega) (by omega)
      (by
        intro j hj1 hj2
        obtain ⟨a, b⟩ := hlev j hj1 (by omega)
        refine ⟨a, ?_⟩
        by_cases hK : K = 0
        · right; simp [hK]
        · left; rw [b, if_neg hK])
    refine ⟨by rw [r1, l1], by rw [r2, l2], ?_, ?_⟩
    · intro j hj1 hj2
      rw [r3 j, r4 j, if_pos ⟨hj1, by omega⟩, if_pos ⟨hj1, by omega⟩,
        if_neg (Nat.succ_ne_zero K)]
      exact ⟨by push_cast; rfl, rfl⟩
    · rw [r5, if_neg (Nat.succ_ne_zero K), hpu, (hlev currentPass (le_refl _) hi).2]
      by_cases hK : K = 0
      · simp only [hK, if_true, List.nil_append]
        by_cases hz : List.replicate (currentPass + minLen) (Char.ofNat 0) ≠
            w.take (currentPass + minLen)
        · rw [if_pos ⟨by omega, hz⟩, if_pos hz]
        · rw [if_neg (fun h => hz h.2), if_neg hz]
      · simp only [hK, if_false]
        rw [if_neg (fun h => h.2 rfl)]

theorem passState_identical (nbCandidates : List Int) (minLen nbPrefixes currentPass : Nat)
    (prefixMaps : List PrefixMap) (w : List Char) (hi : currentPass < nbPrefixes)
    (hw : nbPrefixes - 1 + minLen ≤ w.length) (K : Nat) (hK : 1 ≤ K) (st : PassState)
    (h : passState nbCandidates minLen nbPrefixes (List.replicate K w) prefixMaps currentPass
      = some st) :
    st.pushed =
      (if List.replicate (currentPass + minLen) (Char.ofNat 0) ≠ w.take (currentPass + minLen)
        then [{ Prefix := runesToString (List.replicate (currentPass + minLen) (Char.ofNat 0)),
                Count := 0 }]
        else []) ++
        [{ Prefix := runesToString (w.take (currentPass + minLen)), Count := (K : Int) }] := by
  unfold passState at h
  cases hsc : scan nbCandidates minLen nbPrefixes currentPass prefixMaps []
      (initState minLen nbPrefixes) (List.replicate K w) with
  | none => rw [hsc] at h; cases h
  | some st0 =>
    rw [hsc] at h
    simp only [Option.map_some', Option.some.injEq] at h
    have hfold := scan_eq_foldl _ _ _ _ _ _ _ _ _ hsc
    obtain ⟨-, -, hlev, hpu⟩ := foldl_identical nbCandidates minLen nbPrefixes currentPass
      prefixMaps w hi hw K
    rw [← hfold] at hlev hpu
    obtain ⟨hc, hp⟩ := hlev currentPass (le_refl _) hi
    have hK0 : K ≠ 0 := by omega
    rw [if_neg hK0] at hp hpu
    rw [← h]
    simp only [flush]
    rw [hpu, hc, hp]

/-! ## The selector keeps a strict maximum -/

theorem selectorFold_length (cap : Int) (xs : List prefixCount) :
    ((selectorFold cap xs).length : Int) = min (xs.length : Int) (max (cap - 1) 0) := by
  induction xs using List.reverseRecOn with
  | nil => simp [selectorFold]
  | append_singleton xs x ih =>
    rw [selectorFold_append, selectorInsert_length]
    simp only [List.length_append, List.length_singleton, Nat.cast_add, Nat.cast_one]
    split <;> push_cast <;> omega

theorem selectorFold_subset (cap : Int) (xs : List prefixCount) :
    ∀ e ∈ selectorFold cap xs, e ∈ xs := by
  obtain ⟨-, ev, hperm, -, -⟩ := selectorFold_topK cap xs
  intro e he
  exact hperm.mem_iff.2 (List.mem_append_left _ he)

theorem selectorFold_keys_nodup (cap : Int) (xs : List prefixCount)
    (h : (xs.map prefixCount.Prefix).Nodup) :
    ((selectorFold cap xs).map prefixCount.Prefix).Nodup := by
  obtain ⟨-, ev, hperm, -, -⟩ := selectorFold_topK cap xs
  have := (List.Perm.map prefixCount.Prefix hperm).nodup_iff.1 h
  rw [List.map_append] at this
  exact List.Nodup.of_append_left this

theorem selectorFold_keeps_max (cap : Int) (xs : List prefixCount) (x : prefixCount)
    (hcap : 2 ≤ cap) (hx : x ∈ xs) (hmax : ∀ y ∈ xs, y ≠ x → y.Count < x.Count) :
    x ∈ selectorFold cap xs := by
  obtain ⟨-, ev, hperm, hle, -⟩ := selectorFold_topK cap xs
  rcases List.mem_append.1 (hperm.mem_iff.1 hx) with h | h
  · exact h
  · have hlen := selectorFold_length cap xs
    have hpos : 0 < (selectorFold cap xs).length := by
      have h1 : 0 < xs.length := List.length_pos_of_mem hx
      have h2 : (1 : Int) ≤ max (cap - 1) 0 := le_trans (by omega) (le_max_left _ _)
      have h3 : (1 : Int) ≤ min (xs.length : Int) (max (cap - 1) 0) := le_min (by omega) h2
      omega
    obtain ⟨r, hr⟩ := List.exists_mem_of_length_pos hpos
    by_cases hrx : r = x
    · rw [← hrx]; exact hr
    · have h1 := hle x h r hr
      have h2 := hmax r (hperm.mem_iff.2 (List.mem_append_left _ hr)) hrx
      omega

theorem mapGet_some_mem (m : PrefixMap) (k : GoString) (v : Int) (h : mapGet m k = some v) :
    (k, v) ∈ m := by
  unfold mapGet at h
  cases hf : m.find? (fun kv => decide (kv.1 = k)) with
  | none => rw [hf] at h; cases h
  | some kv =>
    rw [hf] at h
    simp only [Option.map_some', Option.some.injEq] at h
    have h1 := List.find?_some hf
    have h2 := List.mem_of_find?_eq_some hf
    simp only [decide_eq_true_eq] at h1
    rw [← h1, ← h]
    exact h2

theorem sortedFrom_replicate (w : List Char) (K : Nat) :
    sortedFrom (runesToString w) (List.replicate K w) = true := by
  induction K with
  | zero => rfl
  | succ K ih => simp [List.replicate_succ, sortedFrom, stringLess_irrefl, ih]

theorem corpusSorted_replicate (w : List Char) (K : Nat) :
    corpusSorted (List.replicate K w) = true := by
  cases K with
  | zero => rfl
  | succ K =>
    simp [corpusSorted, List.replicate_succ, sortedFrom, stringLess_nil, sortedFrom_replicate]

theorem runesToString_ascii (p : List Char) (h : ∀ c ∈ p, c.toNat < 128) :
    runesToString p = p.map Char.toNat := by
  induction p with
  | nil => rfl
  | cons c p ih =>
    have hc : c.toNat < 128 := h c (List.mem_cons_self _ _)
    rw [runesToString, ih (fun d hd => h d (List.mem_cons_of_mem _ hd))]
    simp [encodeRune, hc]

theorem level_identical (nbCandidates : List Int) (minLen nbPrefixes : Nat) (w : List Char)
    (K : Nat) (hK : 1 ≤ K) (hw : nbPrefixes - 1 + minLen ≤ w.length) (r : Reducer)
    (hr : reduce nbCandidates minLen nbPrefixes (List.replicate K w) = Run.done r) (i : Nat)
    (hi : i < nbPrefixes) :
    (∀ kv ∈ r.prefixMaps.getD i [],
        kv = (runesToString (w.take (i + minLen)), (K : Int)) ∨
          kv = (List.replicate (i + minLen) 0, 0)) ∧
      (2 ≤ nbCandidates.getD i 0 →
        mapGet (r.prefixMaps.getD i []) (runesToString (w.take (i + minLen))) =
          some (K : Int)) := by
  obtain ⟨-, hlv⟩ := reduce_spec _ _ _ _ _ hr
  obtain ⟨pm, st, -, -, hps, hmap, -⟩ := hlv i hi
  have hheap := passState_heapHist _ _ _ _ _ _ _ hps
  have hpushed := passState_identical nbCandidates minLen nbPrefixes i pm w hi hw K hK st hps
  set x : prefixCount :=
    { Prefix := runesToString (w.take (i + minLen)), Count := (K : Int) } with hx
  set z : prefixCount :=
    { Prefix := runesToString (List.replicate (i + minLen) (Char.ofNat 0)), Count := 0 } with hz
  have hmem : ∀ y ∈ st.pushed, y = x ∨
      (y = z ∧ List.replicate (i + minLen) (Char.ofNat 0) ≠ w.take (i + minLen)) := by
    intro y hy
    rw [hpushed] at hy
    rcases List.mem_append.1 hy with h | h
    · right
      split at h
      · rename_i hne
        exact ⟨by simpa using h, hne⟩
      · cases h
    · left; simpa using h
  constructor
  · intro kv hkv
    rw [hmap] at hkv
    rcases drain_mem _ _ _ _ hkv with h | ⟨p, hp, hh⟩
    · cases h
    · rw [hheap] at hp
      rcases hmem p (selectorFold_subset _ _ p hp) with e | ⟨e, -⟩
      · left
        rw [e] at hh
        exact Prod.ext hh.1.symm hh.2.symm
      · right
        rw [e] at hh
        refine Prod.ext ?_ hh.2.symm
        rw [← hh.1, hz, runesToString_zeros]
  · intro hcap
    have hxin : x ∈ st.pushed := by
      rw [hpushed]; exact List.mem_append_right _ (List.mem_singleton_self _)
    have hxheap : x ∈ st.currentPrefixHeap := by
      rw [hheap]
      apply selectorFold_keeps_max _ _ _ hcap hxin
      intro y hy hyx
      rcases hmem y hy with e | ⟨e, -⟩
      · exact absurd e hyx
      · rw [e, hz, hx]
        show (0 : Int) < (K : Int)
        omega
    have hnd : (st.pushed.map prefixCount.Prefix).Nodup := by
      rw [hpushed]
      split
      · rename_i hne
        have : runesToString (List.replicate (i + minLen) (Char.ofNat 0)) ≠
            runesToString (w.take (i + minLen)) := by
          intro e
          apply hne
          apply runesToString_inj _ _ _ e
          simp
          omega
        simp [this]
      · simp
    have hnd' := selectorFold_keys_nodup (nbCandidates.getD i 0) st.pushed hnd
    rw [← hheap] at hnd'
    rw [hmap]
    exact drain_get _ _ [] x hnd' (le_refl _) hxheap

/-- C6: for 3 copies of the word `aaaa1` with `minLen = maxLen = 4` and
capacity 3 the result of the longest level holds two prefixes, `aaaa` with
count 3 and the all-zero initial accumulator with count 0, and the final output
has two lines, `3:aaaa` and `0:` followed by four zero bytes. -/
theorem identical_words_two_entries :
    corpusSorted (List.replicate 3 "aaaa1".toList) = true ∧
      (∃ prefixMaps, levelResults [3] 4 1 (List.replicate 3 "aaaa1".toList) =
          Run.done prefixMaps ∧
        (prefixMaps.getD 0 []).length = 2 ∧
        mapGet (prefixMaps.getD 0 []) [97, 97, 97, 97] = some 3 ∧
        mapGet (prefixMaps.getD 0 []) [0, 0, 0, 0] = some 0) ∧
      (presuf [3] 4 1 (List.replicate 3 "aaaa1".toList)).exit = Exit.ok ∧
      (presuf [3] 4 1 (List.replicate 3 "aaaa1".toList)).stdout.length = 2 ∧
      ((3 : Int), [97, 97, 97, 97]) ∈
        (presuf [3] 4 1 (List.replicate 3 "aaaa1".toList)).stdout ∧
      ((0 : Int), [0, 0, 0, 0]) ∈
        (presuf [3] 4 1 (List.replicate 3 "aaaa1".toList)).stdout :=
  ⟨by decide, ⟨[[([97, 97, 97, 97], 3), ([0, 0, 0, 0], 0)]], by decide, by decide, by decide,
    by decide⟩, by decide, by decide, by decide, by decide⟩

/-! ## The prefixes flushed by any pass -/

theorem runsFrom_fst (ps : List (List Char)) : ∀ (a : List Char) (n m : Int),
    (runsFrom a n ps).map Prod.fst = (runsFrom a m ps).map Prod.fst := by
  induction ps with
  | nil => intro a n m; rfl
  | cons p ps ih =>
    intro a n m
    rw [runsFrom, runsFrom]
    split
    · exact ih a _ _
    · rfl

theorem levelStep_other (nbCandidates : List Int) (minLen currentPass : Nat)
    (prefixMaps : List PrefixMap) (word : List Char) (st : PassState) (j : Nat)
    (hj : j ≠ currentPass) :
    (levelStep nbCandidates minLen currentPass prefixMaps word st j).oldPrefixes.length =
        st.oldPrefixes.length ∧
      (levelStep nbCandidates minLen currentPass prefixMaps word st j).oldPrefixes.getD
        currentPass [] = st.oldPrefixes.getD currentPass [] ∧
      (levelStep nbCandidates minLen currentPass prefixMaps word st j).pushed = st.pushed := by
  by_cases hshort : word.length < j + minLen
  · rw [levelStep_short _ _ _ _ _ _ _ hshort]
    exact ⟨rfl, rfl, rfl⟩
  · by_cases heq : word.take (j + minLen) = st.oldPrefixes.getD j []
    · rw [levelStep_same _ _ _ _ _ _ _ hshort heq]
      exact ⟨rfl, rfl, rfl⟩
    · rw [levelStep_cascade _ _ _ _ _ _ _ hj hshort heq]
      refine ⟨by simp, ?_, rfl⟩
      simp only
      rw [getD_set_ne _ _ _ _ _ hj]

theorem levelStep_current (nbCandidates : List Int) (minLen currentPass : Nat)
    (prefixMaps : List PrefixMap) (word : List Char) (st : PassState)
    (hi : currentPass < st.oldPrefixes.length) :
    KeyStep minLen currentPass word st
      (levelStep nbCandidates minLen currentPass prefixMaps word st currentPass) := by
  unfold KeyStep
  by_cases hshort : word.length < currentPass + minLen
  · rw [levelStep_short _ _ _ _ _ _ _ hshort, if_pos (Or.inl hshort)]
    exact ⟨rfl, rfl, rfl⟩
  · by_cases heq : word.take (currentPass + minLen) = st.oldPrefixes.getD currentPass []
    · rw [levelStep_same _ _ _ _ _ _ _ hshort heq, if_pos (Or.inr heq)]
      exact ⟨rfl, rfl, rfl⟩
    · rw [levelStep_flush _ _ _ _ _ _ hshort heq, if_neg (by tauto)]
      refine ⟨by simp, ?_, ?_⟩
      · simp only
        rw [getD_set_self _ _ _ _ hi]
      · simp [flush]

theorem wordLevels_current (nbCandidates : List Int) (minLen currentPass : Nat)
    (prefixMaps : List PrefixMap) (word : List Char) (k : Nat) :
    ∀ st : PassState, currentPass < st.oldPrefixes.length →
      KeyStep minLen currentPass word st
        (wordLevels nbCandidates minLen currentPass prefixMaps word (k + 1) st) := by
  induction k with
  | zero =>
    intro st hi
    simp only [wordLevels, Nat.add_zero]
    exact levelStep_current _ _ _ _ _ _ hi
  | succ k ih =>
    intro st hi
    rw [wordLevels]
    obtain ⟨e1, e2, e3⟩ := levelStep_other nbCandidates minLen currentPass prefixMaps word st
      (currentPass + (k + 1)) (by omega)
    have := ih (levelStep nbCandidates minLen currentPass prefixMaps word st
      (currentPass + (k + 1))) (by rw [e1]; exact hi)
    unfold KeyStep at this ⊢
    rw [e1, e2, e3] at this
    exact this

theorem scan_pushed_keys (nbCandidates : List Int) (minLen nbPrefixes currentPass : Nat)
    (prefixMaps : List PrefixMap) (hN : currentPass < nbPrefixes)
    (corpus : List (List Char)) :
    ∀ oldWord st st', currentPass < st.oldPrefixes.length →
      scan nbCandidates minLen nbPrefixes currentPass prefixMaps oldWord st corpus = some st' →
      (flush nbCandidates currentPass st').pushed.map prefixCount.Prefix =
        st.pushed.map prefixCount.Prefix ++
          ((runsFrom (st.oldPrefixes.getD currentPass []) 0
            (levelPrefixes (currentPass + minLen) corpus)).map Prod.fst).map runesToString := by
  induction corpus with
  | nil =>
    intro oldWord st st' _ h
    simp only [scan, Option.some.injEq] at h
    subst h
    simp [flush, levelPrefixes, runsFrom]
  | cons word rest ih =>
    intro oldWord st st' h1 h
    rw [scan] at h
    split at h
    · cases h
    · obtain ⟨k, hk⟩ : ∃ k, nbPrefixes - currentPass = k + 1 := ⟨nbPrefixes - currentPass - 1, by omega⟩
      rw [hk] at h
      have hstep := wordLevels_current nbCandidates minLen currentPass prefixMaps word k st h1
      unfold KeyStep at hstep
      obtain ⟨hl, hcase⟩ := hstep
      have := ih _ _ _ (by rw [hl]; exact h1) h
      rw [this]
      by_cases hlen : word.length < currentPass + minLen
      · rw [if_pos (Or.inl hlen)] at hcase
        rw [hcase.1, hcase.2]
        simp [levelPrefixes, Nat.not_le.2 hlen]
      · have hlp : levelPrefixes (currentPass + minLen) (word :: rest) =
            word.take (currentPass + minLen) :: levelPrefixes (currentPass + minLen) rest := by
          simp [levelPrefixes, Nat.le_of_not_lt hlen]
        rw [hlp]
        by_cases heq : word.take (currentPass + minLen) = st.oldPrefixes.getD currentPass []
        · rw [if_pos (Or.inr heq)] at hcase
          rw [hcase.1, hcase.2, runsFrom, if_pos heq, runsFrom_fst _ _ (0 + 1) 0]
        · rw [if_neg (by tauto)] at hcase
          rw [hcase.1, hcase.2, runsFrom, if_neg heq, List.map_cons, runsFrom_fst _ _ 1 0]
          simp

theorem passState_pushed_keys (nbCandidates : List Int) (minLen nbPrefixes currentPass : Nat)
    (prefixMaps : List PrefixMap) (hN : currentPass < nbPrefixes)
    (corpus : List (List Char)) (st : PassState)
    (h : passState nbCandidates minLen nbPrefixes corpus prefixMaps currentPass = some st) :
    st.pushed.map prefixCount.Prefix =
      ((runsFrom (List.replicate (currentPass + minLen) (Char.ofNat 0)) 0
        (levelPrefixes (currentPass + minLen) corpus)).map Prod.fst).map runesToString := by
  unfold passState at h
  cases hsc : scan nbCandidates minLen nbPrefixes currentPass prefixMaps []
      (initState minLen nbPrefixes) corpus with
  | none => rw [hsc] at h; cases h
  | some st0 =>
    rw [hsc] at h
    simp only [Option.map_some', Option.some.injEq] at h
    obtain ⟨e1, -, e3, -⟩ := initState_getD minLen nbPrefixes currentPass hN
    have := scan_pushed_keys nbCandidates minLen nbPrefixes currentPass prefixMaps hN corpus
      [] (initState minLen nbPrefixes) st0 (by omega) hsc
    rw [h, e1] at this
    rw [this]
    simp [initState]

theorem runKeys_nodup (n : Nat) (corpus : List (List Char))
    (hs : corpusSorted corpus = true) :
    (((runsFrom (List.replicate n (Char.ofNat 0)) 0 (levelPrefixes n corpus)).map
      Prod.fst).map runesToString).Nodup := by
  set zeros := List.replicate n (Char.ofNat 0) with hz
  have hlenlp : ∀ p ∈ levelPrefixes n corpus, p.length = zeros.length := by
    intro p hp
    rw [length_of_mem_levelPrefixes _ _ _ hp, hz, List.length_replicate]
  have hpw : (zeros :: levelPrefixes n corpus).Pairwise runesLe := by
    refine List.Pairwise.cons ?_ (levelPrefixes_pairwise n corpus (corpusSorted_pairwise _ hs))
    intro p hp
    have := runesLe_zeros p
    rw [length_of_mem_levelPrefixes _ _ _ hp] at this
    exact this
  obtain ⟨hnd, hsub, -, -⟩ := runsFrom_spec (levelPrefixes n corpus) zeros 0 hpw hlenlp
  apply List.Nodup.map_on _ hnd
  intro x hx y hy hxy
  have hx' : x.length = n := by
    obtain ⟨a, ha, rfl⟩ := List.mem_map.1 hx
    rcases List.mem_cons.1 (hsub a ha) with e | e
    · rw [e, hz, List.length_replicate]
    · exact length_of_mem_levelPrefixes _ _ _ e
  have hy' : y.length = n := by
    obtain ⟨a, ha, rfl⟩ := List.mem_map.1 hy
    rcases List.mem_cons.1 (hsub a ha) with e | e
    · rw [e, hz, List.length_replicate]
    · exact length_of_mem_levelPrefixes _ _ _ e
  exact runesToString_inj x y (by rw [hx', hy']) hxy

theorem passState_pushed_nodup (nbCandidates : List Int) (minLen nbPrefixes currentPass : Nat)
    (prefixMaps : List PrefixMap) (hN : currentPass < nbPrefixes)
    (corpus : List (List Char)) (hs : corpusSorted corpus = true) (st : PassState)
    (h : passState nbCandidates minLen nbPrefixes corpus prefixMaps currentPass = some st) :
    (st.pushed.map prefixCount.Prefix).Nodup := by
  rw [passState_pushed_keys _ _ _ _ _ hN _ _ h]
  exact runKeys_nodup _ corpus hs

/-- C3: on a sorted corpus the passes complete when their allocations succeed
(non-negative capacities within the limit of the run time), and whenever they
complete, for every level `i`, every entry of `LevelResult[i]` is an entry
flushed into the selector during pass `i`, and every flushed `(prefix, count)`
that is absent from `LevelResult[i]` has a count that is at most the count of
every prefix present in it. -/
theorem topK_selection (nbCandidates : List Int) (minLen nbPrefixes : Nat)
    (corpus : List (List Char)) (hs : corpusSorted corpus = true) :
    ((∀ i, i < nbPrefixes → passAllocates nbCandidates minLen nbPrefixes i) →
        ∃ r, reduce nbCandidates minLen nbPrefixes corpus = Run.done r) ∧
      ∀ r, reduce nbCandidates minLen nbPrefixes corpus = Run.done r →
        ∀ i, i < nbPrefixes →
          (∀ kv ∈ r.prefixMaps.getD i [], ∃ e ∈ r.pushedLog.getD i [],
            e.Prefix = kv.1 ∧ e.Count = kv.2) ∧
          ∀ e ∈ r.pushedLog.getD i [], (e.Prefix, e.Count) ∉ r.prefixMaps.getD i [] →
            ∀ kv ∈ r.prefixMaps.getD i [], e.Count ≤ kv.2 := by
  refine ⟨fun ha => reduce_done_of_sorted nbCandidates minLen nbPrefixes corpus hs ha, ?_⟩
  intro r hr
  intro i hi
  obtain ⟨-, hlv⟩ := reduce_spec _ _ _ _ _ hr
  obtain ⟨pm, st, -, -, hps, hmap, hlog⟩ := hlv i hi
  have hheap := passState_heapHist _ _ _ _ _ _ _ hps
  obtain ⟨-, ev, hperm, hle, -⟩ := selectorFold_topK (nbCandidates.getD i 0) st.pushed
  have hnd := selectorFold_keys_nodup (nbCandidates.getD i 0) st.pushed
    (passState_pushed_nodup _ _ _ _ _ hi _ hs _ hps)
  rw [← hheap] at hperm hle hnd
  rw [hmap, hlog]
  constructor
  · intro kv hkv
    rcases drain_mem _ _ _ _ hkv with h | ⟨p, hp, hh⟩
    · cases h
    · exact ⟨p, hperm.mem_iff.2 (List.mem_append_left _ hp), hh⟩
  · intro e he hno kv hkv
    rcases drain_mem _ _ _ _ hkv with h | ⟨p, hp, hh⟩
    · cases h
    · rw [← hh.2]
      rcases List.mem_append.1 (hperm.mem_iff.1 he) with h | h
      · exact absurd (mapGet_some_mem _ _ _ (drain_get _ _ [] e hnd (le_refl _) h)) hno
      · exact hle e h p hp

theorem topK_selection_witness :
    corpusSorted ["aa1".toList, "aa2".toList, "ab1".toList, "b".toList] = true ∧
    (∀ i, i < 2 → passAllocates [3, 2] 1 2 i) ∧
    ∃ r, reduce [3, 2] 1 2 ["aa1".toList, "aa2".toList, "ab1".toList, "b".toList] =
        Run.done r ∧
      ∀ i, i < 2 →
        (∀ kv ∈ r.prefixMaps.getD i [], ∃ e ∈ r.pushedLog.getD i [],
          e.Prefix = kv.1 ∧ e.Count = kv.2) ∧
        ∀ e ∈ r.pushedLog.getD i [], (e.Prefix, e.Count) ∉ r.prefixMaps.getD i [] →
          ∀ kv ∈ r.prefixMaps.getD i [], e.Count ≤ kv.2 :=
  ⟨by decide, by decide,
    ((topK_selection [3, 2] 1 2 ["aa1".toList, "aa2".toList, "ab1".toList, "b".toList]
      (by decide)).1 (by decide)).elim
      (fun r h => ⟨r, h,
        (topK_selection [3, 2] 1 2 ["aa1".toList, "aa2".toList, "ab1".toList, "b".toList]
          (by decide)).2 r h⟩)⟩

/-- C11: for the sorted corpus `aa, aa, aa, b, ba, c` with lengths 1 to 2 and
capacities 10 the level of length 1 stores the count `-1` for `b`, and the
final output has the line `-1:b`. -/
theorem negative_count_stored :
    corpusSorted ["aa".toList, "aa".toList, "aa".toList, "b".toList, "ba".toList,
        "c".toList] = true ∧
      levelResults [10, 10] 1 2 ["aa".toList, "aa".toList, "aa".toList, "b".toList,
          "ba".toList, "c".toList] =
        Run.done [[([97], 3), ([99], 1), ([0], 0), ([98], -1)],
          [([97, 97], 3), ([98, 97], 1), ([0, 0], 0)]] ∧
      ((-1 : Int), [98]) ∈ (presuf [10, 10] 1 2 ["aa".toList, "aa".toList, "aa".toList,
        "b".toList, "ba".toList, "c".toList]).stdout := by
  decide

/-- C12: for the empty corpus with `minLen = maxLen = 4` and capacity 2 the
final output has the line `0:` followed by four zero bytes, the initial
accumulator, which is the prefix of no word. -/
theorem empty_corpus_emits_initial_accumulator :
    presuf [2] 4 1 [] = { stdout := [(0, [0, 0, 0, 0])], exit := Exit.ok } ∧
      levelResults [2] 4 1 [] = Run.done [[([0, 0, 0, 0], 0)]] := by
  decide

/-- C19: after any sequence of inserts into a fresh selector of capacity
`c ≥ 0` the selector holds exactly `min(n, max(c - 1, 0))` entries, `n` being
the number of inserts; a selector of capacity 1 is empty and a selector of
capacity `c ≥ 1` never holds `c` entries. -/
theorem selector_exact_occupancy (cap : Int) (hcap : 0 ≤ cap) (xs : List prefixCount) :
    ((selectorFold cap xs).length : Int) = min (xs.length : Int) (max (cap - 1) 0) ∧
      (cap = 1 → selectorFold cap xs = []) ∧
      (1 ≤ cap → ((selectorFold cap xs).length : Int) ≠ cap) := by
  have h := selectorFold_length cap xs
  refine ⟨h, ?_, ?_⟩
  · intro h1
    apply List.eq_nil_of_length_eq_zero
    subst h1
    omega
  · intro h1
    omega

theorem selector_exact_occupancy_witness :
    ((selectorFold 3 [{ Prefix := [97], Count := 5 }, { Prefix := [98], Count := 7 },
        { Prefix := [99], Count := 6 }]).length : Int) =
        min (([{ Prefix := [97], Count := 5 }, { Prefix := [98], Count := 7 },
          { Prefix := [99], Count := 6 }] : List prefixCount).length : Int) (max (3 - 1) 0) ∧
      ((3 : Int) = 1 → selectorFold 3 [{ Prefix := [97], Count := 5 },
        { Prefix := [98], Count := 7 }, { Prefix := [99], Count := 6 }] = []) ∧
      (1 ≤ (3 : Int) → ((selectorFold 3 [{ Prefix := [97], Count := 5 },
        { Prefix := [98], Count := 7 }, { Prefix := [99], Count := 6 }]).length : Int) ≠ 3) :=
  selector_exact_occupancy 3 (by decide) _

theorem runsFrom_fst_mem (ps : List (List Char)) : ∀ (a : List Char) (n : Int),
    ∀ x ∈ runsFrom a n ps, x.1 ∈ a :: ps := by
  induction ps with
  | nil => intro a n x hx; simp [runsFrom] at hx; simp [hx]
  | cons p ps ih =>
    intro a n x hx
    rw [runsFrom] at hx
    split at hx
    · rename_i hpa
      have := ih a _ x hx
      rcases List.mem_cons.1 this with e | e
      · rw [e]; exact List.mem_cons_self _ _
      · exact List.mem_cons_of_mem _ (List.mem_cons_of_mem _ e)
    · rcases List.mem_cons.1 hx with e | e
      · rw [e]; exact List.mem_cons_self _ _
      · exact List.mem_cons_of_mem _ (ih p 1 x e)

/-- The prefixes pushed by a pass are strings of `currentPass + minLen`
runes. -/
theorem passState_pushed_runes (nbCandidates : List Int) (minLen nbPrefixes currentPass : Nat)
    (prefixMaps : List PrefixMap) (hN : currentPass < nbPrefixes)
    (corpus : List (List Char)) (st : PassState)
    (h : passState nbCandidates minLen nbPrefixes corpus prefixMaps currentPass = some st) :
    ∀ e ∈ st.pushed, ∃ p : List Char, p.length = currentPass + minLen ∧
      e.Prefix = runesToString p := by
  intro e he
  have hk := passState_pushed_keys _ _ _ _ _ hN _ _ h
  have : e.Prefix ∈ st.pushed.map prefixCount.Prefix := List.mem_map_of_mem _ he
  rw [hk] at this
  obtain ⟨p, hp, hpe⟩ := List.mem_map.1 this
  obtain ⟨x, hx, rfl⟩ := List.mem_map.1 hp
  refine ⟨x.1, ?_, hpe.symm⟩
  rcases List.mem_cons.1 (runsFrom_fst_mem _ _ _ x hx) with e1 | e1
  · rw [e1, List.length_replicate]
  · exact length_of_mem_levelPrefixes _ _ _ e1

/-- C18: on a sorted corpus the passes complete when their allocations succeed
(non-negative capacities within the limit of the run time), and whenever they
complete every key of `LevelResult[i]` is the string of a sequence of exactly
`minLen + i` code points. -/
theorem levelResult_keys_length (nbCandidates : List Int) (minLen nbPrefixes : Nat)
    (corpus : List (List Char)) (hs : corpusSorted corpus = true) :
    ((∀ i, i < nbPrefixes → passAllocates nbCandidates minLen nbPrefixes i) →
        ∃ prefixMaps, levelResults nbCandidates minLen nbPrefixes corpus =
          Run.done prefixMaps) ∧
      ∀ prefixMaps, levelResults nbCandidates minLen nbPrefixes corpus = Run.done prefixMaps →
        ∀ i, i < nbPrefixes → ∀ kv ∈ prefixMaps.getD i [],
          ∃ p : List Char, p.length = minLen + i ∧ kv.1 = runesToString p := by
  constructor
  · intro ha
    obtain ⟨r, hr⟩ := reduce_done_of_sorted nbCandidates minLen nbPrefixes corpus hs ha
    exact ⟨r.prefixMaps, levelResults_of_reduce _ _ _ _ _ hr⟩
  intro prefixMaps hpm
  obtain ⟨r, hr, rfl⟩ := levelResults_done _ _ _ _ _ hpm
  intro i hi kv hkv
  obtain ⟨-, hlv⟩ := reduce_spec _ _ _ _ _ hr
  obtain ⟨pm, st, -, -, hps, hmap, -⟩ := hlv i hi
  have hheap := passState_heapHist _ _ _ _ _ _ _ hps
  rw [hmap] at hkv
  rcases drain_mem _ _ _ _ hkv with h | ⟨e, he, hh⟩
  · cases h
  · rw [hheap] at he
    obtain ⟨p, hp, hpe⟩ := passState_pushed_runes _ _ _ _ _ hi _ _ hps e
      (selectorFold_subset _ _ e he)
    exact ⟨p, by omega, by rw [← hh.1, hpe]⟩

theorem levelResult_keys_length_witness :
    corpusSorted ["aa1".toList, "éa".toList] = true ∧
    (∀ i, i < 2 → passAllocates [3, 3] 1 2 i) ∧
    ∃ prefixMaps, levelResults [3, 3] 1 2 ["aa1".toList, "éa".toList] = Run.done prefixMaps ∧
      ∀ i, i < 2 → ∀ kv ∈ prefixMaps.getD i [],
        ∃ p : List Char, p.length = 1 + i ∧ kv.1 = runesToString p :=
  ⟨by decide, by decide,
    ((levelResult_keys_length [3, 3] 1 2 ["aa1".toList, "éa".toList] (by decide)).1
      (by decide)).elim
      (fun prefixMaps h => ⟨prefixMaps, h,
        (levelResult_keys_length [3, 3] 1 2 ["aa1".toList, "éa".toList] (by decide)).2
          prefixMaps h⟩)⟩

/-! ## The budget model -/

theorem wrapInt_modEq (x : Int) : wrapInt x ≡ x [ZMOD 2 ^ 64] := by
  unfold wrapInt
  have h : (x + 2 ^ 63) % 2 ^ 64 ≡ x + 2 ^ 63 [ZMOD 2 ^ 64] := Int.mod_modEq _ _
  have := h.sub_right (2 ^ 63)
  simpa using this

theorem wrapInt_congr (a b : Int) (h : a ≡ b [ZMOD 2 ^ 64]) : wrapInt a = wrapInt b := by
  unfold wrapInt
  have : (a + 2 ^ 63) % 2 ^ 64 = (b + 2 ^ 63) % 2 ^ 64 := h.add_right (2 ^ 63)
  rw [this]

theorem wrapInt_of_range (x : Int) (h1 : -2 ^ 63 ≤ x) (h2 : x < 2 ^ 63) : wrapInt x = x := by
  unfold wrapInt
  rw [Int.emod_eq_of_lt (by omega) (by omega)]
  omega

theorem mulInt_wrapInt (x y : Int) : mulInt (wrapInt x) y = wrapInt (x * y) :=
  wrapInt_congr _ _ ((wrapInt_modEq x).mul_right y)

theorem candidatesLoop_spec (flagAlphabetSize : Int) (k : Nat) :
    ∀ (i : Nat) (c : List Int), 1 ≤ i → i + k = c.length →
      (candidatesLoop flagAlphabetSize k i c).length = c.length ∧
        (∀ j, j < i → (candidatesLoop flagAlphabetSize k i c).getD j 0 = c.getD j 0) ∧
        ∀ j, i ≤ j → j < c.length →
          (candidatesLoop flagAlphabetSize k i c).getD j 0 =
            mulInt ((candidatesLoop flagAlphabetSize k i c).getD (j - 1) 0) flagAlphabetSize := by
  induction k with
  | zero =>
    intro i c _ hik
    refine ⟨rfl, fun _ _ => rfl, ?_⟩
    intro j h1 h2
    omega
  | succ k ih =>
    intro i c hi hik
    rw [candidatesLoop]
    obtain ⟨l, hlow, hrec⟩ := ih (i + 1)
      (c.set i (mulInt (c.getD (i - 1) 0) flagAlphabetSize)) (by omega) (by simp; omega)
    simp only [List.length_set] at l hrec
    refine ⟨l, ?_, ?_⟩
    · intro j hj
      rw [hlow j (by omega), getD_set_ne _ _ _ _ _ (by omega)]
    · intro j h1 h2
      by_cases hji : j = i
      · subst hji
        rw [hlow j (by omega), hlow (j - 1) (by omega), getD_set_self _ _ _ _ (by omega),
          getD_set_ne _ _ _ _ _ (by omega)]
      · exact hrec j (by omega) h2

theorem computeCandidates_spec (candidates0 flagAlphabetSize : Int) (nbPrefixes : Nat)
    (hN : 1 ≤ nbPrefixes) :
    ∃ c, computeCandidates candidates0 flagAlphabetSize nbPrefixes = some c ∧
      c.length = nbPrefixes ∧ c.getD 0 0 = candidates0 ∧
      ∀ i, i + 1 < nbPrefixes → c.getD (i + 1) 0 = mulInt (c.getD i 0) flagAlphabetSize := by
  unfold computeCandidates
  rw [if_neg (by omega)]
  obtain ⟨l, hlow, hrec⟩ := candidatesLoop_spec flagAlphabetSize (nbPrefixes - 1) 1
    ((List.replicate nbPrefixes 0).set 0 candidates0) (le_refl _) (by simp; omega)
  refine ⟨_, rfl, by rw [l]; simp, ?_, ?_⟩
  · rw [hlow 0 (by omega), getD_set_self _ _ _ _ (by simp; omega)]
  · intro i hi
    have := hrec (i + 1) (by omega) (by simp; omega)
    simpa using this

/-- The capacity array in closed form, in the 64-bit arithmetic of the
program. -/
theorem computeCandidates_closed (candidates0 flagAlphabetSize : Int) (nbPrefixes : Nat)
    (hN : 1 ≤ nbPrefixes) (hlo : -2 ^ 63 ≤ candidates0) (hhi : candidates0 < 2 ^ 63) :
    ∃ c, computeCandidates candidates0 flagAlphabetSize nbPrefixes = some c ∧
      c.length = nbPrefixes ∧ c.getD 0 0 = candidates0 ∧
      (∀ i, i + 1 < nbPrefixes → c.getD (i + 1) 0 = mulInt (c.getD i 0) flagAlphabetSize) ∧
      ∀ i, i < nbPrefixes → c.getD i 0 = wrapInt (candidates0 * flagAlphabetSize ^ i) := by
  obtain ⟨c, hc, hl, h0, hrec⟩ := computeCandidates_spec candidates0 flagAlphabetSize
    nbPrefixes hN
  refine ⟨c, hc, hl, h0, hrec, ?_⟩
  intro i
  induction i with
  | zero =>
    intro _
    rw [h0, pow_zero, mul_one, wrapInt_of_range _ hlo hhi]
  | succ i ih =>
    intro hi
    rw [hrec i hi, ih (by omega), mulInt_wrapInt, pow_succ, mul_assoc]

/-- C13: for `N ≥ 1` the capacity array has `N` entries, starts with
`Capacity[0]`, satisfies `Capacity[i+1] = Capacity[i] * alphabetSize` in the
program's 64-bit integer arithmetic, and so `Capacity[i]` is
`Capacity[0] * alphabetSize^i` in that arithmetic. -/
theorem capacity_recurrence (candidates0 flagAlphabetSize : Int) (nbPrefixes : Nat)
    (hN : 1 ≤ nbPrefixes) (hlo : -2 ^ 63 ≤ candidates0) (hhi : candidates0 < 2 ^ 63) :
    ∃ c, computeCandidates candidates0 flagAlphabetSize nbPrefixes = some c ∧
      c.length = nbPrefixes ∧ c.getD 0 0 = candidates0 ∧
      (∀ i, i + 1 < nbPrefixes → c.getD (i + 1) 0 = mulInt (c.getD i 0) flagAlphabetSize) ∧
      ∀ i, i < nbPrefixes → c.getD i 0 = wrapInt (candidates0 * flagAlphabetSize ^ i) :=
  computeCandidates_closed candidates0 flagAlphabetSize nbPrefixes hN hlo hhi

theorem capacity_recurrence_witness :
    ∃ c, computeCandidates 4 95 4 = some c ∧
      c.length = 4 ∧ c.getD 0 0 = 4 ∧
      (∀ i, i + 1 < 4 → c.getD (i + 1) 0 = mulInt (c.getD i 0) 95) ∧
      ∀ i, i < 4 → c.getD i 0 = wrapInt (4 * 95 ^ i) :=
  capacity_recurrence 4 95 4 (by decide) (by decide) (by decide)

/-- C14, as stated, fails: with `Capacity[0] = 2419200000000` (168 hours over 5
levels at 20000000 guesses per second, passwords of the minimal prefix
length), alphabet size 95 and 5 levels, the last capacity wraps around to a
negative number, below the one before it. -/
theorem capacity_wraps_around :
    computeCandidates 2419200000000 95 5 =
        some [2419200000000, 229824000000000, 21833280000000000, 2074161600000000000,
          -5868832810805067776] ∧
      ¬ ((2074161600000000000 : Int) ≤ -5868832810805067776) := by
  decide

/-- C14 (amended): for a non-negative `Capacity[0]`, an alphabet size of at
least 2 and `N ≥ 1` levels such that `Capacity[0] * alphabetSize^(N-1)` is
below `2^63` (no wrap-around), the capacity array is non-decreasing and
`Capacity[i]` is `Capacity[0] * alphabetSize^i`. -/
theorem capacity_monotone (candidates0 flagAlphabetSize : Int) (nbPrefixes : Nat)
    (hN : 1 ≤ nbPrefixes) (h0 : 0 ≤ candidates0) (ha : 2 ≤ flagAlphabetSize)
    (hfit : candidates0 * flagAlphabetSize ^ (nbPrefixes - 1) < 2 ^ 63) :
    ∃ c, computeCandidates candidates0 flagAlphabetSize nbPrefixes = some c ∧
      (∀ i, i < nbPrefixes → c.getD i 0 = candidates0 * flagAlphabetSize ^ i) ∧
      ∀ i, i + 1 < nbPrefixes → c.getD i 0 ≤ c.getD (i + 1) 0 := by
  have hpow : ∀ i j, i ≤ j → candidates0 * flagAlphabetSize ^ i ≤
      candidates0 * flagAlphabetSize ^ j := by
    intro i j hij
    apply mul_le_mul_of_nonneg_left _ h0
    exact pow_le_pow_right₀ (by omega) hij
  have hnn : ∀ i, 0 ≤ candidates0 * flagAlphabetSize ^ i := by
    intro i
    exact mul_nonneg h0 (pow_nonneg (by omega) _)
  have hlt : candidates0 < 2 ^ 63 := by
    have := hpow 0 (nbPrefixes - 1) (Nat.zero_le _)
    simp only [pow_zero, mul_one] at this
    omega
  obtain ⟨c, hc, -, -, -, hclosed⟩ := computeCandidates_closed candidates0 flagAlphabetSize
    nbPrefixes hN (by omega) hlt
  have hval : ∀ i, i < nbPrefixes → c.getD i 0 = candidates0 * flagAlphabetSize ^ i := by
    intro i hi
    rw [hclosed i hi]
    apply wrapInt_of_range
    · have := hnn i; omega
    · exact lt_of_le_of_lt (hpow i (nbPrefixes - 1) (by omega)) hfit
  refine ⟨c, hc, hval, ?_⟩
  intro i hi
  rw [hval i (by omega), hval (i + 1) hi]
  exact hpow i (i + 1) (Nat.le_succ i)

theorem capacity_monotone_witness :
    ∃ c, computeCandidates 4 95 4 = some c ∧
      (∀ i, i < 4 → c.getD i 0 = 4 * 95 ^ i) ∧
      ∀ i, i + 1 < 4 → c.getD i 0 ≤ c.getD (i + 1) 0 :=
  capacity_monotone 4 95 4 (by decide) (by decide) (by decide) (by decide)

/-- C15: with `-input` given, a duration that parses and `max-prefix` below
`min-prefix`, `main` ends with a run-time panic, not with a reported
configuration error: for lengths 5 and 4 at `nbCandidates[0]` on an empty
slice, for lengths 5 and 3 at `make([]int, nbPrefixes)`. -/
theorem invalid_range_panics :
    main
        { inputGiven := true
          durationParses := true
          candidates0 := 4
          flagMinPrefixLen := 5
          flagMaxPrefixLen := 4
          flagAlphabetSize := 95
          fileOpens := true } ["aaaaa1".toList] =
        { stdout := [], exit := MainExit.panic } ∧
      main
        { inputGiven := true
          durationParses := true
          candidates0 := 4
          flagMinPrefixLen := 5
          flagMaxPrefixLen := 3
          flagAlphabetSize := 95
          fileOpens := true } ["aaaaa1".toList] =
        { stdout := [], exit := MainExit.panic } := by
  decide

/-! ## The command `reverse` -/

theorem runesToString_injective : ∀ (p q : List Char),
    runesToString p = runesToString q → p = q := by
  intro p
  induction p with
  | nil =>
    intro q h
    cases q with
    | nil => rfl
    | cons d q =>
      have := encodeRune_length_pos d
      have hl := congrArg List.length h
      simp only [runesToString, List.length_nil, List.length_append] at hl
      omega
  | cons c p ih =>
    intro q h
    cases q with
    | nil =>
      have := encodeRune_length_pos c
      have hl := congrArg List.length h
      simp only [runesToString, List.length_nil, List.length_append] at hl
      omega
    | cons d q =>
      simp only [runesToString] at h
      have hcd : c = d := by
        by_contra hne
        rcases List.append_eq_append_iff.1 h with ⟨a', h1, -⟩ | ⟨c', h1, -⟩
        · exact encodeRune_not_prefix c d hne ⟨a', h1.symm⟩
        · exact encodeRune_not_prefix d c (Ne.symm hne) ⟨c', h1.symm⟩
      subst hcd
      rw [ih q (List.append_cancel_left h)]

theorem reverseLoop_eq (rns : List Char) (k : Nat) : ∀ (i : Nat) (b : GoString),
    i + k = rns.length →
    reverseLoop rns k i b = b ++ runesToString (rns.take k).reverse := by
  induction k with
  | zero => intro i b _; simp [reverseLoop, runesToString]
  | succ k ih =>
    intro i b hik
    have hidx : rns.length - 1 - i = k := by omega
    have hk : k < rns.length := by omega
    have ht : rns.take (k + 1) = rns.take k ++ [rns.getD k default] := by
      rw [List.take_succ, List.getD_eq_getElem _ _ hk]
      simp [List.getElem?_eq_getElem hk]
    rw [reverseLoop, ih (i + 1) _ (by omega), hidx, ht]
    simp [runesToString]

theorem Reverse_eq (rns : List Char) : Reverse rns = runesToString rns.reverse := by
  unfold Reverse
  rw [reverseLoop_eq rns rns.length 0 [] (by omega)]
  simp

/-- C16: `Reverse(s)` is the string of a unique sequence of code points; that
sequence has as many code points as `s`, its `k`-th code point is the
`(len-1-k)`-th code point of `s`, and `Reverse` applied to it gives back
`s`. -/
theorem Reverse_reverses (s : List Char) :
    ∃ out : List Char, Reverse s = runesToString out ∧
      (∀ out', Reverse s = runesToString out' → out' = out) ∧
      out.length = s.length ∧
      (∀ k, k < s.length → out.getD k default = s.getD (s.length - 1 - k) default) ∧
      Reverse out = runesToString s := by
  refine ⟨s.reverse, Reverse_eq s, ?_, List.length_reverse s, ?_, ?_⟩
  · intro out' h
    rw [Reverse_eq] at h
    exact (runesToString_injective _ _ h).symm
  · intro k hk
    rw [List.getD_eq_getElem _ _ (by simpa using hk), List.getD_eq_getElem _ _ (by omega),
      List.getElem_reverse]
  · rw [Reverse_eq, List.reverse_reverse]

theorem getD_set {α : Type} (l : List α) (i x : Nat) (v d : α) :
    (l.set i v).getD x d = if i = x ∧ i < l.length then v else l.getD x d := by
  simp only [List.getD_eq_getElem?_getD, List.getElem?_set]
  by_cases h : i = x
  · subst h
    by_cases h2 : i < l.length
    · simp [h2]
    · simp [h2, List.getElem?_eq_none (not_lt.1 h2)]
  · simp [h]

theorem cascade_length (i : Nat) (n : Nat) : ∀ counts : List Int,
    (cascade i n counts).length = counts.length := by
  induction n with
  | zero => intro counts; rfl
  | succ n ih => intro counts; rw [cascade, ih, List.length_set]

theorem cascade_getD (i : Nat) (n : Nat) (hn : n ≤ i) : ∀ (counts : List Int) (x : Nat),
    (cascade i n counts).getD x 0 =
      if x < n ∧ x < counts.length then counts.getD x 0 - counts.getD i 0
      else counts.getD x 0 := by
  induction n with
  | zero => intro counts x; simp [cascade]
  | succ n ih =>
    intro counts x
    rw [cascade, ih (by omega), List.length_set, getD_set, getD_set]
    have hni : ¬ (n = i ∧ n < counts.length) := fun h => by omega
    rw [if_neg hni]
    by_cases hx : x = n
    · subst hx
      by_cases hl : x < counts.length
      · simp [hl]
      · simp [hl]
    · have : ¬ (n = x ∧ n < counts.length) := fun h => hx h.1.symm
      rw [if_neg this]
      by_cases h1 : x < n
      · have : x < n + 1 := by omega
        simp [h1, this]
      · have : ¬ x < n + 1 := by omega
        simp [h1, this]

theorem levelStep_lengths (nbCandidates : List Int) (minLen currentPass : Nat)
    (prefixMaps : List PrefixMap) (word : List Char) (st : PassState) (m : Nat) :
    (levelStep nbCandidates minLen currentPass prefixMaps word st m).oldPrefixes.length =
        st.oldPrefixes.length ∧
      (levelStep nbCandidates minLen currentPass prefixMaps word st m).oldPrefixesCounts.length =
        st.oldPrefixesCounts.length := by
  by_cases hshort : word.length < m + minLen
  · rw [levelStep_short _ _ _ _ _ _ _ hshort]
    exact ⟨rfl, rfl⟩
  · by_cases heq : word.take (m + minLen) = st.oldPrefixes.getD m []
    · rw [levelStep_same _ _ _ _ _ _ _ hshort heq]
      exact ⟨rfl, by simp⟩
    · by_cases hm : m = currentPass
      · subst hm
        rw [levelStep_flush _ _ _ _ _ _ hshort heq]
        exact ⟨by simp, by simp⟩
      · rw [levelStep_cascade _ _ _ _ _ _ _ hm hshort heq]
        refine ⟨by simp, ?_⟩
        simp only [List.length_set]
        split
        · exact cascade_length _ _ _
        · rfl

theorem levelStep_pushed_mono (nbCandidates : List Int) (minLen currentPass : Nat)
    (prefixMaps : List PrefixMap) (word : List Char) (st : PassState) (m : Nat) :
    ∀ x ∈ st.pushed,
      x ∈ (levelStep nbCandidates minLen currentPass prefixMaps word st m).pushed := by
  intro x hx
  by_cases hshort : word.length < m + minLen
  · rw [levelStep_short _ _ _ _ _ _ _ hshort]
    exact hx
  · by_cases heq : word.take (m + minLen) = st.oldPrefixes.getD m []
    · rw [levelStep_same _ _ _ _ _ _ _ hshort heq]
      exact hx
    · by_cases hm : m = currentPass
      · subst hm
        rw [levelStep_flush _ _ _ _ _ _ hshort heq]
        simp only [flush]
        exact List.mem_append_left _ hx
      · rw [levelStep_cascade _ _ _ _ _ _ _ hm hshort heq]
        exact hx

theorem wordLevels_pushed_mono (nbCandidates : List Int) (minLen currentPass : Nat)
    (prefixMaps : List PrefixMap) (word : List Char) (k : Nat) : ∀ st : PassState,
    ∀ x ∈ st.pushed,
      x ∈ (wordLevels nbCandidates minLen currentPass prefixMaps word k st).pushed := by
  induction k with
  | zero => intro st x hx; exact hx
  | succ k ih =>
    intro st x hx
    rw [wordLevels]
    exact ih _ x (levelStep_pushed_mono _ _ _ _ _ _ _ x hx)

theorem scan_pushed_mono (nbCandidates : List Int) (minLen nbPrefixes currentPass : Nat)
    (prefixMaps : List PrefixMap) (corpus : List (List Char)) :
    ∀ oldWord st st',
      scan nbCandidates minLen nbPrefixes currentPass prefixMaps oldWord st corpus = some st' →
      ∀ x ∈ st.pushed, x ∈ st'.pushed := by
  induction corpus with
  | nil =>
    intro oldWord st st' h x hx
    simp only [scan, Option.some.injEq] at h
    rw [← h]; exact hx
  | cons word rest ih =>
    intro oldWord st st' h x hx
    rw [scan] at h
    split at h
    · cases h
    · exact ih _ _ _ h x (wordLevels_pushed_mono _ _ _ _ _ _ _ x hx)

/-- A level below `j` leaves the accumulators from `j` on untouched. -/
theorem levelStep_below (nbCandidates : List Int) (minLen currentPass : Nat)
    (prefixMaps : List PrefixMap) (word : List Char) (st st' : PassState) (j m : Nat)
    (hm : m < j) (h : AgreeFrom j st st') :
    AgreeFrom j (levelStep nbCandidates minLen currentPass prefixMaps word st m) st' := by
  obtain ⟨h0, h1, h2, h3⟩ := h
  obtain ⟨l1, l2⟩ := levelStep_lengths nbCandidates minLen currentPass prefixMaps word st m
  refine ⟨by rw [l2]; exact h0, by rw [l1]; exact h1, by rw [l2]; exact h2, ?_⟩
  intro x hx
  rw [← (h3 x hx).1, ← (h3 x hx).2]
  have hne : ¬ (m = x ∧ m < st.oldPrefixes.length) := fun e => by omega
  have hne' : ¬ (m = x ∧ m < st.oldPrefixesCounts.length) := fun e => by omega
  by_cases hshort : word.length < m + minLen
  · rw [levelStep_short _ _ _ _ _ _ _ hshort]
    exact ⟨rfl, rfl⟩
  · by_cases heq : word.take (m + minLen) = st.oldPrefixes.getD m []
    · rw [levelStep_same _ _ _ _ _ _ _ hshort heq]
      refine ⟨rfl, ?_⟩
      simp only
      rw [getD_set, if_neg hne']
    · by_cases hmc : m = currentPass
      · subst hmc
        rw [levelStep_flush _ _ _ _ _ _ hshort heq]
        simp only
        rw [getD_set, getD_set, if_neg hne, if_neg hne']
        exact ⟨rfl, rfl⟩
      · rw [levelStep_cascade _ _ _ _ _ _ _ hmc hshort heq]
        simp only
        rw [getD_set, getD_set, if_neg hne]
        refine ⟨rfl, ?_⟩
        by_cases hhas : mapHas (prefixMaps.getD m [])
            (runesToString (st.oldPrefixes.getD m [])) = true
        · rw [if_pos hhas]
          rw [if_neg (by rw [cascade_length]; exact hne'), cascade_getD _ _ (le_refl _),
            if_neg (fun e => by omega)]
        · rw [if_neg hhas]
          rw [if_neg hne']

theorem levelStepCascades_level (minLen currentPass : Nat) (prefixMaps : List PrefixMap)
    (word : List Char) (st : PassState) (m : Nat) :
    ∀ ev ∈ levelStepCascades minLen currentPass prefixMaps word st m,
      ev.level = m ∧ ev.Prefix = runesToString (st.oldPrefixes.getD m []) ∧
      ev.before = st.oldPrefixesCounts ∧ ev.after = cascade m m st.oldPrefixesCounts ∧
      ¬ word.length < m + minLen ∧ word.take (m + minLen) ≠ st.oldPrefixes.getD m [] ∧
      m ≠ currentPass ∧ mapHas (prefixMaps.getD m []) ev.Prefix = true := by
  intro ev hev
  unfold levelStepCascades at hev
  simp only at hev
  split at hev
  · cases hev
  · rename_i hshort
    split at hev
    · cases hev
    · rename_i hne
      split at hev
      · cases hev
      · rename_i hmc
        split at hev
        · rename_i hhas
          rw [List.mem_singleton] at hev
          subst hev
          exact ⟨rfl, rfl, rfl, rfl, hshort,
            fun e => hne ((runeSliceIsEqual_iff _ _).2 e), hmc, hhas⟩
        · cases hev

theorem wordLevels_below (nbCandidates : List Int) (minLen currentPass : Nat)
    (prefixMaps : List PrefixMap) (word : List Char) (st' : PassState) (j : Nat) (d : Nat) :
    ∀ st, currentPass + d ≤ j → AgreeFrom j st st' →
      AgreeFrom j (wordLevels nbCandidates minLen currentPass prefixMaps word d st) st' ∧
      ∀ ev ∈ wordLevelsCascades nbCandidates minLen currentPass prefixMaps word d st,
        ev.level ≠ j := by
  induction d with
  | zero =>
    intro st _ h
    exact ⟨h, fun ev hev => by simp [wordLevelsCascades] at hev⟩
  | succ d ih =>
    intro st hd h
    rw [wordLevels, wordLevelsCascades]
    obtain ⟨a, b⟩ := ih _ (by omega)
      (levelStep_below nbCandidates minLen currentPass prefixMaps word st st' j
        (currentPass + d) (by omega) h)
    refine ⟨a, ?_⟩
    intro ev hev
    rcases List.mem_append.1 hev with e | e
    · rw [(levelStepCascades_level _ _ _ _ _ _ ev e).1]
      omega
    · exact b ev e

/-- A level from `j` on, in pass `i < j` and in pass `j`: the accumulators from
`j` on evolve alike, and a cascade of level `j` in pass `i` subtracts the count
that pass `j` pushes into its selector with the same prefix. -/
theorem levelStep_sim (nbCandidates : List Int) (minLen i j : Nat) (hij : i < j)
    (pm pm' : List PrefixMap) (word : List Char) (st st' : PassState) (m : Nat) (hm : j ≤ m)
    (hpm : j < m → pm.getD m [] = pm'.getD m []) (h : AgreeFrom j st st') :
    AgreeFrom j (levelStep nbCandidates minLen i pm word st m)
        (levelStep nbCandidates minLen j pm' word st' m) ∧
      ∀ ev ∈ levelStepCascades minLen i pm word st m, ev.level = j →
        (∃ x ∈ (levelStep nbCandidates minLen j pm' word st' m).pushed,
          x.Prefix = ev.Prefix ∧ x.Count = ev.before.getD j 0) ∧
        ∀ x, x < j → ev.after.getD x 0 = ev.before.getD x 0 - ev.before.getD j 0 := by
  obtain ⟨h0, h1, h2, h3⟩ := h
  obtain ⟨l1, l2⟩ := levelStep_lengths nbCandidates minLen i pm word st m
  obtain ⟨l1', l2'⟩ := levelStep_lengths nbCandidates minLen j pm' word st' m
  have hmi : m ≠ i := by omega
  obtain ⟨hp, hcnt⟩ := h3 m hm
  constructor
  · refine ⟨by rw [l2]; exact h0, by rw [l1, l1']; exact h1, by rw [l2, l2']; exact h2, ?_⟩
    intro x hx
    obtain ⟨hpx, hcx⟩ := h3 x hx
    by_cases hshort : word.length < m + minLen
    · rw [levelStep_short _ _ _ _ _ _ _ hshort, levelStep_short _ _ _ _ _ _ _ hshort]
      exact ⟨hpx, hcx⟩
    · by_cases heq : word.take (m + minLen) = st.oldPrefixes.getD m []
      · rw [levelStep_same _ _ _ _ _ _ _ hshort heq,
          levelStep_same _ _ _ _ _ _ _ hshort (heq.trans hp)]
        refine ⟨hpx, ?_⟩
        simp only
        rw [getD_set, getD_set, hcnt, hcx, h2]
      · have heq' : word.take (m + minLen) ≠ st'.oldPrefixes.getD m [] := by
          rw [← hp]; exact heq
        rw [levelStep_cascade _ _ _ _ _ _ _ hmi hshort heq]
        by_cases hhas : mapHas (pm.getD m []) (runesToString (st.oldPrefixes.getD m [])) = true
        · by_cases hmj : m = j
          · subst hmj
            have hxm : ¬ x < m := by omega
            rw [levelStep_flush _ _ _ _ _ _ hshort heq']
            simp only [if_pos hhas, if_false, getD_set, cascade_length, cascade_getD m m (le_refl m),
              h1, h2, hpx, hcx, hxm, false_and, and_self]
          · rw [levelStep_cascade _ _ _ _ _ _ _ hmj hshort heq']
            have hhas' : mapHas (pm'.getD m []) (runesToString (st'.oldPrefixes.getD m [])) =
                true := by
              rw [← hp, ← hpm (by omega)]; exact hhas
            simp only [if_pos hhas, if_pos hhas', if_false, getD_set, cascade_length,
              cascade_getD m m (le_refl m), h1, h2, hpx, hcx, hcnt, and_self]
        · by_cases hmj : m = j
          · subst hmj
            rw [levelStep_flush _ _ _ _ _ _ hshort heq']
            simp only [if_neg hhas, getD_set, h1, h2, hpx, hcx, and_self]
          · rw [levelStep_cascade _ _ _ _ _ _ _ hmj hshort heq']
            have hhas' : ¬ mapHas (pm'.getD m []) (runesToString (st'.oldPrefixes.getD m [])) =
                true := by
              rw [← hp, ← hpm (by omega)]; exact hhas
            simp only [if_neg hhas, if_neg hhas', getD_set, h1, h2, hpx, hcx, and_self]
  · intro ev hev hlev
    obtain ⟨e1, e2, e3, e4, hshort, heq, -, -⟩ := levelStepCascades_level _ _ _ _ _ _ ev hev
    have hmj : m = j := by rw [← e1, hlev]
    subst hmj
    have heq' : word.take (m + minLen) ≠ st'.oldPrefixes.getD m [] := by
      rw [← hp]; exact heq
    constructor
    · rw [levelStep_flush _ _ _ _ _ _ hshort heq']
      refine ⟨{ Prefix := runesToString (st'.oldPrefixes.getD m []),
                Count := st'.oldPrefixesCounts.getD m 0 }, ?_, ?_, ?_⟩
      · simp [flush]
      · rw [e2, hp]
      · rw [e3, hcnt]
    · intro x hx
      rw [e4, e3, cascade_getD _ _ (le_refl _), if_pos ⟨hx, by omega⟩]

theorem wordLevels_sim (nbCandidates : List Int) (minLen i j : Nat) (hij : i < j)
    (pm pm' : List PrefixMap) (hpm : ∀ m, j < m → pm.getD m [] = pm'.getD m [])
    (word : List Char) (k : Nat) :
    ∀ st st', AgreeFrom j st st' →
      AgreeFrom j (wordLevels nbCandidates minLen i pm word (j - i + k) st)
        (wordLevels nbCandidates minLen j pm' word k st') ∧
      ∀ ev ∈ wordLevelsCascades nbCandidates minLen i pm word (j - i + k) st, ev.level = j →
        (∃ x ∈ (wordLevels nbCandidates minLen j pm' word k st').pushed,
          x.Prefix = ev.Prefix ∧ x.Count = ev.before.getD j 0) ∧
        ∀ x, x < j → ev.after.getD x 0 = ev.before.getD x 0 - ev.before.getD j 0 := by
  induction k with
  | zero =>
    intro st st' h
    obtain ⟨a, b⟩ := wordLevels_below nbCandidates minLen i pm word st' j (j - i) st
      (by omega) h
    exact ⟨a, fun ev hev hl => absurd hl (b ev hev)⟩
  | succ k ih =>
    intro st st' h
    have hk : j - i + (k + 1) = (j - i + k) + 1 := by omega
    have hlvl : i + (j - i + k) = j + k := by omega
    rw [hk, wordLevels, wordLevelsCascades, hlvl, wordLevels]
    obtain ⟨a, b⟩ := levelStep_sim nbCandidates minLen i j hij pm pm' word st st' (j + k)
      (by omega) (fun hh => hpm _ hh) h
    obtain ⟨a', b'⟩ := ih _ _ a
    refine ⟨a', ?_⟩
    intro ev hev hl
    rcases List.mem_append.1 hev with e | e
    · obtain ⟨⟨x, hx, hx'⟩, c⟩ := b ev e hl
      exact ⟨⟨x, wordLevels_pushed_mono _ _ _ _ _ _ _ x hx, hx'⟩, c⟩
    · exact b' ev e hl

theorem scan_sim (nbCandidates : List Int) (minLen nbPrefixes i j : Nat) (hij : i < j)
    (hj : j ≤ nbPrefixes)
    (pm pm' : List PrefixMap) (hpm : ∀ m, j < m → pm.getD m [] = pm'.getD m [])
    (corpus : List (List Char)) :
    ∀ oldWord st st' stF, AgreeFrom j st st' →
      scan nbCandidates minLen nbPrefixes j pm' oldWord st' corpus = some stF →
      ∀ ev ∈ scanCascades nbCandidates minLen nbPrefixes i pm oldWord st corpus, ev.level = j →
        (∃ x ∈ stF.pushed, x.Prefix = ev.Prefix ∧ x.Count = ev.before.getD j 0) ∧
        ∀ x, x < j → ev.after.getD x 0 = ev.before.getD x 0 - ev.before.getD j 0 := by
  have hN : nbPrefixes - i = j - i + (nbPrefixes - j) := by omega
  induction corpus with
  | nil =>
    intro oldWord st st' stF _ _ ev hev
    simp [scanCascades] at hev
  | cons word rest ih =>
    intro oldWord st st' stF h hscan ev hev hl
    rw [scan] at hscan
    rw [scanCascades] at hev
    split at hscan
    · cases hscan
    · rename_i hlt
      rw [if_neg hlt, hN] at hev
      obtain ⟨a, b⟩ := wordLevels_sim nbCandidates minLen i j hij pm pm' hpm word
        (nbPrefixes - j) st st' h
      rcases List.mem_append.1 hev with e | e
      · obtain ⟨⟨x, hx, hx'⟩, c⟩ := b ev e hl
        exact ⟨⟨x, scan_pushed_mono _ _ _ _ _ _ _ _ _ hscan x hx, hx'⟩, c⟩
      · exact ih _ _ _ _ a hscan ev e hl

theorem AgreeFrom_initState (minLen nbPrefixes j : Nat) (hj : j < nbPrefixes) :
    AgreeFrom j (initState minLen nbPrefixes) (initState minLen nbPrefixes) :=
  ⟨by simp [initState, hj], rfl, rfl, fun _ _ => ⟨rfl, rfl⟩⟩

/-- A cascade of level `j` in a pass `i < j` subtracts the count that pass `j`
pushed into its selector with the same prefix. -/
theorem passCascades_pushed (nbCandidates : List Int) (minLen nbPrefixes i j : Nat)
    (hij : i < j) (hj : j < nbPrefixes)
    (pm pm' : List PrefixMap) (hpm : ∀ m, j < m → pm.getD m [] = pm'.getD m [])
    (corpus : List (List Char)) (st' : PassState)
    (h : passState nbCandidates minLen nbPrefixes corpus pm' j = some st') :
    ∀ ev ∈ passCascades nbCandidates minLen nbPrefixes corpus pm i, ev.level = j →
      (∃ x ∈ st'.pushed, x.Prefix = ev.Prefix ∧ x.Count = ev.before.getD j 0) ∧
      ∀ x, x < j → ev.after.getD x 0 = ev.before.getD x 0 - ev.before.getD j 0 := by
  intro ev hev hl
  unfold passState at h
  cases hs : scan nbCandidates minLen nbPrefixes j pm' [] (initState minLen nbPrefixes)
      corpus with
  | none => rw [hs] at h; cases h
  | some s0 =>
    rw [hs] at h
    simp only [Option.map_some', Option.some.injEq] at h
    obtain ⟨⟨x, hx, hx'⟩, c⟩ := scan_sim nbCandidates minLen nbPrefixes i j hij (by omega)
      pm pm' hpm corpus [] _ _ s0 (AgreeFrom_initState minLen nbPrefixes j hj) hs ev hev hl
    refine ⟨⟨x, ?_, hx'⟩, c⟩
    rw [← h]
    simp only [flush]
    exact List.mem_append_left _ hx

theorem wordLevelsCascades_has (nbCandidates : List Int) (minLen currentPass : Nat)
    (prefixMaps : List PrefixMap) (word : List Char) (k : Nat) : ∀ st,
    ∀ ev ∈ wordLevelsCascades nbCandidates minLen currentPass prefixMaps word k st,
      mapHas (prefixMaps.getD ev.level []) ev.Prefix = true ∧ currentPass < ev.level := by
  induction k with
  | zero => intro st ev hev; simp [wordLevelsCascades] at hev
  | succ k ih =>
    intro st ev hev
    rw [wordLevelsCascades] at hev
    rcases List.mem_append.1 hev with e | e
    · obtain ⟨e1, -, -, -, -, -, hne, hhas⟩ := levelStepCascades_level _ _ _ _ _ _ ev e
      rw [e1]
      exact ⟨hhas, by omega⟩
    · exact ih _ ev e

theorem scanCascades_has (nbCandidates : List Int) (minLen nbPrefixes currentPass : Nat)
    (prefixMaps : List PrefixMap) (corpus : List (List Char)) : ∀ oldWord st,
    ∀ ev ∈ scanCascades nbCandidates minLen nbPrefixes currentPass prefixMaps oldWord st corpus,
      mapHas (prefixMaps.getD ev.level []) ev.Prefix = true ∧ currentPass < ev.level := by
  induction corpus with
  | nil => intro oldWord st ev hev; simp [scanCascades] at hev
  | cons word rest ih =>
    intro oldWord st ev hev
    rw [scanCascades] at hev
    split at hev
    · cases hev
    · rcases List.mem_append.1 hev with e | e
      · exact wordLevelsCascades_has _ _ _ _ _ _ _ ev e
      · exact ih _ _ ev e

/-- Elements of a list with distinct keys are determined by their key. -/
theorem eq_of_nodup_keys (l : List prefixCount) (h : (l.map prefixCount.Prefix).Nodup)
    (x y : prefixCount) (hx : x ∈ l) (hy : y ∈ l) (hxy : x.Prefix = y.Prefix) : x = y :=
  List.inj_on_of_nodup_map h hx hy hxy

/-- C17: on a sorted corpus the passes complete when their allocations succeed
(non-negative capacities within the limit of the run time), and whenever they
complete, every pass `i` ran with a family `pm` of level results that holds
`LevelResult[j]` at every level `j > i`; whenever that pass replaces the
accumulator of a level `j > i` whose prefix `p` is a key of `LevelResult[j]`,
the running count of level `j` at that moment is the finalized count
`LevelResult[j][p]`, and the loop of lines 170-172 subtracts it from the running
count of every level below `j`. -/
theorem cascade_subtracts_finalized_count (nbCandidates : List Int) (minLen nbPrefixes : Nat)
    (corpus : List (List Char)) (hs : corpusSorted corpus = true) :
    ((∀ i, i < nbPrefixes → passAllocates nbCandidates minLen nbPrefixes i) →
        ∃ r, reduce nbCandidates minLen nbPrefixes corpus = Run.done r) ∧
      ∀ r, reduce nbCandidates minLen nbPrefixes corpus = Run.done r →
        ∀ i, i < nbPrefixes → ∃ pm st,
          (∀ j, i < j → pm.getD j [] = r.prefixMaps.getD j []) ∧
          passState nbCandidates minLen nbPrefixes corpus pm i = some st ∧
          r.prefixMaps.getD i [] =
            drain st.currentPrefixHeap.length st.currentPrefixHeap [] ∧
          ∀ ev ∈ passCascades nbCandidates minLen nbPrefixes corpus pm i,
            i < ev.level ∧
            mapGet (r.prefixMaps.getD ev.level []) ev.Prefix =
              some (ev.before.getD ev.level 0) ∧
            ∀ m, m < ev.level →
              ev.after.getD m 0 = ev.before.getD m 0 - ev.before.getD ev.level 0 := by
  refine ⟨fun ha => reduce_done_of_sorted nbCandidates minLen nbPrefixes corpus hs ha, ?_⟩
  intro r hr
  obtain ⟨hlen, hlv⟩ := reduce_spec _ _ _ _ _ hr
  intro i hi
  obtain ⟨pm, st, hpm, -, hps, hmap, -⟩ := hlv i hi
  refine ⟨pm, st, hpm, hps, hmap, ?_⟩
  intro ev hev
  obtain ⟨hhas, hlt⟩ := scanCascades_has _ _ _ _ _ _ _ _ ev hev
  have hjN : ev.level < nbPrefixes := by
    by_contra hge
    have : r.prefixMaps.getD ev.level [] = [] := by
      rw [List.getD_eq_default]
      omega
    rw [hpm _ hlt, this] at hhas
    simp [mapHas] at hhas
  obtain ⟨pm', st', hpm', -, hps', hmap', -⟩ := hlv ev.level hjN
  have hagree : ∀ m, ev.level < m → pm.getD m [] = pm'.getD m [] := by
    intro m hm
    rw [hpm m (by omega), hpm' m hm]
  obtain ⟨⟨x, hx, hxp, hxc⟩, hsub⟩ := passCascades_pushed nbCandidates minLen nbPrefixes i
    ev.level hlt hjN pm pm' hagree corpus st' hps' ev hev rfl
  refine ⟨hlt, ?_, hsub⟩
  have hheap := passState_heapHist _ _ _ _ _ _ _ hps'
  have hnd := passState_pushed_nodup _ _ _ _ _ hjN corpus hs _ hps'
  rw [hpm _ hlt, hmap'] at hhas
  obtain ⟨kv, hkv, hk⟩ := (mapHas_iff _ _).1 hhas
  rcases drain_mem _ _ _ _ hkv with h | ⟨e, he, hh⟩
  · cases h
  · have he' : e ∈ st'.pushed := by
      rw [hheap] at he
      exact selectorFold_subset _ _ e he
    have hex : e = x := eq_of_nodup_keys _ hnd e x he' hx (by rw [hh.1, hk, hxp])
    rw [hmap', ← hxc, ← hxp, ← hex]
    apply drain_get _ _ _ _ _ (le_refl _) he
    rw [hheap]
    exact selectorFold_keys_nodup _ _ hnd

theorem cascade_subtracts_finalized_count_witness :
    corpusSorted ["aa1".toList, "aa2".toList, "aa3".toList, "ab1".toList] = true ∧
      (∀ i, i < 2 → passAllocates [10, 10] 1 2 i) ∧
      passCascades [10, 10] 1 2 ["aa1".toList, "aa2".toList, "aa3".toList, "ab1".toList]
          [[], [([97, 97], 3), ([97, 98], 1), ([0, 0], 0)]] 0 =
        [{ level := 1, Prefix := [0, 0], before := [0, 0], after := [0, 0] },
          { level := 1, Prefix := [97, 97], before := [3, 3], after := [0, 3] }] ∧
      levelResults [10, 10] 1 2 ["aa1".toList, "aa2".toList, "aa3".toList, "ab1".toList] =
        Run.done [[([97], 1), ([0], 0)], [([97, 97], 3), ([97, 98], 1), ([0, 0], 0)]] ∧
      ∃ r, reduce [10, 10] 1 2 ["aa1".toList, "aa2".toList, "aa3".toList, "ab1".toList] =
          Run.done r ∧
        ∀ i, i < 2 → ∃ pm st,
          (∀ j, i < j → pm.getD j [] = r.prefixMaps.getD j []) ∧
          passState [10, 10] 1 2 ["aa1".toList, "aa2".toList, "aa3".toList, "ab1".toList]
            pm i = some st ∧
          r.prefixMaps.getD i [] =
            drain st.currentPrefixHeap.length st.currentPrefixHeap [] ∧
          ∀ ev ∈ passCascades [10, 10] 1 2
              ["aa1".toList, "aa2".toList, "aa3".toList, "ab1".toList] pm i,
            i < ev.level ∧
            mapGet (r.prefixMaps.getD ev.level []) ev.Prefix =
              some (ev.before.getD ev.level 0) ∧
            ∀ m, m < ev.level →
              ev.after.getD m 0 = ev.before.getD m 0 - ev.before.getD ev.level 0 :=
  ⟨by decide, by decide, by decide, by decide,
    ((cascade_subtracts_finalized_count [10, 10] 1 2
      ["aa1".toList, "aa2".toList, "aa3".toList, "ab1".toList] (by decide)).1
      (by decide)).elim
      (fun r h => ⟨r, h,
        (cascade_subtracts_finalized_count [10, 10] 1 2
          ["aa1".toList, "aa2".toList, "aa3".toList, "ab1".toList] (by decide)).2 r h⟩)⟩

/-! ## Absence of run-time panics -/

theorem getElem?_eq_some_getD {α : Type} (l : List α) (i : Nat) (d : α) (h : i < l.length) :
    l[i]? = some (l.getD i d) := by
  rw [List.getD_eq_getElem _ _ h, List.getElem?_eq_getElem h]

theorem cascadeChecked_eq (i : Nat) (n : Nat) : ∀ counts : List Int,
    n ≤ counts.length → i < counts.length →
    cascadeChecked i n counts = some (cascade i n counts) := by
  induction n with
  | zero => intro counts _ _; rfl
  | succ n ih =>
    intro counts hn hi
    rw [cascadeChecked, getElem?_eq_some_getD counts n 0 (by omega),
      getElem?_eq_some_getD counts i 0 hi, cascade]
    exact ih _ (by rw [List.length_set]; omega) (by rw [List.length_set]; exact hi)

theorem selectorInsertChecked_eq (cap : Int) (h : prefixCountHeap) (x : prefixCount) :
    selectorInsertChecked cap h x = some (selectorInsert cap h x).1 := by
  unfold selectorInsertChecked selectorInsert
  obtain ⟨e, h2, hp⟩ := heapPop_isSome (heapPush h x) (by rw [heapPush_length]; omega)
  simp only [hp]
  split <;> rfl

theorem flushChecked_eq (nbCandidates : List Int) (currentPass : Nat) (st : PassState)
    (h1 : currentPass < st.oldPrefixes.length) (h2 : currentPass < st.oldPrefixesCounts.length)
    (h3 : currentPass < nbCandidates.length) :
    flushChecked nbCandidates currentPass st = some (flush nbCandidates currentPass st) := by
  unfold flushChecked
  rw [getElem?_eq_some_getD _ _ [] h1, getElem?_eq_some_getD _ _ 0 h2,
    getElem?_eq_some_getD _ _ 0 h3]
  simp only [selectorInsertChecked_eq]
  rfl

theorem levelStepChecked_eq (nbCandidates : List Int) (minLen currentPass : Nat)
    (prefixMaps : List PrefixMap) (word : List Char) (st : PassState) (i : Nat)
    (h1 : i < st.oldPrefixes.length) (h2 : i < st.oldPrefixesCounts.length)
    (h3 : i < nbCandidates.length) (h4 : i < prefixMaps.length) :
    levelStepChecked nbCandidates minLen currentPass prefixMaps word st i =
      some (levelStep nbCandidates minLen currentPass prefixMaps word st i) := by
  unfold levelStepChecked levelStep
  simp only
  split
  · rfl
  · rename_i hshort
    have hw : runesTo word (i + minLen) = some (word.take (i + minLen)) := by
      unfold runesTo
      rw [if_pos (not_lt.1 hshort)]
    rw [hw, getElem?_eq_some_getD _ _ [] h1, getElem?_eq_some_getD _ _ 0 h2]
    simp only
    split
    · rfl
    · by_cases hi : i = currentPass
      · subst hi
        rw [if_pos rfl, if_pos rfl, flushChecked_eq _ _ _ h1 h2 h3]
        rfl
      · rw [if_neg hi, if_neg hi, getElem?_eq_some_getD _ _ [] h4]
        simp only
        split
        · rw [cascadeChecked_eq _ _ _ (le_of_lt h2) h2]
          rfl
        · rfl

theorem wordLevels_lengths (nbCandidates : List Int) (minLen currentPass : Nat)
    (prefixMaps : List PrefixMap) (word : List Char) (k : Nat) : ∀ st : PassState,
    (wordLevels nbCandidates minLen currentPass prefixMaps word k st).oldPrefixes.length =
        st.oldPrefixes.length ∧
      (wordLevels nbCandidates minLen currentPass prefixMaps word k st).oldPrefixesCounts.length =
        st.oldPrefixesCounts.length := by
  induction k with
  | zero => intro st; exact ⟨rfl, rfl⟩
  | succ k ih =>
    intro st
    rw [wordLevels]
    obtain ⟨a, b⟩ := ih (levelStep nbCandidates minLen currentPass prefixMaps word st
      (currentPass + k))
    obtain ⟨c, d⟩ := levelStep_lengths nbCandidates minLen currentPass prefixMaps word st
      (currentPass + k)
    exact ⟨a.trans c, b.trans d⟩

theorem scan_lengths (nbCandidates : List Int) (minLen nbPrefixes currentPass : Nat)
    (prefixMaps : List PrefixMap) (corpus : List (List Char)) :
    ∀ oldWord st st',
      scan nbCandidates minLen nbPrefixes currentPass prefixMaps oldWord st corpus = some st' →
      st'.oldPrefixes.length = st.oldPrefixes.length ∧
        st'.oldPrefixesCounts.length = st.oldPrefixesCounts.length := by
  induction corpus with
  | nil =>
    intro oldWord st st' h
    simp only [scan, Option.some.injEq] at h
    rw [← h]; exact ⟨rfl, rfl⟩
  | cons word rest ih =>
    intro oldWord st st' h
    rw [scan] at h
    split at h
    · cases h
    · obtain ⟨a, b⟩ := ih _ _ _ h
      obtain ⟨c, d⟩ := wordLevels_lengths nbCandidates minLen currentPass prefixMaps word
        (nbPrefixes - currentPass) st
      exact ⟨a.trans c, b.trans d⟩

theorem wordLevelsChecked_eq (nbCandidates : List Int) (minLen currentPass : Nat)
    (prefixMaps : List PrefixMap) (word : List Char) (k : Nat) : ∀ st : PassState,
    currentPass + k ≤ st.oldPrefixes.length → currentPass + k ≤ st.oldPrefixesCounts.length →
    currentPass + k ≤ nbCandidates.length → currentPass + k ≤ prefixMaps.length →
    wordLevelsChecked nbCandidates minLen currentPass prefixMaps word k st =
      some (wordLevels nbCandidates minLen currentPass prefixMaps word k st) := by
  induction k with
  | zero => intro st _ _ _ _; rfl
  | succ k ih =>
    intro st h1 h2 h3 h4
    rw [wordLevelsChecked, levelStepChecked_eq _ _ _ _ _ _ _ (by omega) (by omega) (by omega)
      (by omega), wordLevels]
    obtain ⟨c, d⟩ := levelStep_lengths nbCandidates minLen currentPass prefixMaps word st
      (currentPass + k)
    exact ih _ (by rw [c]; omega) (by rw [d]; omega) (by omega) (by omega)

theorem scanChecked_eq (nbCandidates : List Int) (minLen nbPrefixes currentPass : Nat)
    (prefixMaps : List PrefixMap) (hcp : currentPass ≤ nbPrefixes)
    (h3 : nbPrefixes ≤ nbCandidates.length) (h4 : nbPrefixes ≤ prefixMaps.length)
    (corpus : List (List Char)) :
    ∀ oldWord st, nbPrefixes ≤ st.oldPrefixes.length → nbPrefixes ≤ st.oldPrefixesCounts.length →
      scanChecked nbCandidates minLen nbPrefixes currentPass prefixMaps oldWord st corpus =
        match scan nbCandidates minLen nbPrefixes currentPass prefixMaps oldWord st corpus with
        | some st' => Run.done st'
        | none => Run.orderViolation := by
  induction corpus with
  | nil => intro oldWord st _ _; rfl
  | cons word rest ih =>
    intro oldWord st h1 h2
    rw [scanChecked, scan]
    split
    · rfl
    · rw [wordLevelsChecked_eq _ _ _ _ _ _ _ (by omega) (by omega) (by omega) (by omega)]
      obtain ⟨c, d⟩ := wordLevels_lengths nbCandidates minLen currentPass prefixMaps word
        (nbPrefixes - currentPass) st
      exact ih _ _ (by rw [c]; exact h1) (by rw [d]; exact h2)

theorem initState_lengths (minLen nbPrefixes : Nat) :
    (initState minLen nbPrefixes).oldPrefixes.length = nbPrefixes ∧
      (initState minLen nbPrefixes).oldPrefixesCounts.length = nbPrefixes := by
  simp [initState]

theorem passStateChecked_eq (nbCandidates : List Int) (minLen nbPrefixes currentPass : Nat)
    (prefixMaps : List PrefixMap) (hcp : currentPass < nbPrefixes)
    (h3 : nbPrefixes ≤ nbCandidates.length) (h4 : nbPrefixes ≤ prefixMaps.length)
    (corpus : List (List Char)) :
    passStateChecked nbCandidates minLen nbPrefixes corpus prefixMaps currentPass =
      match passState nbCandidates minLen nbPrefixes corpus prefixMaps currentPass with
      | some st => Run.done st
      | none => Run.orderViolation := by
  obtain ⟨i1, i2⟩ := initState_lengths minLen nbPrefixes
  unfold passStateChecked passState
  rw [scanChecked_eq _ _ _ _ _ (le_of_lt hcp) h3 h4 corpus [] _ (by rw [i1]) (by rw [i2])]
  cases hs : scan nbCandidates minLen nbPrefixes currentPass prefixMaps []
      (initState minLen nbPrefixes) corpus with
  | none => rfl
  | some st =>
    obtain ⟨a, b⟩ := scan_lengths _ _ _ _ _ _ _ _ _ hs
    simp only [Option.map_some']
    rw [flushChecked_eq _ _ _ (by rw [a, i1]; exact hcp) (by rw [b, i2]; exact hcp)
      (by omega)]

theorem runPassChecked_eq (nbCandidates : List Int) (minLen nbPrefixes currentPass : Nat)
    (r : Reducer) (hcp : currentPass < nbPrefixes)
    (h3 : nbPrefixes ≤ nbCandidates.length) (h4 : nbPrefixes ≤ r.prefixMaps.length)
    (corpus : List (List Char)) :
    runPassChecked nbCandidates minLen nbPrefixes corpus r currentPass =
      runPass nbCandidates minLen nbPrefixes corpus r currentPass := by
  unfold runPassChecked runPass passMakePanics
  rw [getElem?_eq_some_getD _ _ 0 (by omega : currentPass < nbCandidates.length),
    passStateChecked_eq _ _ _ _ _ hcp h3 h4,
    getElem?_eq_some_getD _ _ [] (by omega : currentPass < r.prefixMaps.length)]
  simp only
  split
  · rfl
  · cases passState nbCandidates minLen nbPrefixes corpus r.prefixMaps currentPass <;> rfl

theorem runPassesChecked_eq (nbCandidates : List Int) (minLen nbPrefixes : Nat)
    (h3 : nbPrefixes ≤ nbCandidates.length) (corpus : List (List Char)) (k : Nat)
    (hk : k ≤ nbPrefixes) :
    ∀ r : Reducer, nbPrefixes ≤ r.prefixMaps.length →
      runPassesChecked nbCandidates minLen nbPrefixes corpus k r =
        runPasses nbCandidates minLen nbPrefixes corpus k r := by
  induction k with
  | zero => intro r _; rfl
  | succ k ih =>
    intro r h4
    rw [runPassesChecked, runPasses, runPassChecked_eq _ _ _ _ _ (by omega) h3 h4]
    cases hr : runPass nbCandidates minLen nbPrefixes corpus r k with
    | orderViolation => rfl
    | panic => rfl
    | done r1 =>
      simp only
      obtain ⟨-, st, -, hr1⟩ := runPass_done _ _ _ _ _ _ _ hr
      apply ih (by omega)
      rw [hr1]
      simp only [List.length_set]
      exact h4

theorem reduceChecked_eq (nbCandidates : List Int) (minLen nbPrefixes : Nat)
    (h3 : nbPrefixes ≤ nbCandidates.length) (corpus : List (List Char)) :
    reduceChecked nbCandidates minLen nbPrefixes corpus =
      reduce nbCandidates minLen nbPrefixes corpus := by
  unfold reduceChecked reduce
  rw [runPassesChecked_eq nbCandidates minLen nbPrefixes h3 corpus nbPrefixes (le_refl _) _
    (by simp [initReducer])]

/-- The keys of level `i` left by the passes have at least `i + minLen`
bytes. -/
theorem reduce_keysLongEnough (nbCandidates : List Int) (minLen nbPrefixes : Nat)
    (corpus : List (List Char)) (r : Reducer)
    (hr : reduce nbCandidates minLen nbPrefixes corpus = Run.done r) :
    keysLongEnough r.prefixMaps minLen := by
  obtain ⟨hlen, hlv⟩ := reduce_spec _ _ _ _ _ hr
  intro i kv hkv
  by_cases hi : i < nbPrefixes
  · obtain ⟨pm, st, -, -, hps, hmap, -⟩ := hlv i hi
    have hheap := passState_heapHist _ _ _ _ _ _ _ hps
    rw [hmap] at hkv
    rcases drain_mem _ _ _ _ hkv with h | ⟨e, he, hh⟩
    · cases h
    · rw [hheap] at he
      obtain ⟨p, hp, hpe⟩ := passState_pushed_runes _ _ _ _ _ hi _ _ hps e
        (selectorFold_subset _ _ e he)
      rw [← hh.1, hpe]
      exact le_trans (by omega) (length_le_runesToString p)
  · rw [List.getD_eq_default _ _ (by omega)] at hkv
    cases hkv

/-- C20, as stated, fails: for the one-line corpus `aaaaaaaaaa1`, one level of
length 10 and the non-negative capacity 12096000000000 (the default duration
of 168 hours at the default 20000000 guesses per second, for passwords of
length 10), also for the capacity `2^62`, the first pass panics at
`make(prefixCountHeap, 0, nbCandidates[currentPass])` (line 128, "makeslice:
cap out of range"). -/
theorem pass_panics_at_large_capacity :
    corpusSorted ["aaaaaaaaaa1".toList] = true ∧
      (0 : Int) ≤ 12096000000000 ∧
      presufChecked [12096000000000] 10 1 ["aaaaaaaaaa1".toList] =
        { stdout := [], exit := Exit.panic } ∧
      presuf [12096000000000] 10 1 ["aaaaaaaaaa1".toList] =
        { stdout := [], exit := Exit.panic } ∧
      presufChecked [2 ^ 62] 10 1 ["aaaaaaaaaa1".toList] =
        { stdout := [], exit := Exit.panic } := by
  decide

/-- C20 (amended): on a sorted corpus, with one capacity per level and when
the allocations of the passes succeed (every capacity is non-negative and at
most `maxAlloc / 24`, the number of levels at most `maxAlloc / 24` and the
prefix lengths at most `maxAlloc / 4`), the program with every index and slice
expression of the passes (`word[0:prefixLen]`, `oldPrefixes[i]`,
`oldPrefixesCounts[j]`, `nbCandidates[i]`, `prefixMaps[i]`), every `heap.Pop`
and every `k[0:prefixLen]` of the redundancy eliminator checked as the Go run
time checks them, computes what the unchecked model computes and ends normally:
no check fails and nothing panics. -/
theorem no_out_of_range_access (nbCandidates : List Int) (minLen nbPrefixes : Nat)
    (corpus : List (List Char)) (hs : corpusSorted corpus = true)
    (hl : nbCandidates.length = nbPrefixes)
    (ha : ∀ i, i < nbPrefixes → passAllocates nbCandidates minLen nbPrefixes i) :
    reduceChecked nbCandidates minLen nbPrefixes corpus =
        reduce nbCandidates minLen nbPrefixes corpus ∧
      (∃ r, reduceChecked nbCandidates minLen nbPrefixes corpus = Run.done r) ∧
      presufChecked nbCandidates minLen nbPrefixes corpus =
        presuf nbCandidates minLen nbPrefixes corpus ∧
      (presufChecked nbCandidates minLen nbPrefixes corpus).exit = Exit.ok := by
  have heq := reduceChecked_eq nbCandidates minLen nbPrefixes (by omega) corpus
  obtain ⟨r, hr⟩ := reduce_done_of_sorted nbCandidates minLen nbPrefixes corpus hs ha
  have hp : presufChecked nbCandidates minLen nbPrefixes corpus =
      finale r.prefixMaps minLen nbPrefixes nbPrefixes [] := by
    unfold presufChecked
    rw [heq, hr]
  have hp' : presuf nbCandidates minLen nbPrefixes corpus =
      finale r.prefixMaps minLen nbPrefixes nbPrefixes [] := by
    unfold presuf
    rw [levelResults_of_reduce _ _ _ _ _ hr]
  refine ⟨heq, ⟨r, by rw [heq, hr]⟩, by rw [hp, hp'], ?_⟩
  rw [hp]
  exact (finale_spec r.prefixMaps minLen nbPrefixes
    (reduce_keysLongEnough _ _ _ _ _ hr) nbPrefixes (le_refl _) []).1

theorem no_out_of_range_access_witness :
    corpusSorted ["aa1".toList, "ab".toList, "éa".toList] = true ∧
      ([3, 3] : List Int).length = 2 ∧
      (∀ i, i < 2 → passAllocates [3, 3] 1 2 i) ∧
      reduceChecked [3, 3] 1 2 ["aa1".toList, "ab".toList, "éa".toList] =
        reduce [3, 3] 1 2 ["aa1".toList, "ab".toList, "éa".toList] ∧
      (∃ r, reduceChecked [3, 3] 1 2 ["aa1".toList, "ab".toList, "éa".toList] = Run.done r) ∧
      presufChecked [3, 3] 1 2 ["aa1".toList, "ab".toList, "éa".toList] =
        presuf [3, 3] 1 2 ["aa1".toList, "ab".toList, "éa".toList] ∧
      (presufChecked [3, 3] 1 2 ["aa1".toList, "ab".toList, "éa".toList]).exit = Exit.ok :=
  ⟨by decide, by decide, by decide,
    no_out_of_range_access [3, 3] 1 2 ["aa1".toList, "ab".toList, "éa".toList]
      (by decide) (by decide) (by decide)⟩

end Presuf
